import Mathlib

/-!
# QuickRank: NDCG scorer, IDCG cache and SVML reader

A shallow embedding of `src/metric/ndcgscorer.hpp` and of the line parser of
`src/io/svml.cc`.

Conventions of the embedding.

* `float` values are modelled by an ordered field `α` with exact arithmetic
  (instantiated with `ℝ` in the theorems); rounding is not modelled.
  `log2` of `<cmath>` is a parameter, instantiated with `Real.logb 2`.
* `int` is modelled by `Int` with explicit reduction to 32 bits.
* An operation whose C++ behaviour is undefined (a shift by a negative count
  or by 32 or more, an access outside an allocated array) makes the embedded
  function return `none`.
-/

set_option linter.unusedSectionVars false

namespace QuickRank

section Metric

variable {α : Type} [LinearOrderedField α] [FloorRing α]

/-- The value of a 32-bit pattern read as a two's complement `int`. -/
def wrapInt32 (n : Int) : Int :=
  (n + 2 ^ 31) % 2 ^ 32 - 2 ^ 31

/-- The conversion `(int)(p)` of a float: truncation toward zero. -/
def floatToInt (p : α) : Int :=
  if 0 ≤ p then Int.floor p else Int.ceil p

/-- The macro `#define POWEROFTWO(p) ((float)(1<<((int)(p))))`.
The shift count must lie in `0 .. 31`; the count `31` yields the pattern
`0x80000000`, that is `INT_MIN`. -/
def POWEROFTWO (p : α) : Option α :=
  let n := floatToInt p
  if 0 ≤ n ∧ n < 32 then some ((wrapInt32 (1 * 2 ^ n.toNat) : Int) : α) else none

/-- The loop of `compute_dcg`:
`for(i=0; i<size; ++i) dcg += (POWEROFTWO(labels[i])-1.0f)/log2(i+2.0f);`
with `fuel = size - i` iterations left. -/
def compute_dcg_loop (log2 : α → α) (labels : List α) : Nat → Nat → α → Option α
  | 0, _, dcg => some dcg
  | fuel + 1, i, dcg =>
    match labels[i]? with
    | none => none
    | some l =>
      match POWEROFTWO l with
      | none => none
      | some p => compute_dcg_loop log2 labels fuel (i + 1) (dcg + (p - 1) / log2 ((i : α) + 2))

/-- The function `float compute_dcg(float const* labels, const unsigned int nlabels, const unsigned int k)`. -/
def compute_dcg (log2 : α → α) (labels : List α) (nlabels k : Nat) : Option α :=
  let size := if k = 0 ∨ k > nlabels then nlabels else k
  compute_dcg_loop log2 labels size 0 0

/-- Modelled from the spec: `float_qsort` of `utils/qsort.hpp`, which is not part of the
sources at hand; it sorts the array in place in descending order. -/
def float_qsort (labels : List α) : List α :=
  labels.insertionSort (fun a b => a ≥ b)

/-- The function `float compute_idcg(float const* labels, const unsigned int nlabels, const unsigned int k)`:
the DCG of a sorted copy of the first `nlabels` labels. -/
def compute_idcg (log2 : α → α) (labels : List α) (nlabels k : Nat) : Option α :=
  if nlabels ≤ labels.length then
    let copyoflabels := float_qsort (labels.take nlabels)
    compute_dcg log2 copyoflabels nlabels k
  else none

/-- The arrays in memory, addressed by their index: `some a` is a live array with the
contents `a`, and `none` an array that has been freed. -/
def heap_read (mem : List (Option (List α))) (p : Nat) : Option (List α) :=
  match mem[p]? with
  | some (some a) => some a
  | _ => none

/-- The expression `new float[n]`: the memory with one more array of `n` floats, and the
pointer to it. The contents of the new array are indeterminate; they are taken as `0`. -/
def heap_new (mem : List (Option (List α))) (n : Nat) : List (Option (List α)) × Nat :=
  (mem ++ [some (List.replicate n 0)], mem.length)

/-- The call `memcpy(dst, src, sizeof(float) * n)`: the first `n` floats of the array `src`
are written over the first `n` floats of the array `dst`; undefined when one of the arrays is
not live or is shorter than `n`. -/
def heap_memcpy (mem : List (Option (List α))) (dst src n : Nat) :
    Option (List (Option (List α))) :=
  match heap_read mem dst, heap_read mem src with
  | some d, some s =>
    if n ≤ d.length ∧ n ≤ s.length then some (mem.set dst (some (s.take n ++ d.drop n)))
    else none
  | _, _ => none

/-- The call `float_qsort(p, n)` on an array in memory: the first `n` floats of the array `p`
are sorted in place. -/
def heap_float_qsort (mem : List (Option (List α))) (p n : Nat) :
    Option (List (Option (List α))) :=
  match heap_read mem p with
  | some a =>
    if n ≤ a.length then some (mem.set p (some (float_qsort (a.take n) ++ a.drop n)))
    else none
  | none => none

/-- The expression `delete[] p`: the array `p` is freed; undefined when it is not live. -/
def heap_delete (mem : List (Option (List α))) (p : Nat) : Option (List (Option (List α))) :=
  match heap_read mem p with
  | some _ => some (mem.set p none)
  | none => none

/-- The function `compute_idcg` on the arrays in memory, `labels` being the pointer to the
array of the caller: the copy is allocated, filled with `memcpy`, sorted in place, read by
`compute_dcg` and freed. Returns the memory after the call and the returned value. -/
def compute_idcg_mem (log2 : α → α) (mem : List (Option (List α))) (labels : Nat)
    (nlabels k : Nat) : Option (List (Option (List α)) × α) :=
  let alloc := heap_new mem nlabels
  let copyoflabels := alloc.2
  match heap_memcpy alloc.1 copyoflabels labels nlabels with
  | none => none
  | some mem1 =>
    match heap_float_qsort mem1 copyoflabels nlabels with
    | none => none
    | some mem2 =>
      match heap_read mem2 copyoflabels with
      | none => none
      | some sorted =>
        match compute_dcg log2 sorted nlabels k with
        | none => none
        | some dcg =>
          match heap_delete mem2 copyoflabels with
          | none => none
          | some mem3 => some (mem3, dcg)

/-- The constant `FLT_MAX` of `<cfloat>`: `(2 - 2^-23) * 2^127`. -/
def FLT_MAX : α := (2 ^ 24 - 1) * 2 ^ 104

/-- Modelled from the spec: the rank list view `qlist`, whose declaration is not part of the
sources at hand: the query id and the label array, `size` being the number of labels. -/
structure qlist (α : Type) where
  qid : Nat
  labels : List α

/-- The field `size` of a `qlist`. -/
def qlist.size (ql : qlist α) : Nat := ql.labels.length

/-- The data members of `class idcg_cache`: the allocated array and `cachesize`. -/
structure idcg_cache (α : Type) where
  cache : List α
  cachesize : Nat

/-- The initial members `cache = NULL`, `cachesize = 0`. -/
def idcg_cache.init : idcg_cache α := ⟨[], 0⟩

/-- The member `const float undef = -FLT_MAX`. -/
def idcg_cache.undef : α := -FLT_MAX

/-- The library call `realloc(cache, sizeof(float)*n)`: the first `min (old length) n` cells keep
their contents, cells beyond the old length are uninitialised (here `0`). -/
def realloc (buf : List α) (n : Nat) : List α :=
  buf.take n ++ List.replicate (n - buf.length) 0

/-- The loop `while(cachesize<newcachesize) cache[cachesize++] = undef;` with
`fuel = newcachesize - cachesize` iterations left; every index written is below
`newcachesize`, the length of the reallocated array. -/
def idcg_cache.fill : Nat → List α → Nat → List α × Nat
  | 0, cache, cachesize => (cache, cachesize)
  | fuel + 1, cache, cachesize =>
    idcg_cache.fill fuel (cache.set cachesize idcg_cache.undef) (cachesize + 1)

/-- The block `if(ql.qid>=cachesize) { ... }` of `idcg_cache::operator()`; `newcachesize` is
computed in `unsigned int`. -/
def idcg_cache.grow (ic : idcg_cache α) (qid : Nat) : idcg_cache α :=
  if qid ≥ ic.cachesize then
    let newcachesize := (2 * qid + 1) % 2 ^ 32
    let cache := realloc ic.cache newcachesize
    let r := idcg_cache.fill (newcachesize - ic.cachesize) cache ic.cachesize
    ⟨r.1, r.2⟩
  else ic

/-- The function `float idcg_cache::operator() (const qlist &ql, const unsigned int k)`, returning the
cache after the call and the returned value. -/
def idcg_cache.call (log2 : α → α) (ic : idcg_cache α) (ql : qlist α) (k : Nat) :
    Option (idcg_cache α × α) :=
  let miss : Option Bool :=
    if ql.qid ≥ ic.cachesize then some true
    else (ic.cache[ql.qid]?).map (fun v => decide (v = idcg_cache.undef))
  match miss with
  | none => none
  | some false => (ic.cache[ql.qid]?).map (fun v => (ic, v))
  | some true =>
    let ic1 := ic.grow ql.qid
    match compute_idcg log2 ql.labels ql.size k with
    | none => none
    | some v =>
      if ql.qid < ic1.cache.length then
        let ic2 : idcg_cache α := ⟨ic1.cache.set ql.qid v, ic1.cachesize⟩
        (ic2.cache[ql.qid]?).map (fun r => (ic2, r))
      else none

/-- The data members of `class ndcgscorer`: the cutoff `k` and the cache `ic`. -/
structure ndcgscorer (α : Type) where
  k : Nat
  ic : idcg_cache α

/-- The function `float ndcgscorer::compute_score(const qlist &ql)`, returning the scorer after the call
and the returned value. -/
def ndcgscorer.compute_score (log2 : α → α) (s : ndcgscorer α) (ql : qlist α) :
    Option (ndcgscorer α × α) :=
  if ql.size = 0 then some (s, -1)
  else
    let size := if s.k < ql.size then s.k else ql.size
    match s.ic.call log2 ql size with
    | none => none
    | some (ic1, idcg) =>
      if idcg > 0 then
        (compute_dcg log2 ql.labels ql.size size).map (fun dcg => (⟨s.k, ic1⟩, dcg / idcg))
      else some (⟨s.k, ic1⟩, 0)

/-- Modelled from the spec: `fsymmatrix` of `utils/symmatrix.hpp`, which is not part of the
sources at hand: a square matrix of `size × size` floats, of which `swap_change` sets entries
`(i, j)` with `i < j`; entries never set are zero. -/
structure fsymmatrix (α : Type) where
  size : Nat
  data : List (List α)

/-- Modelled from the spec: the constructor `fsymmatrix(size)`, all entries zero. -/
def fsymmatrix.new (size : Nat) : fsymmatrix α :=
  ⟨size, List.replicate size (List.replicate size 0)⟩

/-- Modelled from the spec: the entry `(i, j)` of the matrix. -/
def fsymmatrix.at (m : fsymmatrix α) (i j : Nat) : Option α :=
  (m.data[i]?).bind (fun row => row[j]?)

/-- Modelled from the spec: the store `*vchanges = v` through a pointer obtained from
`vectat(i, _)` that stands at column `j` of row `i`. -/
def fsymmatrix.write (m : fsymmatrix α) (i j : Nat) (v : α) : fsymmatrix α :=
  ⟨m.size, m.data.set i ((m.data.getD i []).set j v)⟩

/-- The inner loop of `swap_change`,
`for(j=i+1; j<ql.size; ++j) *vchanges++ = ...;` with `fuel = ql.size - j` iterations left;
`vchanges` is the column at which the pointer stands. -/
def swap_change_inner (log2 : α → α) (labels : List α) (idcg : α) (i : Nat) :
    Nat → Nat → Nat → fsymmatrix α → Option (fsymmatrix α)
  | 0, _, _, changes => some changes
  | fuel + 1, j, vchanges, changes =>
    match labels[i]?, labels[j]? with
    | some li, some lj =>
      match POWEROFTWO li, POWEROFTWO lj with
      | some pi, some pj =>
        if vchanges < changes.size then
          swap_change_inner log2 labels idcg i fuel (j + 1) (vchanges + 1)
            (changes.write i vchanges
              ((1 / log2 ((i : α) + 2) - 1 / log2 ((j : α) + 2)) * (pi - pj) / idcg))
        else none
      | _, _ => none
    | _, _ => none

/-- The outer loop of `swap_change`, `for(i=0; i<size; ++i) { ... }` with `fuel = size - i`
iterations left; `vectat(i, i+1)` lets the pointer start at column `i + 1`. -/
def swap_change_outer (log2 : α → α) (ql : qlist α) (idcg : α) :
    Nat → Nat → fsymmatrix α → Option (fsymmatrix α)
  | 0, _, changes => some changes
  | fuel + 1, i, changes =>
    match swap_change_inner log2 ql.labels idcg i (ql.size - (i + 1)) (i + 1) (i + 1) changes with
    | none => none
    | some changes1 => swap_change_outer log2 ql idcg fuel (i + 1) changes1

/-- The function `fsymmatrix *ndcgscorer::swap_change(const qlist &ql)`, returning the scorer after the call
and the matrix. -/
def ndcgscorer.swap_change (log2 : α → α) (s : ndcgscorer α) (ql : qlist α) :
    Option (ndcgscorer α × fsymmatrix α) :=
  let size := if s.k < ql.size then s.k else ql.size
  match s.ic.call log2 ql size with
  | none => none
  | some (ic1, idcg) =>
    let changes : fsymmatrix α := fsymmatrix.new ql.size
    if idcg > 0 then
      (swap_change_outer log2 ql idcg size 0 changes).map (fun m => (⟨s.k, ic1⟩, m))
    else some (⟨s.k, ic1⟩, changes)

end Metric

section Svml

/-- The ways in which processing stops with `exit`: a missing label (`exit(2)`), an input line
that could not be read (`exit(3)`), a malformed feature token (`exit(4)`), and the fatal error
of `atou` on a malformed query id. -/
inductive Fatal where
  | missingLabel
  | lineTooLong
  | malformedFeature
  | malformedQid
  deriving DecidableEq, Repr

/-- The result of a step of the reader: it goes on with a state, it stops the process with
`exit`, or its behaviour is undefined (an access outside a vector). -/
inductive Outcome (σ : Type) where
  | ok (s : σ)
  | exit (e : Fatal)
  | undefined
  deriving DecidableEq, Repr

/-- The local variables of `read_horizontal` that live across lines: `maxfid` and the three
lists `data_qids`, `data_labels`, `data_instances`. Floats are exact rationals. -/
structure ReaderState where
  maxfid : Nat
  data_qids : List Nat
  data_labels : List ℚ
  data_instances : List (List ℚ)
  deriving DecidableEq, Repr

/-- The state before the first line: `maxfid = 0` and empty lists. -/
def ReaderState.init : ReaderState := ⟨0, [], [], []⟩

/-- Modelled from the spec: the macro `ISSPC` of `utils/strutils.h`, which is not part of the
sources at hand: the whitespace characters that separate tokens. -/
def ISSPC (c : Char) : Bool :=
  c == ' ' || c == '\t' || c == '\n' || c == '\r' || c == Char.ofNat 11 || c == Char.ofNat 12

/-- Modelled from the spec: `read_token(pch)` of `utils/strutils.h`, which is not part of the
sources at hand: it skips whitespace and returns the next whitespace-separated token, empty at
the end of the line, together with the position after the token. -/
def read_token (pch : List Char) : List Char × List Char :=
  let s := pch.dropWhile ISSPC
  (s.takeWhile (fun c => !ISSPC c), (s.dropWhile (fun c => !ISSPC c)).drop 1)

/-- Modelled from the spec: `read_token(pch, exitch)` of `utils/strutils.h`: as `read_token`,
but when the next token starts with `exitch` the text from `exitch` on is returned and the
position stays at `exitch`. -/
def read_token_until (pch : List Char) (exitch : Char) : List Char × List Char :=
  let s := pch.dropWhile ISSPC
  match s with
  | [] => ([], [])
  | c :: _ =>
    if c = exitch then (s, s)
    else (s.takeWhile (fun c => !ISSPC c), (s.dropWhile (fun c => !ISSPC c)).drop 1)

/-- The number written by a string of decimal digits. -/
def natOfDigits (ds : List Char) : Nat :=
  ds.foldl (fun n c => 10 * n + (c.toNat - 48)) 0

/-- An optional sign: `true` for `-`, and the text after the sign. -/
def scanSign (s : List Char) : Bool × List Char :=
  match s with
  | '-' :: r => (true, r)
  | '+' :: r => (false, r)
  | _ => (false, s)

/-- The exponent part of a decimal float, if one is present: `e` or `E`, an optional sign and
at least one digit. Returns the exponent and the text after it. -/
def scanExponent (s : List Char) : Int × List Char :=
  match s with
  | c :: r =>
    if c = 'e' ∨ c = 'E' then
      let sg := scanSign r
      let ds := sg.2.takeWhile Char.isDigit
      if ds = [] then (0, s)
      else (if sg.1 then -(natOfDigits ds : Int) else (natOfDigits ds : Int),
        sg.2.dropWhile Char.isDigit)
    else (0, s)
  | [] => (0, s)

/-- The conversion of the C library for decimal floats (`strtod`, the `%f` of `sscanf`):
leading whitespace, an optional sign, digits with an optional point, an optional exponent.
Returns the value and the text after it, `none` when there is no digit to convert. The
spellings of infinity and NaN and hexadecimal floats are not modelled. -/
def scanFloat (s : List Char) : Option (ℚ × List Char) :=
  let sg := scanSign (s.dropWhile ISSPC)
  let ip := sg.2.takeWhile Char.isDigit
  let r1 := sg.2.dropWhile Char.isDigit
  let fp := match r1 with
    | '.' :: r => r.takeWhile Char.isDigit
    | _ => []
  let r2 := match r1 with
    | '.' :: r => r.dropWhile Char.isDigit
    | _ => r1
  if ip = [] ∧ fp = [] then none
  else
    let ex := scanExponent r2
    let m : ℚ := (natOfDigits (ip ++ fp) : ℚ) / 10 ^ fp.length * 10 ^ ex.1
    some (if sg.1 then -m else m, ex.2)

/-- The library function `atof`: the value of the longest numeric prefix, `0.0` when no
conversion can be performed. -/
def atof (token : List Char) : ℚ :=
  match scanFloat token with
  | some r => r.1
  | none => 0

/-- The conversion `%zu` of `sscanf` on a 64-bit `size_t`: leading whitespace, an optional
sign, at least one digit; a value too large is `SIZE_MAX`, a minus sign negates modulo
`2^64`. -/
def scanSizeT (s : List Char) : Option (Nat × List Char) :=
  let sg := scanSign (s.dropWhile ISSPC)
  let ds := sg.2.takeWhile Char.isDigit
  if ds = [] then none
  else
    let v := if natOfDigits ds < 2 ^ 64 then natOfDigits ds else 2 ^ 64 - 1
    some (if sg.1 then (2 ^ 64 - v) % 2 ^ 64 else v, sg.2.dropWhile Char.isDigit)

/-- The call `sscanf(token, "%zu:%f", &fid, &fval)`: the pair read when both conversions
succeed, that is when `sscanf` returns 2. -/
def sscanf_feature (token : List Char) : Option (Nat × ℚ) :=
  match scanSizeT token with
  | none => none
  | some (fid, r) =>
    match r with
    | ':' :: r1 =>
      match scanFloat r1 with
      | none => none
      | some (fval, _) => some (fid, fval)
    | _ => none

/-- Modelled from the spec: `atou(token, "qid:")` of `utils/strutils.h`, which is not part of
the sources at hand: the token must be the literal `qid:` followed by a positive integer, else
the error is fatal. -/
def atou_qid (token : List Char) : Option Nat :=
  match token with
  | 'q' :: 'i' :: 'd' :: ':' :: ds =>
    if ds ≠ [] ∧ ds.all Char.isDigit ∧ 0 < natOfDigits ds then some (natOfDigits ds) else none
  | _ => none

/-- The method `resize(n)` of `std::vector<float>`: cut to `n` elements or filled with `0.0`. -/
def resize (v : List ℚ) (n : Nat) : List ℚ :=
  v.take n ++ List.replicate (n - v.length) 0

/-- The feature loop of `read_horizontal`,
`while (!ISEMPTY(token = read_token(pch, '#'))) { ... }`, on the rest `pch` of the line, with
the running `maxfid` and the vector `curr_instance`; `fuel` bounds the number of tokens.
The store `curr_instance[fid - 1] = fval` computes `fid - 1` in `size_t`. -/
def read_features : Nat → List Char → Nat → List ℚ → Outcome (Nat × List ℚ)
  | 0, _, maxfid, curr_instance => .ok (maxfid, curr_instance)
  | fuel + 1, pch, maxfid, curr_instance =>
    let t := read_token_until pch '#'
    match t.1 with
    | [] => .ok (maxfid, curr_instance)
    | c :: _ =>
      if c = '#' then read_features fuel [] maxfid curr_instance
      else
        match sscanf_feature t.1 with
        | none => .exit .malformedFeature
        | some (fid, fval) =>
          let maxfid1 := if fid > maxfid then fid else maxfid
          let curr1 := if fid > maxfid then resize curr_instance fid else curr_instance
          let idx := (fid + 2 ^ 64 - 1) % 2 ^ 64
          if idx < curr1.length then read_features fuel t.2 maxfid1 (curr1.set idx fval)
          else .undefined

/-- The body of the line loop of `read_horizontal` for one line that `getline` has read:
comment lines are skipped, else the label, the query id and the features are read and the
record is appended to the three lists. -/
def read_line (st : ReaderState) (line : List Char) : Outcome ReaderState :=
  let pch := line.dropWhile ISSPC
  match pch with
  | '#' :: _ => .ok st
  | _ =>
    let t := read_token pch
    if t.1 = [] then .exit .missingLabel
    else
      let relevance := atof t.1
      let q := read_token t.2
      match atou_qid q.1 with
      | none => .exit .malformedQid
      | some qid =>
        match read_features (q.2.length + 1) q.2 st.maxfid (resize [] st.maxfid) with
        | .exit e => .exit e
        | .undefined => .undefined
        | .ok r =>
          .ok ⟨r.1, st.data_qids ++ [qid], st.data_labels ++ [relevance],
            st.data_instances ++ [r.2]⟩

/-- The exit status of a fatal error: `exit(2)`, `exit(3)` and `exit(4)` of `read_horizontal`;
the status of the fatal error of `atou` is set in `utils/strutils.h`, which is not part of the
sources at hand. -/
def Fatal.status : Fatal → Option Nat
  | .missingLabel => some 2
  | .lineTooLong => some 3
  | .malformedFeature => some 4
  | .malformedQid => none

/-- The size of the line buffer, `char line[1024*10]`. -/
def line_buffer_size : Nat := 1024 * 10

/-- The state of `failbit` after `f.getline(line, sizeof line)` on a line of the file:
`getline` stores at most `sizeof line - 1` characters and sets `failbit` when it has stored
that many without reaching the end of the line. -/
def getline_failbit (line : List Char) : Bool :=
  decide (line_buffer_size - 1 < line.length)

/-- The line loop of `read_horizontal`, `while (f.getline(line, sizeof line)) { ... }`, over
the lines of the file that are left. The loop condition is the stream converted to `bool`,
that is `!fail()`; at the end of the file `getline` extracts nothing and the loop ends. The
body starts with the test of `failbit` that leads to `exit(3)`. -/
def read_lines : ReaderState → List (List Char) → Outcome ReaderState
  | st, [] => .ok st
  | st, line :: rest =>
    let failbit := getline_failbit line
    if failbit then .ok st
    else
      if failbit then .exit .lineTooLong
      else
        match read_line st line with
        | .ok st1 => read_lines st1 rest
        | .exit e => .exit e
        | .undefined => .undefined

/-- What `read_horizontal` hands to the class `Dataset`, whose declaration is not part of the
sources at hand: the two arguments of the constructor `Dataset(data_qids.size(), maxfid)` and
the arguments of the calls of `addInstance`, in the order of the calls. -/
structure Loaded where
  num_instances : Nat
  num_features : Nat
  instances : List (Nat × ℚ × List ℚ)
  deriving DecidableEq, Repr

/-- The function `Svml::read_horizontal` on a file given by its lines: the line loop, then the
construction of the dataset and the loop that walks the three lists together. The three lists
grow together, so they have one length. -/
def read_horizontal (file : List (List Char)) : Outcome Loaded :=
  match read_lines ReaderState.init file with
  | .ok st =>
    .ok ⟨st.data_qids.length, st.maxfid,
      List.zip st.data_qids (List.zip st.data_labels st.data_instances)⟩
  | .exit e => .exit e
  | .undefined => .undefined

/-- The character of the decimal digit `d % 10`. -/
def digitChar (d : Nat) : Char :=
  Char.ofNat (48 + d % 10)

/-- The text of an unsigned integer written with `operator<<`: its decimal digits; `fuel`
bounds their number. -/
def showNatAux : Nat → Nat → List Char
  | 0, _ => []
  | fuel + 1, n =>
    if n < 10 then [digitChar n] else showNatAux fuel (n / 10) ++ [digitChar (n % 10)]

/-- The text of an unsigned integer written with `operator<<`: its decimal digits. -/
def showNat (n : Nat) : List Char :=
  showNatAux (n + 1) n

/-- The quotient `n / d` rounded to the nearest integer, a tie to the even one: the rounding of
the conversions of `printf`, which convert the exact value of the float. -/
def roundHalfEven (n d : Nat) : Nat :=
  let q := n / d
  let r := n % d
  if 2 * r < d then q
  else if d < 2 * r then q + 1
  else if q % 2 = 0 then q
  else q + 1

/-- The output of a float on a stream in `std::fixed` notation with the precision `prec`, the
conversion `%.{prec}f`: a minus sign for a negative value, the digits of the integer part and,
when `prec` is not 0, the point and `prec` digits. -/
def formatFixed (prec : Nat) (x : ℚ) : List Char :=
  let m := roundHalfEven (x.num.natAbs * 10 ^ prec) x.den
  let ip := showNat (m / 10 ^ prec)
  let fp := showNat (m % 10 ^ prec)
  (if x.num < 0 then ['-'] else []) ++ ip ++
    (if prec = 0 then [] else '.' :: (List.replicate (prec - fp.length) '0' ++ fp))

/-- The least `k` from `k` on with `d ≤ n * 10 ^ k`; `fuel` bounds the search. -/
def negExponent : Nat → Nat → Nat → Nat → Nat
  | 0, _, _, k => k
  | fuel + 1, n, d, k => if d ≤ n * 10 ^ k then k else negExponent fuel n d (k + 1)

/-- The text of the conversion `%.0g` for the significant digit `m` and the decimal exponent
`X`: for `-4 ≤ X ≤ 0` the digit is written in fixed style, else as `me+XX` or `me-XX` with at
least two exponent digits. -/
def generalText (m : Nat) (X : Int) : List Char :=
  if X = 0 then [digitChar m]
  else if -4 ≤ X ∧ X < 0 then
    '0' :: '.' :: (List.replicate (X.natAbs - 1) '0' ++ [digitChar m])
  else
    digitChar m :: 'e' :: (if X < 0 then '-' else '+') ::
      (List.replicate (2 - (showNat X.natAbs).length) '0' ++ showNat X.natAbs)

/-- The output of a float on a stream whose notation is neither fixed nor scientific, with the
precision 0: the conversion `%.0g`, which takes the precision 0 as 1. The value is rounded to
one significant digit `m` with the decimal exponent `X`, a carry to 10 moving to the next
exponent. -/
def formatGeneral (x : ℚ) : List Char :=
  let n := x.num.natAbs
  let d := x.den
  if n = 0 then ['0']
  else
    let up := (showNat (n / d)).length - 1
    let down := negExponent d n d 0
    let m0 := if d ≤ n then roundHalfEven n (d * 10 ^ up) else roundHalfEven (n * 10 ^ down) d
    let m := if m0 = 10 then 1 else m0
    let X : Int := (if d ≤ n then (up : Int) else -(down : Int)) + (if m0 = 10 then 1 else 0)
    (if x.num < 0 then ['-'] else []) ++ generalText m X

/-- The output `outFile << std::setprecision(0) << labels[r]`: in fixed notation when the flag
`std::fixed` of the stream is set, else in the general notation. -/
def formatLabel (fixed : Bool) (x : ℚ) : List Char :=
  if fixed then formatFixed 0 x else formatGeneral x

/-- The constant `std::numeric_limits<quickrank::Feature>::max_digits10` of a 32-bit float. -/
def max_digits10 : Nat := 9

/-- Modelled from the spec: the class `QueryResults` of `data/queryresults.h`, which is not
part of the sources at hand: the labels of the instances of a query and their feature rows in
one array, `num_features` values per instance. -/
structure QueryResults where
  labels : List ℚ
  features : List ℚ
  deriving DecidableEq, Repr

/-- Modelled from the spec: `QueryResults::num_results()`, the number of instances. -/
def QueryResults.num_results (results : QueryResults) : Nat :=
  results.labels.length

/-- Modelled from the spec: the class `Dataset` of `data/dataset.h`, which is not part of the
sources at hand, as far as `Svml::write` uses it: the number of features and the queries in
index order. -/
structure Dataset where
  num_features : Nat
  queries : List QueryResults
  deriving DecidableEq, Repr

/-- The feature loop of `Svml::write`, `for (size_t f = 0; f < num_features; f++)`, with `k`
iterations left from the index `f`: the text written for the row that starts at the offset
`off` of `features`; a read outside the array has no defined value. Each float is written
with `std::fixed` and the precision `max_digits10`. -/
def write_features (features : List ℚ) (off : Nat) : Nat → Nat → Option (List Char)
  | 0, _ => some []
  | k + 1, f =>
    match features[off + f]?, write_features features off k (f + 1) with
    | some v, some rest =>
      some (' ' :: (showNat (f + 1) ++ ':' :: formatFixed max_digits10 v) ++ rest)
    | _, _ => none

/-- The instance loop of `Svml::write`, `for (size_t r = 0; r < num_results; r++)`, for the
query of index `q`, with `k` iterations left from the index `r`; `off` is the position of the
pointer `features`, advanced by `num_features` after each line, and `fixed` the flag
`std::fixed` of the stream, which stays set once a feature has been written. Returns the lines
written and the flag after them. -/
def write_results (num_features q : Nat) (results : QueryResults) :
    Nat → Nat → Nat → Bool → Option (List (List Char) × Bool)
  | 0, _, _, fixed => some ([], fixed)
  | k + 1, r, off, fixed =>
    match results.labels[r]?, write_features results.features off num_features 0 with
    | some label, some ftext =>
      let line := formatLabel fixed label ++ " qid:".toList ++ showNat (q + 1) ++ ftext
      match write_results num_features q results k (r + 1) (off + num_features)
          (fixed || decide (0 < num_features)) with
      | some (lines, fixed1) => some (line :: lines, fixed1)
      | none => none
    | _, _ => none

/-- The query loop of `Svml::write`, `for (size_t q = 0; q < num_queries; q++)`, on the
queries left from the index `q`. -/
def write_queries (num_features : Nat) :
    List QueryResults → Nat → Bool → Option (List (List Char))
  | [], _, _ => some []
  | results :: rest, q, fixed =>
    match write_results num_features q results results.num_results 0 0 fixed with
    | some (lines, fixed1) =>
      match write_queries num_features rest (q + 1) fixed1 with
      | some more => some (lines ++ more)
      | none => none
    | none => none

/-- The method `Svml::write`: the lines of the file written for the dataset, each ended by
`std::endl`; `none` when a read leaves the arrays of the dataset. The stream starts with the
flag `std::fixed` not set. -/
def write (dataset : Dataset) : Option (List (List Char)) :=
  write_queries dataset.num_features dataset.queries 0 false

end Svml

section SvmlSpec

/-- The whitespace-separated words of a text, in order; `fuel` bounds their number. -/
def wordsAux : Nat → List Char → List (List Char)
  | 0, _ => []
  | fuel + 1, s =>
    match s.dropWhile ISSPC with
    | [] => []
    | c :: r =>
      (c :: r).takeWhile (fun c => !ISSPC c) ::
        wordsAux fuel (((c :: r).dropWhile (fun c => !ISSPC c)).drop 1)

/-- The whitespace-separated words of a text, in order. -/
def words (s : List Char) : List (List Char) :=
  wordsAux (s.length + 1) s

/-- The feature tokens of the rest of a line: its words before the first word that starts
with `#`. -/
def featureTokens (pch : List Char) : List (List Char) :=
  (words pch).takeWhile (fun t => !(t.head? == some '#'))

/-- The feature loop of `read_horizontal` as a recursion over the feature tokens of the line:
each token is converted with `sscanf` and stored. -/
def store_features : List (List Char) → Nat → List ℚ → Outcome (Nat × List ℚ)
  | [], maxfid, curr_instance => .ok (maxfid, curr_instance)
  | t :: ts, maxfid, curr_instance =>
    match sscanf_feature t with
    | none => .exit .malformedFeature
    | some (fid, fval) =>
      let maxfid1 := if fid > maxfid then fid else maxfid
      let curr1 := if fid > maxfid then resize curr_instance fid else curr_instance
      let idx := (fid + 2 ^ 64 - 1) % 2 ^ 64
      if idx < curr1.length then store_features ts maxfid1 (curr1.set idx fval)
      else .undefined

/-- The record that the body of the line loop makes of the words of a line that is not a
comment: the first word is the label, the second the query id, the following words up to a
word that starts with `#` are the feature tokens. -/
def record_of_words (st : ReaderState) (ws : List (List Char)) : Outcome ReaderState :=
  match ws with
  | [] => .exit .missingLabel
  | lab :: rest =>
    match atou_qid (rest.headD []) with
    | none => .exit .malformedQid
    | some qid =>
      match store_features ((rest.drop 1).takeWhile (fun t => !(t.head? == some '#')))
          st.maxfid (resize [] st.maxfid) with
      | .exit e => .exit e
      | .undefined => .undefined
      | .ok r =>
        .ok ⟨r.1, st.data_qids ++ [qid], st.data_labels ++ [atof lab], st.data_instances ++ [r.2]⟩

/-- The largest feature id among `maxfid` and the ids of the pairs. -/
def maxFid (maxfid : Nat) (pairs : List (Nat × ℚ)) : Nat :=
  pairs.foldl (fun m p => max m p.1) maxfid

/-- The value of the last pair with the feature id `fid`, or `init` when no pair has it. -/
def lastValue (pairs : List (Nat × ℚ)) (fid : Nat) (init : ℚ) : ℚ :=
  pairs.foldl (fun acc p => if p.1 = fid then p.2 else acc) init

/-- A record of the file in the words of the format: the query id, the label and the
`fid:value` pairs of the line, in the order of the line. -/
structure Record where
  qid : Nat
  label : ℚ
  pairs : List (Nat × ℚ)
  deriving DecidableEq, Repr

/-- A comment line: the first character after the leading whitespace is `#`. -/
def isComment (line : List Char) : Bool :=
  (line.dropWhile ISSPC).head? == some '#'

/-- A well-formed line with the record `r`: its first word is the label, its second word a
query id, and each following word up to a word that starts with `#` is a `fid:value` token
with a positive id. -/
def WellFormed (line : List Char) (r : Record) : Prop :=
  ∃ lab qtok fts, words line = lab :: qtok :: fts ∧ atou_qid qtok = some r.qid ∧
    atof lab = r.label ∧
    (fts.takeWhile (fun t => !(t.head? == some '#'))).map sscanf_feature = r.pairs.map some ∧
    ∀ p ∈ r.pairs, 1 ≤ p.1

/-- The feature vector of a record in the words of the format: `len` slots, the slot of index
`fid - 1` holds the last value given for `fid`, the other slots hold `0`. -/
def specVector (len : Nat) (pairs : List (Nat × ℚ)) : List ℚ :=
  (List.range len).map (fun j => lastValue pairs (j + 1) 0)

/-- The feature vectors of the records of a file, the largest feature id before them being
`maxfid`: the length of each is the largest feature id up to and including its record. -/
def specInstances : Nat → List Record → List (List ℚ)
  | _, [] => []
  | maxfid, r :: rs =>
    specVector (maxFid maxfid r.pairs) r.pairs :: specInstances (maxFid maxfid r.pairs) rs

/-- A file of two records with a comment line between them; the feature ids of the first
record are neither sorted nor contiguous, the second record gives the id 2 twice. -/
def sampleFile : List (List Char) :=
  ["1 qid:1 3:0.5 1:2".toList, " # 4:1".toList, "0 qid:7 2:1 2:4 # 9:9".toList]

/-- The records of `sampleFile`. -/
def sampleRecords : List Record :=
  [⟨1, 1, [(3, 1 / 2), (1, 2)]⟩, ⟨7, 0, [(2, 1), (2, 4)]⟩]

/-- The feature token of the feature of index `f` in the row that starts at the offset `off`:
the id `f + 1`, a colon and the value in fixed notation. -/
def featureToken (features : List ℚ) (off f : Nat) : List Char :=
  showNat (f + 1) ++ ':' :: formatFixed max_digits10 (features.getD (off + f) 0)

/-- The line of the instance of index `r` of the query of index `q`, in the words of the
format: the label, `qid:` with `q + 1`, and the feature tokens of the ids 1 to `num_features`
in order. -/
def IsLineOf (num_features q : Nat) (results : QueryResults) (r : Nat) (line : List Char) :
    Prop :=
  ∃ fixed, words line = formatLabel fixed (results.labels.getD r 0) ::
    ("qid:".toList ++ showNat (q + 1)) ::
    (List.range num_features).map (featureToken results.features (r * num_features))

/-- A dataset of two queries with two features: two instances in the first query, one in the
second. -/
def sampleDataset : Dataset :=
  ⟨2, [⟨[15, 1], [1 / 8, -3, 1 / 10, 1000000]⟩, ⟨[3 / 2], [1, 2]⟩]⟩

end SvmlSpec

section MetricSpec

variable {α : Type} [LinearOrderedField α] [FloorRing α]

/-- The effective size of `compute_dcg`: the number of labels when `k = 0` or `k` exceeds it,
else `k`. -/
def effectiveSize (k nlabels : Nat) : Nat :=
  if k = 0 ∨ k > nlabels then nlabels else k

/-- The closed form of the claims: the sum over `i < e` of `(2^grade[i] - 1) / log2 (i + 2)`. -/
def dcgFormula (log2 : α → α) (grades : List Nat) (e : Nat) : α :=
  ∑ i in Finset.range e, ((2 : α) ^ (grades.getD i 0) - 1) / log2 ((i : α) + 2)

/-- The sum of the claims with an arbitrary power function `pw` in place of `2 ^ ·`. -/
def dcgFormulaWith (log2 : α → α) (pw : Nat → α) (grades : List Nat) (e : Nat) : α :=
  ∑ i in Finset.range e, (pw (grades.getD i 0) - 1) / log2 ((i : α) + 2)

/-- The position-weighted sum `∑ f (l[j]) * w (i + j)` of a list, by recursion on the list. -/
def wsum (w : Nat → α) (f : Nat → α) : List Nat → Nat → α
  | [], _ => 0
  | x :: xs, i => f x * w i + wsum w f xs (i + 1)

/-- The discount of position `i` truncated at `e`: `1 / log2 (i + 2)` below `e`, else `0`. -/
def discountBelow (log2 : α → α) (e i : Nat) : α :=
  if i < e then 1 / log2 ((i : α) + 2) else 0

/-- The shape of a matrix: `size` rows of `size` entries. -/
def fsymmatrix.WF (m : fsymmatrix α) : Prop :=
  m.data.length = m.size ∧ ∀ row ∈ m.data, row.length = m.size

/-- The closed form of a swap-change entry with power function `pw`:
`(1/log2(i+2) - 1/log2(j+2)) * (pw grade[i] - pw grade[j]) / idcg`. -/
def swapFormulaWith (log2 : α → α) (pw : Nat → α) (grades : List Nat) (idcg : α)
    (i j : Nat) : α :=
  (1 / log2 ((i : α) + 2) - 1 / log2 ((j : α) + 2)) *
    (pw (grades.getD i 0) - pw (grades.getD j 0)) / idcg

/-- The closed form of a swap-change entry of the claims, with `2 ^ grade`. -/
def swapFormula (log2 : α → α) (grades : List Nat) (idcg : α) (i j : Nat) : α :=
  swapFormulaWith log2 (fun g => (2 : α) ^ g) grades idcg i j

/-- The list with the items at positions `i` and `j` exchanged. -/
def swapAt (l : List Nat) (i j : Nat) : List Nat :=
  (l.set i (l.getD j 0)).set j (l.getD i 0)

/-- The value of `(float)(1<<g)` for a grade `g` up to 31: `2 ^ g`, except that the pattern of
`1<<31` is the negative `int` `-2^31`. -/
def shiftPower (g : Nat) : α :=
  if g = 31 then -(2 : α) ^ 31 else (2 : α) ^ g

/-- The rank list whose labels are the integer grades `grades`. -/
def gradedList (qid : Nat) (grades : List Nat) : qlist α :=
  ⟨qid, grades.map (Nat.cast : Nat → α)⟩

/-- The cache holds no entry for `qid`: the array does not reach `qid`, or the cell of `qid`
holds `undef`. -/
def idcg_cache.NoEntry (ic : idcg_cache α) (qid : Nat) : Prop :=
  ic.cachesize ≤ qid ∨ ic.cache[qid]? = some idcg_cache.undef

/-- The cache holds the value `v`, other than `undef`, for `qid`. -/
def idcg_cache.Entry (ic : idcg_cache α) (qid : Nat) (v : α) : Prop :=
  qid < ic.cachesize ∧ ic.cache[qid]? = some v ∧ v ≠ idcg_cache.undef

/-- A sequence of calls of `idcg_cache::operator()`, one after the other. -/
def idcg_cache.calls (log2 : α → α) : idcg_cache α → List (qlist α × Nat) → Option (idcg_cache α)
  | ic, [] => some ic
  | ic, c :: rest =>
    match ic.call log2 c.1 c.2 with
    | none => none
    | some r => idcg_cache.calls log2 r.1 rest

/-- The invariant of the cache between calls: `cachesize` is the length of the array. -/
def idcg_cache.WF (ic : idcg_cache α) : Prop :=
  ic.cache.length = ic.cachesize

end MetricSpec

section MetricLemmas

variable {α : Type} [LinearOrderedField α] [FloorRing α]

lemma wrapInt32_of_mem (m : Int) (h0 : -2 ^ 31 ≤ m) (h1 : m < 2 ^ 31) : wrapInt32 m = m := by
  unfold wrapInt32
  norm_num at h0 h1 ⊢
  omega

lemma floatToInt_natCast (n : Nat) : floatToInt ((n : α)) = (n : Int) := by
  unfold floatToInt
  rw [if_pos (Nat.cast_nonneg n)]
  exact Int.floor_natCast n

lemma POWEROFTWO_natCast (n : Nat) (h : n ≤ 30) :
    POWEROFTWO ((n : α)) = some ((2 : α) ^ n) := by
  unfold POWEROFTWO
  simp only [floatToInt_natCast]
  have h2 : (2 : Int) ^ n ≤ 2 ^ 30 := pow_le_pow_right₀ (by norm_num) h
  have h3 : (0 : Int) < 2 ^ n := by positivity
  rw [if_pos ⟨by positivity, by omega⟩]
  simp only [Int.toNat_ofNat, one_mul]
  rw [wrapInt32_of_mem _ (by norm_num at h2 ⊢; omega) (by norm_num at h2 ⊢; omega)]
  simp

lemma POWEROFTWO_thirtyOne : POWEROFTWO ((31 : Nat) : α) = some (-(2 : α) ^ 31) := by
  unfold POWEROFTWO
  simp only [floatToInt_natCast]
  rw [if_pos ⟨by positivity, by norm_num⟩]
  have : wrapInt32 (1 * 2 ^ ((31 : Nat) : Int).toNat) = -2 ^ 31 := by decide
  rw [this]
  norm_num

/-- The loop of `compute_dcg` adds up the terms of the positions it visits. -/
lemma compute_dcg_loop_eq (log2 : α → α) (labels : List α) (g : Nat → α) :
    ∀ (fuel i : Nat) (dcg : α),
      (∀ j, i ≤ j → j < i + fuel → ∃ l, labels[j]? = some l ∧ POWEROFTWO l = some (g j)) →
      compute_dcg_loop log2 labels fuel i dcg =
        some (dcg + ∑ j in Finset.range fuel, (g (i + j) - 1) / log2 (((i + j : Nat) : α) + 2)) := by
  intro fuel
  induction fuel with
  | zero => intro i dcg _; simp [compute_dcg_loop]
  | succ fuel ih =>
    intro i dcg h
    obtain ⟨l, hl, hp⟩ := h i le_rfl (by omega)
    rw [compute_dcg_loop, hl]
    simp only [hp]
    rw [ih (i + 1) _ (fun j h1 h2 => h j (by omega) (by omega))]
    rw [Finset.sum_range_succ']
    congr 1
    rw [add_assoc]
    congr 1
    rw [add_comm]
    congr 1
    apply Finset.sum_congr rfl
    intro j _
    have : i + 1 + j = i + (j + 1) := by omega
    rw [this]

lemma effectiveSize_le (k n : Nat) : effectiveSize k n ≤ n := by
  unfold effectiveSize
  split_ifs <;> omega

lemma effectiveSize_min (k n : Nat) :
    effectiveSize (if k < n then k else n) n = effectiveSize k n := by
  unfold effectiveSize
  split_ifs <;> omega

omit [FloorRing α] in
lemma dcgFormulaWith_two_pow (log2 : α → α) (grades : List Nat) (e : Nat) :
    dcgFormulaWith log2 (fun g => (2 : α) ^ g) grades e = dcgFormula log2 grades e := rfl

lemma compute_dcg_graded (log2 : α → α) (grades : List Nat) (pw : Nat → α)
    (hpw : ∀ g ∈ grades, POWEROFTWO ((g : α)) = some (pw g)) (k : Nat) :
    compute_dcg log2 (grades.map (Nat.cast : Nat → α)) grades.length k =
      some (dcgFormulaWith log2 pw grades (effectiveSize k grades.length)) := by
  unfold compute_dcg
  have hle := effectiveSize_le k grades.length
  rw [show (if k = 0 ∨ k > grades.length then grades.length else k)
      = effectiveSize k grades.length from rfl]
  rw [compute_dcg_loop_eq log2 _ (fun j => pw (grades.getD j 0))]
  · simp [dcgFormulaWith]
  · intro j _ hj
    have hj' : j < grades.length := by omega
    refine ⟨((grades[j] : Nat) : α), ?_, ?_⟩
    · simp [List.getElem?_map, List.getElem?_eq_getElem hj']
    · rw [hpw _ (List.getElem_mem hj')]
      simp [List.getD_eq_getElem?_getD, List.getElem?_eq_getElem hj']

omit [FloorRing α] in
lemma float_qsort_graded (grades : List Nat) :
    float_qsort (grades.map (Nat.cast : Nat → α)) =
      (grades.insertionSort (fun a b => a ≥ b)).map (Nat.cast : Nat → α) := by
  unfold float_qsort
  symm
  apply List.map_insertionSort
  intro a _ b _
  simp

lemma compute_idcg_graded (log2 : α → α) (grades : List Nat) (pw : Nat → α)
    (hpw : ∀ g ∈ grades, POWEROFTWO ((g : α)) = some (pw g)) (k : Nat) :
    compute_idcg log2 (grades.map (Nat.cast : Nat → α)) grades.length k =
      some (dcgFormulaWith log2 pw (grades.insertionSort (fun a b => a ≥ b))
        (effectiveSize k grades.length)) := by
  unfold compute_idcg
  rw [if_pos (by simp)]
  have h1 : List.take grades.length (grades.map (Nat.cast : Nat → α))
      = grades.map (Nat.cast : Nat → α) := by
    apply List.take_of_length_le
    simp
  simp only [h1, float_qsort_graded]
  have h2 := compute_dcg_graded log2 (grades.insertionSort (fun a b => a ≥ b)) pw
    (fun g hg => hpw g ((List.mem_insertionSort _).1 hg)) k
  rw [List.length_insertionSort] at h2
  exact h2

omit [FloorRing α] in
lemma realloc_length (buf : List α) (n : Nat) : (realloc buf n).length = n := by
  simp [realloc]
  omega

omit [FloorRing α] in
lemma realloc_getElem? (buf : List α) (n i : Nat) (hi : i < n) (hb : i < buf.length) :
    (realloc buf n)[i]? = buf[i]? := by
  unfold realloc
  rw [List.getElem?_append_left (by simp; omega)]
  rw [List.getElem?_take_of_lt hi]

omit [FloorRing α] in
lemma fill_spec : ∀ (fuel : Nat) (cache : List α) (cachesize : Nat),
    (idcg_cache.fill fuel cache cachesize).2 = cachesize + fuel ∧
    (idcg_cache.fill fuel cache cachesize).1.length = cache.length ∧
    ∀ i, (idcg_cache.fill fuel cache cachesize).1[i]? =
      if cachesize ≤ i ∧ i < cachesize + fuel ∧ i < cache.length
      then some idcg_cache.undef else cache[i]? := by
  intro fuel
  induction fuel with
  | zero =>
    intro cache cachesize
    refine ⟨rfl, rfl, fun i => ?_⟩
    simp only [idcg_cache.fill]
    rw [if_neg (by omega)]
  | succ fuel ih =>
    intro cache cachesize
    obtain ⟨h1, h2, h3⟩ := ih (cache.set cachesize idcg_cache.undef) (cachesize + 1)
    simp only [idcg_cache.fill]
    refine ⟨by omega, by simpa using h2, fun i => ?_⟩
    rw [h3 i]
    simp only [List.length_set, List.getElem?_set]
    by_cases hi : cachesize = i
    · subst hi
      by_cases hl : cachesize < cache.length
      · simp [hl]
      · have : cache[cachesize]? = none := by simp; omega
        simp [hl, this]
    · by_cases hc : cachesize + 1 ≤ i
      · have : cachesize ≤ i := by omega
        simp only [hi, hc, this, true_and, if_false]
        rw [show cachesize + 1 + fuel = cachesize + (fuel + 1) by omega]
      · have : ¬ cachesize ≤ i := by omega
        simp [hi, hc, this]

omit [FloorRing α] in
lemma grow_of_lt (ic : idcg_cache α) (qid : Nat) (h : qid < ic.cachesize) :
    ic.grow qid = ic := by
  unfold idcg_cache.grow
  rw [if_neg (by omega)]

omit [FloorRing α] in
lemma grow_length (ic : idcg_cache α) (qid : Nat) (h : ic.cachesize ≤ qid) :
    (ic.grow qid).cache.length = (2 * qid + 1) % 2 ^ 32 := by
  unfold idcg_cache.grow
  rw [if_pos h]
  simp only []
  rw [(fill_spec _ _ _).2.1, realloc_length]

omit [FloorRing α] in
lemma grow_cachesize (ic : idcg_cache α) (qid : Nat) (h : ic.cachesize ≤ qid) :
    (ic.grow qid).cachesize = ic.cachesize + ((2 * qid + 1) % 2 ^ 32 - ic.cachesize) := by
  unfold idcg_cache.grow
  rw [if_pos h]
  simp only []
  rw [(fill_spec _ _ _).1]

omit [FloorRing α] in
lemma lt_grow_length_of_noEntry {ic : idcg_cache α} {qid : Nat} (hno : ic.NoEntry qid)
    (hq : qid < 2 ^ 31 ∨ qid < ic.cachesize) : qid < (ic.grow qid).cache.length := by
  by_cases h : ic.cachesize ≤ qid
  · rw [grow_length ic qid h]
    norm_num at hq ⊢
    omega
  · rw [grow_of_lt ic qid (by omega)]
    rcases hno with h1 | h1
    · omega
    · by_contra hc
      rw [List.getElem?_eq_none (by omega)] at h1
      exact Option.noConfusion h1

/-- A call for a query id that has no entry computes the ideal DCG, stores it and returns it. -/
lemma call_of_noEntry (log2 : α → α) (ic : idcg_cache α) (ql : qlist α) (k : Nat) (v : α)
    (hno : ic.NoEntry ql.qid) (hq : ql.qid < 2 ^ 31 ∨ ql.qid < ic.cachesize)
    (hv : compute_idcg log2 ql.labels ql.size k = some v) :
    ic.call log2 ql k =
      some (⟨(ic.grow ql.qid).cache.set ql.qid v, (ic.grow ql.qid).cachesize⟩, v) := by
  have hlen := lt_grow_length_of_noEntry hno hq
  have hmiss : (if ql.qid ≥ ic.cachesize then some true
      else (ic.cache[ql.qid]?).map (fun v => decide (v = idcg_cache.undef))) = some true := by
    by_cases h : ql.qid ≥ ic.cachesize
    · rw [if_pos h]
    · rw [if_neg h]
      rcases hno with h1 | h1
      · omega
      · rw [h1]; simp
  unfold idcg_cache.call
  simp only [hmiss, hv]
  rw [if_pos hlen]
  simp [List.getElem?_set, hlen]

/-- A call for a query id whose cell holds a value other than `undef` returns that value and
leaves the cache as it is. -/
lemma call_of_entry (log2 : α → α) (ic : idcg_cache α) (ql : qlist α) (k : Nat) (c : α)
    (hlt : ql.qid < ic.cachesize) (hc : ic.cache[ql.qid]? = some c)
    (hne : c ≠ idcg_cache.undef) :
    ic.call log2 ql k = some (ic, c) := by
  unfold idcg_cache.call
  rw [if_neg (by omega), hc]
  simp [hne]

/-- In a well-formed cache a call whose ideal DCG is defined returns, for every query id the
array reaches or can be grown to reach. -/
lemma call_total (log2 : α → α) (ic : idcg_cache α) (ql : qlist α) (k : Nat) (v : α)
    (hwf : ic.WF) (hq : ql.qid < 2 ^ 31 ∨ ql.qid < ic.cachesize)
    (hv : compute_idcg log2 ql.labels ql.size k = some v) :
    ∃ ic1 r, ic.call log2 ql k = some (ic1, r) := by
  by_cases hno : ic.NoEntry ql.qid
  · exact ⟨_, _, call_of_noEntry log2 ic ql k v hno hq hv⟩
  · unfold idcg_cache.NoEntry at hno
    push_neg at hno
    obtain ⟨h1, h2⟩ := hno
    have hlen : ql.qid < ic.cache.length := by rw [hwf]; exact h1
    refine ⟨ic, ic.cache[ql.qid], call_of_entry log2 ic ql k _ h1
      (List.getElem?_eq_getElem hlen) ?_⟩
    intro h
    apply h2
    rw [List.getElem?_eq_getElem hlen, h]

lemma compute_score_of_call (log2 : α → α) (s : ndcgscorer α) (ql : qlist α)
    (ic1 : idcg_cache α) (idcg dcg : α) (hne : ql.labels ≠ [])
    (hcall : s.ic.call log2 ql (if s.k < ql.size then s.k else ql.size) = some (ic1, idcg))
    (hdcg : compute_dcg log2 ql.labels ql.size (if s.k < ql.size then s.k else ql.size)
      = some dcg) :
    s.compute_score log2 ql = some (⟨s.k, ic1⟩, if idcg > 0 then dcg / idcg else 0) := by
  unfold ndcgscorer.compute_score
  have h0 : ¬ ql.size = 0 := by
    unfold qlist.size
    simpa using hne
  rw [if_neg h0]
  simp only [hcall, hdcg]
  split_ifs <;> simp

omit [FloorRing α] in
lemma dcgFormula_zero (log2 : α → α) (n e : Nat) :
    dcgFormula log2 (List.replicate n 0) e = 0 := by
  unfold dcgFormula
  apply Finset.sum_eq_zero
  intro i _
  have : (List.replicate n 0).getD i 0 = 0 := by
    rw [List.getD_eq_getElem?_getD, List.getElem?_replicate]
    split_ifs <;> rfl
  simp [this]

omit [FloorRing α] in
lemma wsum_eq_sum (w : Nat → α) (f : Nat → α) : ∀ (l : List Nat) (i : Nat),
    wsum w f l i = ∑ j in Finset.range l.length, f (l.getD j 0) * w (i + j) := by
  intro l
  induction l with
  | nil => intro i; simp [wsum]
  | cons x xs ih =>
    intro i
    rw [wsum, ih, List.length_cons, Finset.sum_range_succ']
    rw [add_comm]
    congr 1
    apply Finset.sum_congr rfl
    intro j _
    rw [show i + 1 + j = i + (j + 1) by omega]
    simp

omit [FloorRing α] in
lemma wsum_orderedInsert_le (w : Nat → α) (f : Nat → α) (hw : ∀ i, w (i + 1) ≤ w i)
    (hf : ∀ a b, a ≤ b → f a ≤ f b) (x : Nat) : ∀ (t : List Nat) (i : Nat),
    wsum w f (x :: t) i ≤ wsum w f (List.orderedInsert (fun a b => a ≥ b) x t) i := by
  intro t
  induction t with
  | nil => intro i; simp [wsum]
  | cons y t ih =>
    intro i
    rw [List.orderedInsert]
    split_ifs with hxy
    · exact le_rfl
    · have hfx : f x ≤ f y := hf x y (by omega)
      have h1 := ih (i + 1)
      simp only [wsum] at h1 ⊢
      nlinarith [mul_nonneg (sub_nonneg.2 hfx) (sub_nonneg.2 (hw i))]

omit [FloorRing α] in
lemma wsum_insertionSort_le (w : Nat → α) (f : Nat → α) (hw : ∀ i, w (i + 1) ≤ w i)
    (hf : ∀ a b, a ≤ b → f a ≤ f b) : ∀ (l : List Nat) (i : Nat),
    wsum w f l i ≤ wsum w f (l.insertionSort (fun a b => a ≥ b)) i := by
  intro l
  induction l with
  | nil => intro i; simp
  | cons x xs ih =>
    intro i
    rw [List.insertionSort]
    refine le_trans ?_ (wsum_orderedInsert_le w f hw hf x _ i)
    simp only [wsum]
    linarith [ih (i + 1)]

omit [FloorRing α] in
lemma dcgFormulaWith_eq_wsum (log2 : α → α) (pw : Nat → α) (grades : List Nat) (e : Nat)
    (he : e ≤ grades.length) :
    dcgFormulaWith log2 pw grades e =
      wsum (discountBelow log2 e) (fun g => pw g - 1) grades 0 := by
  rw [wsum_eq_sum]
  unfold dcgFormulaWith
  rw [← Finset.sum_subset (Finset.range_subset.2 he)]
  · apply Finset.sum_congr rfl
    intro j hj
    rw [Finset.mem_range] at hj
    simp [discountBelow, hj, div_eq_mul_inv]
  · intro j _ hj
    rw [Finset.mem_range] at hj
    simp [discountBelow, hj]

omit [FloorRing α] in
/-- Rearrangement: with positive non-decreasing `log2 (i + 2)` and a monotone power function,
the sum over the current order is at most the sum over the descending order. -/
lemma dcgFormulaWith_le_sorted (log2 : α → α) (pw : Nat → α) (grades : List Nat) (e : Nat)
    (he : e ≤ grades.length)
    (hpos : ∀ i : Nat, 0 < log2 ((i : α) + 2))
    (hmono : ∀ i : Nat, log2 ((i : α) + 2) ≤ log2 (((i + 1 : Nat) : α) + 2))
    (hpw : ∀ a b, a ≤ b → pw a ≤ pw b) :
    dcgFormulaWith log2 pw grades e ≤
      dcgFormulaWith log2 pw (grades.insertionSort (fun a b => a ≥ b)) e := by
  rw [dcgFormulaWith_eq_wsum log2 pw grades e he,
    dcgFormulaWith_eq_wsum log2 pw _ e (by rw [List.length_insertionSort]; exact he)]
  apply wsum_insertionSort_le
  · intro i
    unfold discountBelow
    by_cases h1 : i + 1 < e
    · rw [if_pos h1, if_pos (by omega)]
      exact one_div_le_one_div_of_le (hpos i) (hmono i)
    · rw [if_neg h1]
      split_ifs
      · exact le_of_lt (one_div_pos.2 (hpos i))
      · exact le_rfl
  · intro a b hab
    linarith [hpw a b hab]

omit [FloorRing α] in
lemma dcgFormula_nonneg (log2 : α → α) (grades : List Nat) (e : Nat)
    (hpos : ∀ i : Nat, 0 < log2 ((i : α) + 2)) : 0 ≤ dcgFormula log2 grades e := by
  unfold dcgFormula
  apply Finset.sum_nonneg
  intro i _
  apply div_nonneg _ (le_of_lt (hpos i))
  have : (1 : α) ≤ 2 ^ (grades.getD i 0) := one_le_pow₀ (by norm_num)
  linarith

lemma logb_two_pos (i : Nat) : 0 < Real.logb 2 ((i : ℝ) + 2) := by
  apply Real.logb_pos (by norm_num)
  have : (0 : ℝ) ≤ i := Nat.cast_nonneg i
  linarith

lemma logb_two_mono (i : Nat) :
    Real.logb 2 ((i : ℝ) + 2) ≤ Real.logb 2 (((i + 1 : Nat) : ℝ) + 2) := by
  have : (0 : ℝ) ≤ i := Nat.cast_nonneg i
  apply Real.logb_le_logb_of_le (by norm_num) (by linarith)
  push_cast
  linarith

lemma inv_logb_two_ge (x : ℝ) (m : Nat) (h1 : 1 < x) (hx : x ≤ 2 ^ m) :
    ((m : ℝ))⁻¹ ≤ (Real.logb 2 x)⁻¹ := by
  have hpos : 0 < Real.logb 2 x := Real.logb_pos (by norm_num) h1
  have hle : Real.logb 2 x ≤ m := by
    have h := Real.logb_le_logb_of_le (b := 2) (by norm_num) (by linarith) hx
    rw [Real.logb_pow, Real.logb_self_eq_one (by norm_num), mul_one] at h
    exact h
  exact inv_anti₀ hpos hle

lemma inv_logb_two_lt_one (x : ℝ) (h2 : 2 < x) : (Real.logb 2 x)⁻¹ < 1 := by
  have h := Real.logb_lt_logb (b := 2) (by norm_num) (by norm_num) h2
  rw [Real.logb_self_eq_one (by norm_num)] at h
  exact inv_lt_one_of_one_lt₀ h

/-- The value of `compute_score` on integer grades whose powers of two are given by `pw`, for
a query id without an entry. -/
lemma compute_score_graded (log2 : α → α) (s : ndcgscorer α) (qid : Nat) (grades : List Nat)
    (pw : Nat → α) (hne : grades ≠ [])
    (hpw : ∀ g ∈ grades, POWEROFTWO ((g : Nat) : α) = some (pw g))
    (hq : qid < 2 ^ 31) (hno : s.ic.NoEntry qid) :
    ∃ s1, s.compute_score log2 (gradedList qid grades) = some (s1,
      if dcgFormulaWith log2 pw (grades.insertionSort (fun a b => a ≥ b))
          (effectiveSize s.k grades.length) > 0
      then dcgFormulaWith log2 pw grades (effectiveSize s.k grades.length) /
        dcgFormulaWith log2 pw (grades.insertionSort (fun a b => a ≥ b))
          (effectiveSize s.k grades.length)
      else 0) := by
  have hdcg := compute_dcg_graded log2 grades _ hpw
    (if s.k < grades.length then s.k else grades.length)
  have hidcg := compute_idcg_graded log2 grades _ hpw
    (if s.k < grades.length then s.k else grades.length)
  rw [effectiveSize_min] at hdcg hidcg
  have hsize : (gradedList qid grades : qlist α).size = grades.length := by
    simp [gradedList, qlist.size]
  have hcall : ∃ ic1, s.ic.call log2 (gradedList qid grades)
      (if s.k < (gradedList qid grades : qlist α).size then s.k
        else (gradedList qid grades : qlist α).size)
      = some (ic1, dcgFormulaWith log2 pw (grades.insertionSort (fun a b => a ≥ b))
          (effectiveSize s.k grades.length)) := by
    rw [hsize]
    exact ⟨_, call_of_noEntry log2 s.ic (gradedList qid grades)
      (if s.k < grades.length then s.k else grades.length) _ hno (Or.inl hq)
      (by rw [hsize]; exact hidcg)⟩
  obtain ⟨ic1, hcall⟩ := hcall
  have hlab : (gradedList qid grades : qlist α).labels ≠ [] := by
    simpa [gradedList] using hne
  have hdcg1 : compute_dcg log2 (gradedList qid grades : qlist α).labels
      (gradedList qid grades : qlist α).size
      (if s.k < (gradedList qid grades : qlist α).size then s.k
        else (gradedList qid grades : qlist α).size)
      = some (dcgFormulaWith log2 pw grades (effectiveSize s.k grades.length)) := by
    rw [hsize]; exact hdcg
  exact ⟨_, compute_score_of_call log2 s (gradedList qid grades) _ _ _ hlab hcall hdcg1⟩

omit [FloorRing α] in
lemma fsymmatrix.at_new (n a b : Nat) :
    (fsymmatrix.new n : fsymmatrix α).at a b = if a < n ∧ b < n then some 0 else none := by
  unfold fsymmatrix.at fsymmatrix.new
  simp only [List.getElem?_replicate]
  by_cases ha : a < n <;> by_cases hb : b < n <;> simp [ha, hb, List.getElem?_replicate]

omit [FloorRing α] in
lemma fsymmatrix.wf_new (n : Nat) : (fsymmatrix.new n : fsymmatrix α).WF := by
  unfold fsymmatrix.WF fsymmatrix.new
  refine ⟨by simp, fun row hrow => ?_⟩
  rw [(List.mem_replicate.1 hrow).2]
  simp

omit [FloorRing α] in
lemma fsymmatrix.wf_write (m : fsymmatrix α) (hm : m.WF) (i j : Nat) (v : α) :
    (m.write i j v).WF := by
  unfold fsymmatrix.WF fsymmatrix.write
  refine ⟨by simpa using hm.1, fun row hrow => ?_⟩
  simp only at hrow ⊢
  by_cases hi : i < m.data.length
  · rcases List.mem_or_eq_of_mem_set hrow with h | h
    · exact hm.2 row h
    · rw [h, List.length_set, List.getD_eq_getElem?_getD, List.getElem?_eq_getElem hi]
      exact hm.2 _ (List.getElem_mem hi)
  · rw [List.set_eq_of_length_le (by omega)] at hrow
    exact hm.2 row hrow

omit [FloorRing α] [LinearOrderedField α] in
lemma fsymmatrix.at_write (m : fsymmatrix α) (hm : m.WF) (i j : Nat) (v : α)
    (hi : i < m.size) (hj : j < m.size) (a b : Nat) :
    (m.write i j v).at a b = if a = i ∧ b = j then some v else m.at a b := by
  unfold fsymmatrix.at fsymmatrix.write
  have hil : i < m.data.length := by rw [hm.1]; exact hi
  simp only [List.getElem?_set, hil, if_true]
  by_cases hai : i = a
  · subst hai
    have hrow : (m.data.getD i []).length = m.size := by
      rw [List.getD_eq_getElem?_getD, List.getElem?_eq_getElem hil]
      exact hm.2 _ (List.getElem_mem hil)
    simp only [if_true, Option.some_bind, true_and, List.getElem?_set, hrow, hj]
    by_cases hbj : j = b
    · subst hbj; simp
    · have : ¬ b = j := fun h => hbj h.symm
      simp only [hbj, this, if_false]
      rw [List.getD_eq_getElem?_getD, List.getElem?_eq_getElem hil]
      simp
  · have : ¬ a = i := fun h => hai h.symm
    simp [hai, this]

lemma swap_change_inner_spec (log2 : α → α) (labels : List α) (P : Nat → α) (idcg : α)
    (i n : Nat)
    (hP : ∀ t, t < n → ∃ l, labels[t]? = some l ∧ POWEROFTWO l = some (P t)) (hi : i < n) :
    ∀ (fuel j : Nat) (m : fsymmatrix α), j + fuel = n → m.WF → m.size = n →
      ∃ m1, swap_change_inner log2 labels idcg i fuel j j m = some m1 ∧ m1.WF ∧ m1.size = n ∧
        ∀ a b, m1.at a b =
          if a = i ∧ j ≤ b ∧ b < n
          then some ((1 / log2 ((i : α) + 2) - 1 / log2 ((b : α) + 2)) * (P i - P b) / idcg)
          else m.at a b := by
  intro fuel
  induction fuel with
  | zero =>
    intro j m hj hm hs
    refine ⟨m, rfl, hm, hs, fun a b => ?_⟩
    rw [if_neg (by omega)]
  | succ fuel ih =>
    intro j m hj hm hs
    obtain ⟨li, hli, hpi⟩ := hP i hi
    obtain ⟨lj, hlj, hpj⟩ := hP j (by omega)
    have hjs : j < m.size := by omega
    obtain ⟨m1, h1, h2, h3, h4⟩ := ih (j + 1)
      (m.write i j ((1 / log2 ((i : α) + 2) - 1 / log2 ((j : α) + 2)) * (P i - P j) / idcg))
      (by omega) (fsymmatrix.wf_write m hm _ _ _) (by simpa [fsymmatrix.write] using hs)
    refine ⟨m1, ?_, h2, h3, fun a b => ?_⟩
    · rw [swap_change_inner]
      simp only [hli, hlj, hpi, hpj, hjs, if_true]
      exact h1
    · rw [h4 a b, fsymmatrix.at_write m hm i j _ (by omega) hjs]
      by_cases ha : a = i
      · by_cases hb : b = j
        · subst ha; subst hb
          have hbn : b < n := by omega
          simp [hbn]
        · by_cases hb1 : j + 1 ≤ b
          · have : j ≤ b := by omega
            simp [ha, hb, hb1, this]
          · have : ¬ j ≤ b := by omega
            simp [ha, hb, hb1, this]
      · simp [ha]

lemma swap_change_outer_spec (log2 : α → α) (ql : qlist α) (P : Nat → α) (idcg : α)
    (n size : Nat) (hn : ql.size = n) (hsize : size ≤ n)
    (hP : ∀ t, t < n → ∃ l, ql.labels[t]? = some l ∧ POWEROFTWO l = some (P t)) :
    ∀ (fuel i : Nat) (m : fsymmatrix α), i + fuel = size → m.WF → m.size = n →
      ∃ m1, swap_change_outer log2 ql idcg fuel i m = some m1 ∧ m1.WF ∧ m1.size = n ∧
        ∀ a b, m1.at a b =
          if i ≤ a ∧ a < size ∧ a < b ∧ b < n
          then some ((1 / log2 ((a : α) + 2) - 1 / log2 ((b : α) + 2)) * (P a - P b) / idcg)
          else m.at a b := by
  intro fuel
  induction fuel with
  | zero =>
    intro i m hi hm hs
    refine ⟨m, rfl, hm, hs, fun a b => ?_⟩
    rw [if_neg (by omega)]
  | succ fuel ih =>
    intro i m hi hm hs
    obtain ⟨m0, g1, g2, g3, g4⟩ := swap_change_inner_spec log2 ql.labels P idcg i n hP
      (by omega) (n - (i + 1)) (i + 1) m (by omega) hm hs
    obtain ⟨m1, h1, h2, h3, h4⟩ := ih (i + 1) m0 (by omega) g2 g3
    refine ⟨m1, ?_, h2, h3, fun a b => ?_⟩
    · rw [swap_change_outer, hn, g1]
      exact h1
    · rw [h4 a b, g4 a b]
      by_cases ha : a = i
      · subst ha
        have h5 : ¬ (a + 1 ≤ a) := by omega
        have h6 : a < size := by omega
        simp only [h5, false_and, if_false, true_and, le_refl, h6]
        by_cases hb : a < b
        · have : a + 1 ≤ b := by omega
          simp [hb, this]
        · have : ¬ a + 1 ≤ b := by omega
          simp [hb, this]
      · by_cases h7 : i + 1 ≤ a
        · have : i ≤ a := by omega
          simp [ha, h7, this]
        · have : ¬ i ≤ a := by omega
          simp [ha, h7, this]

lemma graded_labels_spec (qid : Nat) (grades : List Nat) (pw : Nat → α)
    (hpw : ∀ g ∈ grades, POWEROFTWO ((g : Nat) : α) = some (pw g)) :
    ∀ t, t < grades.length → ∃ l, (gradedList qid grades : qlist α).labels[t]? = some l ∧
      POWEROFTWO l = some (pw (grades.getD t 0)) := by
  intro t ht
  refine ⟨((grades[t] : Nat) : α), ?_, ?_⟩
  · simp [gradedList, List.getElem?_map, List.getElem?_eq_getElem ht]
  · rw [hpw _ (List.getElem_mem ht)]
    simp [List.getD_eq_getElem?_getD, List.getElem?_eq_getElem ht]

/-- The matrix returned by `swap_change` on integer grades whose powers of two are given by
`pw`, in terms of the value `idcg` that the cache returns. -/
lemma swap_change_graded (log2 : α → α) (s : ndcgscorer α) (qid : Nat) (grades : List Nat)
    (pw : Nat → α) (hpw : ∀ g ∈ grades, POWEROFTWO ((g : Nat) : α) = some (pw g))
    (ic1 : idcg_cache α) (idcg : α)
    (hcall : s.ic.call log2 (gradedList qid grades) (min s.k grades.length) = some (ic1, idcg)) :
    ∃ m, s.swap_change log2 (gradedList qid grades) = some (⟨s.k, ic1⟩, m) ∧
      m.size = grades.length ∧
      ∀ a b, m.at a b =
        if idcg > 0 ∧ a < min s.k grades.length ∧ a < b ∧ b < grades.length
        then some (swapFormulaWith log2 pw grades idcg a b)
        else if a < grades.length ∧ b < grades.length then some 0 else none := by
  have hsize : (gradedList qid grades : qlist α).size = grades.length := by
    simp [gradedList, qlist.size]
  have hmin : (if s.k < grades.length then s.k else grades.length) = min s.k grades.length := by
    split_ifs <;> omega
  unfold ndcgscorer.swap_change
  simp only [hsize, hmin, hcall]
  by_cases hpos : idcg > 0
  · obtain ⟨m1, h1, _, h3, h4⟩ := swap_change_outer_spec log2 (gradedList qid grades)
      (fun t => pw (grades.getD t 0)) idcg grades.length (min s.k grades.length) hsize
      (by omega) (graded_labels_spec qid grades pw hpw) (min s.k grades.length) 0
      (fsymmatrix.new grades.length) (by omega) (fsymmatrix.wf_new _) rfl
    refine ⟨m1, ?_, h3, fun a b => ?_⟩
    · rw [if_pos hpos, h1]; rfl
    · rw [h4 a b, fsymmatrix.at_new]
      simp [hpos, swapFormulaWith]
  · refine ⟨fsymmatrix.new grades.length, ?_, rfl, fun a b => ?_⟩
    · rw [if_neg hpos]
    · rw [fsymmatrix.at_new]
      simp [hpos]

/-- The call of the cache on integer grades for a query id without an entry: the ideal DCG is
computed, stored and returned. -/
lemma call_graded (log2 : α → α) (ic : idcg_cache α) (qid : Nat) (grades : List Nat)
    (pw : Nat → α) (hpw : ∀ g ∈ grades, POWEROFTWO ((g : Nat) : α) = some (pw g))
    (hq : qid < 2 ^ 31) (hno : ic.NoEntry qid) (k : Nat) :
    ic.call log2 (gradedList qid grades) k =
      some (⟨(ic.grow qid).cache.set qid
          (dcgFormulaWith log2 pw (grades.insertionSort (fun a b => a ≥ b))
            (effectiveSize k grades.length)), (ic.grow qid).cachesize⟩,
        dcgFormulaWith log2 pw (grades.insertionSort (fun a b => a ≥ b))
          (effectiveSize k grades.length)) := by
  have hsize : (gradedList qid grades : qlist α).size = grades.length := by
    simp [gradedList, qlist.size]
  exact call_of_noEntry log2 ic (gradedList qid grades) k _ hno (Or.inl hq)
    (by rw [hsize]; exact compute_idcg_graded log2 grades pw hpw k)

lemma POWEROFTWO_shiftPower (g : Nat) (h : g ≤ 31) :
    POWEROFTWO ((g : Nat) : α) = some (shiftPower g) := by
  unfold shiftPower
  by_cases h31 : g = 31
  · subst h31
    rw [if_pos rfl]
    exact POWEROFTWO_thirtyOne
  · rw [if_neg h31]
    exact POWEROFTWO_natCast g (by omega)

lemma logb_two_two : Real.logb 2 2 = 1 := Real.logb_self_eq_one (by norm_num)

lemma inv_logb_two_three_lt_one : (Real.logb 2 3)⁻¹ < 1 :=
  inv_logb_two_lt_one 3 (by norm_num)

lemma inv_logb_two_three_pos : 0 < (Real.logb 2 3)⁻¹ :=
  inv_pos.2 (Real.logb_pos (by norm_num) (by norm_num))

/-- The ideal DCG of the grades `[31,30,30,30,30,30,30]` at 7, as the code computes it, is
positive. -/
lemma shiftPower_idcg_pos :
    0 < dcgFormulaWith (Real.logb 2) shiftPower [31, 30, 30, 30, 30, 30, 30] 7 := by
  simp only [dcgFormulaWith, shiftPower, Finset.sum_range_succ, Finset.sum_range_zero]
  norm_num [List.getD]
  have b3 := inv_logb_two_ge 3 2 (by norm_num) (by norm_num)
  have b4 := inv_logb_two_ge 4 2 (by norm_num) (by norm_num)
  have b5 := inv_logb_two_ge 5 3 (by norm_num) (by norm_num)
  have b6 := inv_logb_two_ge 6 3 (by norm_num) (by norm_num)
  have b7 := inv_logb_two_ge 7 3 (by norm_num) (by norm_num)
  have b8 := inv_logb_two_ge 8 3 (by norm_num) (by norm_num)
  simp only [div_eq_mul_inv]
  norm_num at b3 b4 b5 b6 b7 b8
  linarith

lemma swapAt_length (l : List Nat) (i j : Nat) : (swapAt l i j).length = l.length := by
  simp [swapAt]

lemma swapAt_getD (l : List Nat) (i j : Nat) (hi : i < l.length) (hj : j < l.length)
    (t : Nat) :
    (swapAt l i j).getD t 0 =
      if t = j then l.getD i 0 else if t = i then l.getD j 0 else l.getD t 0 := by
  unfold swapAt
  simp only [List.getD_eq_getElem?_getD, List.getElem?_set, List.length_set]
  by_cases h1 : j = t
  · subst h1; simp [hj]
  · have h1' : ¬ t = j := fun h => h1 h.symm
    by_cases h2 : i = t
    · subst h2; simp [h1, h1', hi]
    · have h2' : ¬ t = i := fun h => h2 h.symm
      simp [h1, h1', h2, h2']

lemma swapAt_perm (l : List Nat) (i j : Nat) (hi : i < l.length) (hj : j < l.length)
    (hij : i ≠ j) : (swapAt l i j).Perm l := by
  rw [List.perm_iff_count]
  intro a
  unfold swapAt
  rw [List.count_set _ _ _ _ (by simpa using hj), List.count_set _ _ _ _ hi]
  have hjl : j < (l.set i (l.getD j 0)).length := by simpa using hj
  have e1 : (l.set i (l.getD j 0))[j] = l[j] := by
    rw [List.getElem_set]
    simp [hij]
  have e2 : l.getD j 0 = l[j] := by
    simp [List.getD_eq_getElem?_getD, List.getElem?_eq_getElem hj]
  have e3 : l.getD i 0 = l[i] := by
    simp [List.getD_eq_getElem?_getD, List.getElem?_eq_getElem hi]
  rw [e1, e2, e3]
  have c1 : l[i] = a → 0 < l.count a := fun h => List.count_pos_iff.2 (h ▸ List.getElem_mem hi)
  have c2 : l[j] = a → 0 < l.count a := fun h => List.count_pos_iff.2 (h ▸ List.getElem_mem hj)
  by_cases h1 : l[i] = a <;> by_cases h2 : l[j] = a <;> simp [h1, h2] <;> omega

omit [FloorRing α] in
/-- Exchanging two items inside the first `e` positions changes the DCG by
`(1/log2(i+2) - 1/log2(j+2)) * (pw grade[i] - pw grade[j])`. -/
lemma dcgFormulaWith_sub_swapAt (log2 : α → α) (pw : Nat → α) (grades : List Nat) (e i j : Nat)
    (hij : i < j) (hje : j < e) (hj : j < grades.length) :
    dcgFormulaWith log2 pw grades e - dcgFormulaWith log2 pw (swapAt grades i j) e =
      (1 / log2 ((i : α) + 2) - 1 / log2 ((j : α) + 2)) *
        (pw (grades.getD i 0) - pw (grades.getD j 0)) := by
  unfold dcgFormulaWith
  rw [← Finset.sum_sub_distrib]
  rw [Finset.sum_eq_add_of_mem i j (Finset.mem_range.2 (by omega)) (Finset.mem_range.2 hje)
    (by omega)]
  · rw [swapAt_getD grades i j (by omega) hj i, swapAt_getD grades i j (by omega) hj j]
    rw [if_neg (by omega), if_pos rfl, if_pos rfl]
    ring
  · intro t _ ht
    rw [swapAt_getD grades i j (by omega) hj t, if_neg ht.2, if_neg ht.1]
    ring

/-- Two rank lists of one query id with the same ideal DCG get the same value from a
well-formed cache. -/
lemma call_pair (log2 : α → α) (ic : idcg_cache α) (ql ql2 : qlist α) (k k2 : Nat) (v : α)
    (hwf : ic.WF) (hq : ql.qid < 2 ^ 31 ∨ ql.qid < ic.cachesize) (hqid : ql2.qid = ql.qid)
    (hv : compute_idcg log2 ql.labels ql.size k = some v)
    (hv2 : compute_idcg log2 ql2.labels ql2.size k2 = some v) :
    ∃ ic1 ic2 r, ic.call log2 ql k = some (ic1, r) ∧ ic.call log2 ql2 k2 = some (ic2, r) := by
  by_cases hno : ic.NoEntry ql.qid
  · exact ⟨_, _, v, call_of_noEntry log2 ic ql k v hno hq hv,
      call_of_noEntry log2 ic ql2 k2 v (by rw [hqid]; exact hno) (by rw [hqid]; exact hq) hv2⟩
  · unfold idcg_cache.NoEntry at hno
    push_neg at hno
    obtain ⟨h1, h2⟩ := hno
    have hlen : ql.qid < ic.cache.length := by rw [hwf]; exact h1
    have hc : ic.cache[ql.qid]? = some ic.cache[ql.qid] := List.getElem?_eq_getElem hlen
    have hne : ic.cache[ql.qid] ≠ idcg_cache.undef := by
      intro h
      apply h2
      rw [hc, h]
    refine ⟨ic, ic, ic.cache[ql.qid], call_of_entry log2 ic ql k _ h1 hc hne, ?_⟩
    exact call_of_entry log2 ic ql2 k2 _ (by rw [hqid]; exact h1) (by rw [hqid]; exact hc) hne

/-- The two ways in which a call returns: a hit, which leaves the cache as it is, or a miss,
which computes the ideal DCG and stores it in the cell of the query id. -/
lemma call_cases (log2 : α → α) (ic ic1 : idcg_cache α) (ql : qlist α) (k : Nat) (r : α)
    (h : ic.call log2 ql k = some (ic1, r)) :
    (ic1 = ic ∧ ic.Entry ql.qid r) ∨
    (ic.NoEntry ql.qid ∧ compute_idcg log2 ql.labels ql.size k = some r ∧
      ql.qid < (ic.grow ql.qid).cache.length ∧
      ic1 = ⟨(ic.grow ql.qid).cache.set ql.qid r, (ic.grow ql.qid).cachesize⟩) := by
  unfold idcg_cache.call at h
  by_cases hge : ql.qid ≥ ic.cachesize
  · right
    simp only [hge, if_true] at h
    cases hv : compute_idcg log2 ql.labels ql.size k with
    | none => simp [hv] at h
    | some v =>
      simp only [hv] at h
      by_cases hlen : ql.qid < (ic.grow ql.qid).cache.length
      · simp only [hlen, if_true, List.getElem?_set, List.length_set] at h
        simp only [if_true, Option.map_some', Option.some.injEq, Prod.mk.injEq] at h
        obtain ⟨h1, h2⟩ := h
        subst h2
        exact ⟨Or.inl hge, rfl, hlen, h1.symm⟩
      · simp [hlen] at h
  · simp only [hge, if_false] at h
    cases hc : ic.cache[ql.qid]? with
    | none => simp [hc] at h
    | some c =>
      simp only [hc, Option.map_some'] at h
      by_cases hu : c = idcg_cache.undef
      · right
        simp only [hu, decide_True] at h
        cases hv : compute_idcg log2 ql.labels ql.size k with
        | none => simp [hv] at h
        | some v =>
          simp only [hv] at h
          by_cases hlen : ql.qid < (ic.grow ql.qid).cache.length
          · simp only [hlen, if_true, List.getElem?_set, List.length_set] at h
            simp only [if_true, Option.map_some', Option.some.injEq, Prod.mk.injEq] at h
            obtain ⟨h1, h2⟩ := h
            subst h2
            exact ⟨Or.inr (by rw [hc, hu]), rfl, hlen, h1.symm⟩
          · simp [hlen] at h
      · left
        simp only [hu, decide_False, Option.some.injEq, Prod.mk.injEq] at h
        obtain ⟨h1, h2⟩ := h
        subst h2
        exact ⟨h1.symm, by omega, hc, hu⟩

omit [FloorRing α] in
lemma grow_spec (ic : idcg_cache α) (qid : Nat) (hlen : qid < (ic.grow qid).cache.length) :
    ic.cachesize ≤ (ic.grow qid).cachesize ∧
    (ic.WF → (ic.grow qid).WF) ∧
    (∀ i, i < ic.cachesize → i < ic.cache.length → (ic.grow qid).cache[i]? = ic.cache[i]?) ∧
    (∀ i, ic.cachesize ≤ i → i < (ic.grow qid).cachesize →
      (ic.grow qid).cache[i]? = some idcg_cache.undef) := by
  by_cases hge : ic.cachesize ≤ qid
  · have hl := grow_length ic qid hge
    have hc := grow_cachesize ic qid hge
    rw [hl] at hlen
    refine ⟨by omega, fun _ => ?_, fun i hi hil => ?_, fun i hi hi2 => ?_⟩
    · unfold idcg_cache.WF
      omega
    · unfold idcg_cache.grow
      rw [if_pos hge]
      simp only []
      rw [(fill_spec _ _ _).2.2 i, if_neg (by omega)]
      exact realloc_getElem? _ _ _ (by omega) hil
    · unfold idcg_cache.grow
      rw [if_pos hge]
      simp only []
      rw [(fill_spec _ _ _).2.2 i, if_pos ⟨hi, by omega, by rw [realloc_length]; omega⟩]
  · rw [grow_of_lt ic qid (by omega)]
    exact ⟨le_rfl, fun h => h, fun _ _ _ => rfl, fun i h1 h2 => by omega⟩

/-- Frame of a call: the size does not decrease, well-formedness is kept, the cells of other
query ids keep their contents, and new cells other than that of the query id hold `undef`. -/
lemma call_frame (log2 : α → α) (ic ic1 : idcg_cache α) (ql : qlist α) (k : Nat) (r : α)
    (h : ic.call log2 ql k = some (ic1, r)) :
    ic.cachesize ≤ ic1.cachesize ∧
    (ic.WF → ic1.WF) ∧
    (∀ i, i ≠ ql.qid → i < ic.cachesize → i < ic.cache.length → ic1.cache[i]? = ic.cache[i]?) ∧
    (∀ i, i ≠ ql.qid → ic.cachesize ≤ i → i < ic1.cachesize →
      ic1.cache[i]? = some idcg_cache.undef) := by
  rcases call_cases log2 ic ic1 ql k r h with ⟨h1, _⟩ | ⟨_, _, hlen, h1⟩
  · subst h1
    exact ⟨le_rfl, fun h => h, fun _ _ _ _ => rfl, fun i _ h1 h2 => by omega⟩
  · obtain ⟨g1, g2, g3, g4⟩ := grow_spec ic ql.qid hlen
    subst h1
    refine ⟨g1, fun hwf => ?_, fun i hi h1 h2 => ?_, fun i hi h1 h2 => ?_⟩
    · have := g2 hwf
      unfold idcg_cache.WF at this ⊢
      simpa using this
    · simp only [List.getElem?_set]
      rw [if_neg (fun h => hi h.symm)]
      exact g3 i h1 h2
    · simp only [List.getElem?_set]
      rw [if_neg (fun h => hi h.symm)]
      exact g4 i h1 h2

lemma call_preserves_entry (log2 : α → α) (ic ic1 : idcg_cache α) (ql : qlist α) (k : Nat)
    (r : α) (q : Nat) (v : α) (he : ic.Entry q v) (h : ic.call log2 ql k = some (ic1, r)) :
    ic1.Entry q v := by
  by_cases hq : ql.qid = q
  · have := call_of_entry log2 ic ql k v (hq ▸ he.1) (hq ▸ he.2.1) he.2.2
    rw [this] at h
    simp only [Option.some.injEq, Prod.mk.injEq] at h
    rw [← h.1]
    exact he
  · obtain ⟨g1, _, g3, _⟩ := call_frame log2 ic ic1 ql k r h
    obtain ⟨e1, e2, e3⟩ := he
    have hl : q < ic.cache.length := by
      by_contra hc
      rw [List.getElem?_eq_none (by omega)] at e2
      exact Option.noConfusion e2
    exact ⟨by omega, by rw [g3 q (fun h => hq h.symm) e1 hl]; exact e2, e3⟩

lemma calls_preserve_entry (log2 : α → α) (q : Nat) (v : α) :
    ∀ (cs : List (qlist α × Nat)) (ic ic1 : idcg_cache α), ic.Entry q v →
      ic.calls log2 cs = some ic1 → ic1.Entry q v := by
  intro cs
  induction cs with
  | nil =>
    intro ic ic1 he h
    simp only [idcg_cache.calls, Option.some.injEq] at h
    rw [← h]; exact he
  | cons c rest ih =>
    intro ic ic1 he h
    rw [idcg_cache.calls] at h
    cases hc : ic.call log2 c.1 c.2 with
    | none => simp [hc] at h
    | some r =>
      simp only [hc] at h
      exact ih r.1 ic1 (call_preserves_entry log2 ic r.1 c.1 c.2 r.2 q v he hc) h

lemma wrapInt32_bounds (n : Int) : -2 ^ 31 ≤ wrapInt32 n ∧ wrapInt32 n < 2 ^ 31 := by
  unfold wrapInt32
  norm_num
  omega

lemma POWEROFTWO_abs_le (l p : α) (h : POWEROFTWO l = some p) : |p| ≤ 2 ^ 31 := by
  unfold POWEROFTWO at h
  simp only [] at h
  split_ifs at h
  simp only [Option.some.injEq] at h
  rw [← h, abs_le]
  obtain ⟨h1, h2⟩ := wrapInt32_bounds (1 * 2 ^ (floatToInt l).toNat)
  constructor
  · have : ((-2 ^ 31 : Int) : α) ≤ ((wrapInt32 (1 * 2 ^ (floatToInt l).toNat) : Int) : α) :=
      Int.cast_le.2 h1
    push_cast at this
    norm_num at this ⊢
    exact this
  · have : ((wrapInt32 (1 * 2 ^ (floatToInt l).toNat) : Int) : α) ≤ ((2 ^ 31 : Int) : α) :=
      Int.cast_le.2 (le_of_lt h2)
    push_cast at this
    norm_num at this ⊢
    exact this

lemma POWEROFTWO_isSome (l : α) (h0 : 0 ≤ l) (h1 : l < 32) : ∃ p, POWEROFTWO l = some p := by
  unfold POWEROFTWO floatToInt
  simp only [h0, if_true]
  have h2 : (0 : Int) ≤ Int.floor l := Int.floor_nonneg.2 h0
  have h3 : Int.floor l < 32 := Int.floor_lt.2 (by exact_mod_cast h1)
  rw [if_pos ⟨h2, h3⟩]
  exact ⟨_, rfl⟩

lemma one_le_logb_two (i : Nat) : 1 ≤ Real.logb 2 ((i : ℝ) + 2) := by
  have h := logb_two_pos i
  have : (0 : ℝ) ≤ i := Nat.cast_nonneg i
  have h2 := Real.logb_le_logb_of_le (b := 2) (by norm_num) (by norm_num : (0 : ℝ) < 2)
    (by linarith : (2 : ℝ) ≤ (i : ℝ) + 2)
  rw [logb_two_two] at h2
  exact h2

/-- Every value that the loop of `compute_dcg` returns is within `fuel * (2^31 + 1)` of the
value it starts from. -/
lemma compute_dcg_loop_bound (labels : List ℝ) : ∀ (fuel i : Nat) (dcg v : ℝ),
    compute_dcg_loop (Real.logb 2) labels fuel i dcg = some v →
    |v - dcg| ≤ fuel * (2 ^ 31 + 1) := by
  intro fuel
  induction fuel with
  | zero =>
    intro i dcg v h
    simp only [compute_dcg_loop, Option.some.injEq] at h
    simp [h]
  | succ fuel ih =>
    intro i dcg v h
    rw [compute_dcg_loop] at h
    cases hl : labels[i]? with
    | none => simp [hl] at h
    | some l =>
      simp only [hl] at h
      cases hp : POWEROFTWO l with
      | none => simp [hp] at h
      | some p =>
        simp only [hp] at h
        have h1 := ih _ _ _ h
        have h2 := POWEROFTWO_abs_le l p hp
        have h3 := one_le_logb_two i
        have h4 : |(p - 1) / Real.logb 2 ((i : ℝ) + 2)| ≤ 2 ^ 31 + 1 := by
          rw [abs_div, abs_of_pos (by linarith : (0 : ℝ) < Real.logb 2 ((i : ℝ) + 2))]
          have h5 : |p - 1| ≤ 2 ^ 31 + 1 := by
            rw [abs_le] at h2 ⊢
            constructor <;> linarith [h2.1, h2.2]
          calc |p - 1| / Real.logb 2 ((i : ℝ) + 2) ≤ |p - 1| / 1 :=
                div_le_div_of_nonneg_left (abs_nonneg _) (by norm_num) h3
            _ ≤ 2 ^ 31 + 1 := by rw [div_one]; exact h5
        rw [abs_le] at h1 h4 ⊢
        push_cast
        constructor <;> nlinarith [h1.1, h1.2, h4.1, h4.2]

lemma compute_idcg_ne_undef (labels : List ℝ) (n k : Nat) (v : ℝ) (hn : n < 2 ^ 32)
    (h : compute_idcg (Real.logb 2) labels n k = some v) : v ≠ idcg_cache.undef := by
  unfold compute_idcg at h
  split_ifs at h
  simp only [compute_dcg] at h
  have h1 := compute_dcg_loop_bound _ _ _ _ _ h
  have h2 : ((if k = 0 ∨ k > n then n else k : Nat) : ℝ) ≤ 2 ^ 32 := by
    have : (if k = 0 ∨ k > n then n else k) ≤ 2 ^ 32 := by split_ifs <;> omega
    exact_mod_cast this
  rw [sub_zero, abs_le] at h1
  intro hv
  rw [hv] at h1
  unfold idcg_cache.undef FLT_MAX at h1
  have h3 : (0 : ℝ) ≤ ((if k = 0 ∨ k > n then n else k : Nat) : ℝ) := Nat.cast_nonneg _
  nlinarith [h1.1]

/-- The loop of `compute_dcg` returns a value when the labels it reads lie in `[0, 32)`. -/
lemma compute_dcg_loop_total (log2 : α → α) (labels : List α)
    (hlab : ∀ l ∈ labels, 0 ≤ l ∧ l < 32) : ∀ (fuel i : Nat) (dcg : α),
    i + fuel ≤ labels.length → ∃ v, compute_dcg_loop log2 labels fuel i dcg = some v := by
  intro fuel
  induction fuel with
  | zero => intro i dcg _; exact ⟨dcg, rfl⟩
  | succ fuel ih =>
    intro i dcg h
    have hi : i < labels.length := by omega
    obtain ⟨p, hp⟩ := POWEROFTWO_isSome labels[i] (hlab _ (List.getElem_mem hi)).1
      (hlab _ (List.getElem_mem hi)).2
    rw [compute_dcg_loop, List.getElem?_eq_getElem hi]
    simp only [hp]
    exact ih _ _ (by omega)

lemma compute_idcg_total (log2 : α → α) (labels : List α)
    (hlab : ∀ l ∈ labels, 0 ≤ l ∧ l < 32) (k : Nat) :
    ∃ v, compute_idcg log2 labels labels.length k = some v := by
  unfold compute_idcg compute_dcg
  rw [if_pos le_rfl]
  apply compute_dcg_loop_total
  · intro l hl
    unfold float_qsort at hl
    rw [List.mem_insertionSort] at hl
    exact hlab l (List.mem_of_mem_take hl)
  · unfold float_qsort
    rw [List.length_insertionSort, List.length_take]
    split_ifs <;> omega

/-- After a call has returned `v`, the cache holds `v` for the query id. -/
lemma entry_after_call (ic ic1 : idcg_cache ℝ) (ql : qlist ℝ) (k : Nat) (v : ℝ)
    (hlen : ql.size < 2 ^ 32) (h : ic.call (Real.logb 2) ql k = some (ic1, v)) :
    ic1.Entry ql.qid v := by
  rcases call_cases (Real.logb 2) ic ic1 ql k v h with ⟨h1, h2⟩ | ⟨_, hv, hl, h1⟩
  · rw [h1]; exact h2
  · obtain ⟨g1, _, _, _⟩ := grow_spec ic ql.qid hl
    subst h1
    refine ⟨?_, by simp [List.getElem?_set, hl], compute_idcg_ne_undef _ _ _ _ hlen hv⟩
    by_cases hge : ic.cachesize ≤ ql.qid
    · show ql.qid < (ic.grow ql.qid).cachesize
      rw [grow_cachesize ic ql.qid hge]
      rw [grow_length ic ql.qid hge] at hl
      omega
    · show ql.qid < (ic.grow ql.qid).cachesize
      rw [grow_of_lt ic ql.qid (by omega)]
      omega

lemma POWEROFTWO_floor (l : α) (h0 : 0 ≤ l) (h1 : l < 31) :
    POWEROFTWO l = some ((2 : α) ^ (Nat.floor l)) := by
  have hf : floatToInt l = ((Nat.floor l : Nat) : Int) := by
    unfold floatToInt
    rw [if_pos h0]
    exact (Int.natCast_floor_eq_floor h0).symm
  have hlt : Nat.floor l < 31 := (Nat.floor_lt h0).2 (by exact_mod_cast h1)
  unfold POWEROFTWO
  simp only [hf]
  have h2 : (2 : Int) ^ (Nat.floor l) ≤ 2 ^ 30 := pow_le_pow_right₀ (by norm_num) (by omega)
  have h3 : (0 : Int) < 2 ^ (Nat.floor l) := by positivity
  rw [if_pos ⟨by positivity, by omega⟩]
  simp only [Int.toNat_ofNat, one_mul]
  rw [wrapInt32_of_mem _ (by norm_num at h2 ⊢; omega) (by norm_num at h2 ⊢; omega)]
  simp

lemma set_concat_length {β : Type} (l : List β) (x y : β) :
    (l ++ [x]).set l.length y = l ++ [y] := by
  induction l with
  | nil => rfl
  | cons a l ih => simp [ih]

lemma heap_read_concat_length (mem : List (Option (List α))) (a : List α) :
    heap_read (mem ++ [some a]) mem.length = some a := by
  unfold heap_read
  rw [List.getElem?_concat_length]

lemma heap_read_concat_of_read (mem : List (Option (List α))) (x : Option (List α)) (p : Nat)
    (a : List α) (h : mem[p]? = some (some a)) : heap_read (mem ++ [x]) p = some a := by
  have hp : p < mem.length := by
    by_contra hc
    rw [List.getElem?_eq_none (by omega)] at h
    exact Option.noConfusion h
  unfold heap_read
  rw [List.getElem?_append_left hp, h]

lemma compute_idcg_mem_eq (log2 : α → α) (mem : List (Option (List α))) (p : Nat)
    (labels : List α) (nlabels k : Nat) (hp : mem[p]? = some (some labels))
    (hn : nlabels ≤ labels.length) :
    compute_idcg_mem log2 mem p nlabels k
      = (compute_idcg log2 labels nlabels k).map (fun v => (mem ++ [none], v)) := by
  have hcopy : heap_memcpy (mem ++ [some (List.replicate nlabels (0 : α))]) mem.length p nlabels
      = some (mem ++ [some (labels.take nlabels)]) := by
    unfold heap_memcpy
    rw [heap_read_concat_length, heap_read_concat_of_read mem _ p labels hp]
    simp only
    rw [if_pos ⟨by simp, hn⟩, set_concat_length]
    simp
  have hsort : heap_float_qsort (mem ++ [some (labels.take nlabels)]) mem.length nlabels
      = some (mem ++ [some (float_qsort (labels.take nlabels))]) := by
    unfold heap_float_qsort
    rw [heap_read_concat_length]
    simp only
    rw [if_pos (by simp [hn]), set_concat_length]
    simp [List.take_take]
  have hdel : heap_delete (mem ++ [some (float_qsort (labels.take nlabels))]) mem.length
      = some (mem ++ [none]) := by
    unfold heap_delete
    rw [heap_read_concat_length]
    simp only
    rw [set_concat_length]
  unfold compute_idcg_mem heap_new compute_idcg
  simp only [hcopy, hsort, heap_read_concat_length, hdel]
  rw [if_pos hn]
  cases compute_dcg log2 (float_qsort (labels.take nlabels)) nlabels k with
  | none => rfl
  | some v => rfl

lemma compute_idcg_mem_frame (log2 : α → α) (mem : List (Option (List α))) (p : Nat)
    (labels : List α) (k : Nat) (hp : mem[p]? = some (some labels))
    (hlab : ∀ l ∈ labels, 0 ≤ l ∧ l < 32) :
    ∃ mem1 v, compute_idcg_mem log2 mem p labels.length k = some (mem1, v) ∧
      compute_idcg log2 labels labels.length k = some v ∧
      mem1[p]? = some (some labels) ∧ ∀ i, i < mem.length → mem1[i]? = mem[i]? := by
  obtain ⟨v, hv⟩ := compute_idcg_total log2 labels hlab k
  have hpl : p < mem.length := by
    by_contra hc
    rw [List.getElem?_eq_none (by omega)] at hp
    exact Option.noConfusion hp
  refine ⟨mem ++ [none], v, ?_, hv, ?_, ?_⟩
  · rw [compute_idcg_mem_eq log2 mem p labels labels.length k hp le_rfl, hv]
    rfl
  · rw [List.getElem?_append_left hpl, hp]
  · intro i hi
    rw [List.getElem?_append_left hi]

end MetricLemmas

section MetricTheorems

/-- C3: on a rank list of size 0, for every cutoff and every state of the cache,
`compute_score` returns the sentinel `-1` and the scorer, its cache included, is unchanged. -/
theorem compute_score_empty (s : ndcgscorer ℝ) (qid : Nat) :
    s.compute_score (Real.logb 2) ⟨qid, []⟩ = some (s, -1) := by
  simp [ndcgscorer.compute_score, qlist.size]

/-- C4: on a non-empty rank list whose labels are all `0`, for every cutoff, `compute_score`
returns exactly `0`; the call is defined for every well-formed cache and every query id that
the cache array reaches or can be grown to reach. -/
theorem compute_score_all_zero (s : ndcgscorer ℝ) (qid : Nat) (labels : List ℝ)
    (hne : labels ≠ []) (hzero : ∀ l ∈ labels, l = 0)
    (hwf : s.ic.WF) (hq : qid < 2 ^ 31 ∨ qid < s.ic.cachesize) :
    ∃ s1, s.compute_score (Real.logb 2) ⟨qid, labels⟩ = some (s1, 0) := by
  have hl : labels = (List.replicate labels.length (0 : Nat)).map (Nat.cast : Nat → ℝ) := by
    rw [List.map_replicate, List.eq_replicate_iff]
    exact ⟨rfl, fun l hl => by simpa using hzero l hl⟩
  have hpw : ∀ g ∈ List.replicate labels.length (0 : Nat),
      POWEROFTWO ((g : Nat) : ℝ) = some ((fun (g : Nat) => (2 : ℝ) ^ g) g) :=
    fun g hg => POWEROFTWO_natCast g (by rw [(List.mem_replicate.1 hg).2]; omega)
  have hsort : List.insertionSort (fun a b => a ≥ b) (List.replicate labels.length (0 : Nat))
      = List.replicate labels.length 0 := by
    apply List.Sorted.insertionSort_eq
    exact List.pairwise_replicate.2 (Or.inr (le_refl 0))
  have hdcg := compute_dcg_graded (Real.logb 2) (List.replicate labels.length 0) _ hpw
    (if s.k < labels.length then s.k else labels.length)
  have hidcg := compute_idcg_graded (Real.logb 2) (List.replicate labels.length 0) _ hpw
    (if s.k < labels.length then s.k else labels.length)
  rw [hsort] at hidcg
  rw [dcgFormulaWith_two_pow, dcgFormula_zero, ← hl, List.length_replicate] at hdcg hidcg
  obtain ⟨ic1, r, hcall⟩ := call_total (Real.logb 2) s.ic ⟨qid, labels⟩ _ 0 hwf hq hidcg
  refine ⟨⟨s.k, ic1⟩, ?_⟩
  rw [compute_score_of_call (Real.logb 2) s ⟨qid, labels⟩ ic1 r 0 hne hcall hdcg]
  simp

/-- Witness of C4: the list `[0, 0, 0]` for query id 5 on a fresh cache. -/
theorem compute_score_all_zero_witness :
    ∃ s1, (⟨2, idcg_cache.init⟩ : ndcgscorer ℝ).compute_score (Real.logb 2) ⟨5, [0, 0, 0]⟩
      = some (s1, 0) :=
  compute_score_all_zero ⟨2, idcg_cache.init⟩ 5 [0, 0, 0] (by simp) (by simp) rfl
    (Or.inl (by norm_num))

/-- C1: for a non-empty rank list of integer grades of at most 30 (so that `2^grade` fits in an
`int`), every cutoff `k`, and a cache with no entry for the query id, `compute_score` returns
`dcg / idcg` when `idcg > 0` and `0` otherwise, where `e` is the list size if `k = 0` or `k`
exceeds it and `k` otherwise, `dcg` is the sum over `i < e` of `(2^grade[i] - 1) / log2 (i + 2)`
in the current order, and `idcg` is the same sum over the grades sorted in descending order.
The query id lies below `2^31`, where the size computation of the cache does not wrap. -/
theorem compute_score_eq_ratio (s : ndcgscorer ℝ) (qid : Nat) (grades sorted : List Nat)
    (hne : grades ≠ []) (hsmall : ∀ g ∈ grades, g ≤ 30)
    (hq : qid < 2 ^ 31) (hno : s.ic.NoEntry qid)
    (hperm : sorted.Perm grades) (hsorted : sorted.Sorted (fun a b => a ≥ b)) :
    ∃ s1, s.compute_score (Real.logb 2) (gradedList qid grades) = some (s1,
      if dcgFormula (Real.logb 2) sorted (effectiveSize s.k grades.length) > 0
      then dcgFormula (Real.logb 2) grades (effectiveSize s.k grades.length) /
        dcgFormula (Real.logb 2) sorted (effectiveSize s.k grades.length)
      else 0) := by
  have hsort : grades.insertionSort (fun a b => a ≥ b) = sorted :=
    List.eq_of_perm_of_sorted ((List.perm_insertionSort _ grades).trans hperm.symm)
      (List.sorted_insertionSort _ grades) hsorted
  have h := compute_score_graded (Real.logb 2) s qid grades (fun g => (2 : ℝ) ^ g) hne
    (fun g hg => POWEROFTWO_natCast g (hsmall g hg)) hq hno
  rw [hsort] at h
  exact h

/-- Witness of C1: the grades `[3,2,3,0,1,2]` at cutoff 6, whose sorted grades are
`[3,3,2,2,1,0]`, for query id 0 on a fresh cache. -/
theorem compute_score_eq_ratio_witness :
    ∃ s1, (⟨6, idcg_cache.init⟩ : ndcgscorer ℝ).compute_score (Real.logb 2)
        (gradedList 0 [3, 2, 3, 0, 1, 2]) = some (s1,
      if dcgFormula (Real.logb 2) [3, 3, 2, 2, 1, 0] 6 > 0
      then dcgFormula (Real.logb 2) [3, 2, 3, 0, 1, 2] 6 /
        dcgFormula (Real.logb 2) [3, 3, 2, 2, 1, 0] 6
      else 0) :=
  compute_score_eq_ratio ⟨6, idcg_cache.init⟩ 0 [3, 2, 3, 0, 1, 2] [3, 3, 2, 2, 1, 0]
    (by decide) (by decide) (by norm_num) (Or.inl (Nat.zero_le _)) (by decide) (by decide)

/-- C2, as amended: for a non-empty rank list of integer grades of at most 30, every cutoff and
a cache with no entry for the query id (a query id below `2^31`), the value returned by
`compute_score` lies in `[0, 1]`: the DCG of the first `e` items in the current order does not
exceed the DCG of the first `e` items of the grades sorted in descending order. -/
theorem compute_score_mem_unit_interval (s : ndcgscorer ℝ) (qid : Nat)
    (grades sorted : List Nat) (hne : grades ≠ []) (hsmall : ∀ g ∈ grades, g ≤ 30)
    (hq : qid < 2 ^ 31) (hno : s.ic.NoEntry qid)
    (hperm : sorted.Perm grades) (hsorted : sorted.Sorted (fun a b => a ≥ b)) :
    (∃ s1 v, s.compute_score (Real.logb 2) (gradedList qid grades) = some (s1, v) ∧
      0 ≤ v ∧ v ≤ 1) ∧
    dcgFormula (Real.logb 2) grades (effectiveSize s.k grades.length) ≤
      dcgFormula (Real.logb 2) sorted (effectiveSize s.k grades.length) := by
  have hsort : grades.insertionSort (fun a b => a ≥ b) = sorted :=
    List.eq_of_perm_of_sorted ((List.perm_insertionSort _ grades).trans hperm.symm)
      (List.sorted_insertionSort _ grades) hsorted
  obtain ⟨s1, h⟩ := compute_score_graded (Real.logb 2) s qid grades (fun g => (2 : ℝ) ^ g) hne
    (fun g hg => POWEROFTWO_natCast g (hsmall g hg)) hq hno
  have hle := dcgFormulaWith_le_sorted (Real.logb 2) (fun g => (2 : ℝ) ^ g) grades
    (effectiveSize s.k grades.length) (effectiveSize_le _ _) logb_two_pos logb_two_mono
    (fun a b hab => pow_le_pow_right₀ (by norm_num) hab)
  rw [hsort] at h hle
  rw [dcgFormulaWith_two_pow, dcgFormulaWith_two_pow] at h hle
  have h0 := dcgFormula_nonneg (Real.logb 2) grades (effectiveSize s.k grades.length)
    logb_two_pos
  refine ⟨⟨s1, _, h, ?_, ?_⟩, hle⟩
  · split_ifs with hpos
    · exact div_nonneg h0 (le_of_lt hpos)
    · exact le_rfl
  · split_ifs with hpos
    · exact (div_le_one hpos).2 hle
    · exact zero_le_one

/-- Witness of C2 as amended: the grades `[1, 0, 2]` at cutoff 2 for query id 3 on a fresh
cache. -/
theorem compute_score_mem_unit_interval_witness :
    (∃ s1 v, (⟨2, idcg_cache.init⟩ : ndcgscorer ℝ).compute_score (Real.logb 2)
        (gradedList 3 [1, 0, 2]) = some (s1, v) ∧ 0 ≤ v ∧ v ≤ 1) ∧
    dcgFormula (Real.logb 2) [1, 0, 2] (effectiveSize 2 3) ≤
      dcgFormula (Real.logb 2) [2, 1, 0] (effectiveSize 2 3) :=
  compute_score_mem_unit_interval ⟨2, idcg_cache.init⟩ 3 [1, 0, 2] [2, 1, 0]
    (by decide) (by decide) (by norm_num) (Or.inl (Nat.zero_le _)) (by decide) (by decide)

/-- C2 fails as stated: the grades `[30,30,30,30,30,30,31]` are non-negative integers, and for
cutoff 0 on a fresh cache `compute_score` returns a value above `1`, because
`POWEROFTWO(31)` is `(float)(1<<31)`, a negative number. -/
theorem compute_score_exceeds_one :
    ∃ s1 v, (⟨0, idcg_cache.init⟩ : ndcgscorer ℝ).compute_score (Real.logb 2)
        (gradedList 0 [30, 30, 30, 30, 30, 30, 31]) = some (s1, v) ∧ 1 < v := by
  obtain ⟨s1, h⟩ := compute_score_graded (Real.logb 2) (⟨0, idcg_cache.init⟩ : ndcgscorer ℝ) 0
    [30, 30, 30, 30, 30, 30, 31] shiftPower (by decide)
    (fun g hg => POWEROFTWO_shiftPower g (by revert g; decide))
    (by norm_num) (Or.inl (Nat.zero_le _))
  refine ⟨s1, _, h, ?_⟩
  have hs : List.insertionSort (fun a b => a ≥ b) [30, 30, 30, 30, 30, 30, 31]
      = [31, 30, 30, 30, 30, 30, 30] := by decide
  have he : effectiveSize 0 ([30, 30, 30, 30, 30, 30, 31] : List Nat).length = 7 := by decide
  rw [hs, he]
  simp only [dcgFormulaWith, shiftPower, Finset.sum_range_succ, Finset.sum_range_zero]
  norm_num [List.getD]
  have b3 := inv_logb_two_ge 3 2 (by norm_num) (by norm_num)
  have b4 := inv_logb_two_ge 4 2 (by norm_num) (by norm_num)
  have b5 := inv_logb_two_ge 5 3 (by norm_num) (by norm_num)
  have b6 := inv_logb_two_ge 6 3 (by norm_num) (by norm_num)
  have b7 := inv_logb_two_ge 7 3 (by norm_num) (by norm_num)
  have b8 := inv_logb_two_ge 8 3 (by norm_num) (by norm_num)
  have c8 := inv_logb_two_lt_one 8 (by norm_num)
  simp only [div_eq_mul_inv]
  norm_num at b3 b4 b5 b6 b7 b8
  split_ifs with hpos
  · rw [← div_eq_mul_inv, lt_div_iff₀ hpos]
    linarith
  · exfalso
    apply hpos
    linarith

/-- C5, as amended: for a rank list of `n` integer grades of at most 30 and every cutoff `k`,
with `e = min k n` and `idcg` the value that the cache returns for the list: the matrix returned
by `swap_change` has size `n`; when `idcg > 0` its entry `(i, j)` for `i < j < n`, `i < e` is
`(1/log2(i+2) - 1/log2(j+2)) * (2^grade[i] - 2^grade[j]) / idcg`; every entry of a row `i ≥ e`
is zero; and when `idcg` is `0` every entry is zero. -/
theorem swap_change_entries (s : ndcgscorer ℝ) (qid : Nat) (grades : List Nat)
    (ic1 : idcg_cache ℝ) (idcg : ℝ) (hsmall : ∀ g ∈ grades, g ≤ 30)
    (hcall : s.ic.call (Real.logb 2) (gradedList qid grades) (min s.k grades.length)
      = some (ic1, idcg)) :
    ∃ m, s.swap_change (Real.logb 2) (gradedList qid grades) = some (⟨s.k, ic1⟩, m) ∧
      m.size = grades.length ∧
      (0 < idcg → ∀ i j, i < j → j < grades.length → i < min s.k grades.length →
        m.at i j = some (swapFormula (Real.logb 2) grades idcg i j)) ∧
      (∀ i j, min s.k grades.length ≤ i → i < grades.length → j < grades.length →
        m.at i j = some 0) ∧
      (idcg = 0 → ∀ i j, i < grades.length → j < grades.length → m.at i j = some 0) := by
  obtain ⟨m, h1, h2, h3⟩ := swap_change_graded (Real.logb 2) s qid grades
    (fun g => (2 : ℝ) ^ g) (fun g hg => POWEROFTWO_natCast g (hsmall g hg)) ic1 idcg hcall
  refine ⟨m, h1, h2, ?_, ?_, ?_⟩
  · intro hpos i j hij hj hi
    rw [h3 i j, if_pos ⟨hpos, hi, hij, hj⟩]
    rfl
  · intro i j hi hin hj
    rw [h3 i j, if_neg (by omega), if_pos ⟨hin, hj⟩]
  · intro h0 i j hi hj
    rw [h3 i j, if_neg (by rw [h0]; simp), if_pos ⟨hi, hj⟩]

/-- Witness of C5 as amended: the grades `[2, 0, 1]` at cutoff 2 for query id 0 on a fresh
cache, where the cache returns the ideal DCG of `[2, 1, 0]` at 2. -/
theorem swap_change_entries_witness :
    ∃ m, (⟨2, idcg_cache.init⟩ : ndcgscorer ℝ).swap_change (Real.logb 2) (gradedList 0 [2, 0, 1])
        = some (⟨2, ⟨(idcg_cache.init.grow 0).cache.set 0 (dcgFormula (Real.logb 2) [2, 1, 0] 2),
            (idcg_cache.init.grow 0 : idcg_cache ℝ).cachesize⟩⟩, m) ∧
      m.size = 3 ∧
      (0 < dcgFormula (Real.logb 2) [2, 1, 0] 2 → ∀ i j, i < j → j < 3 → i < min 2 3 →
        m.at i j = some (swapFormula (Real.logb 2) [2, 0, 1]
          (dcgFormula (Real.logb 2) [2, 1, 0] 2) i j)) ∧
      (∀ i j, min 2 3 ≤ i → i < 3 → j < 3 → m.at i j = some 0) ∧
      (dcgFormula (Real.logb 2) [2, 1, 0] 2 = 0 → ∀ i j, i < 3 → j < 3 → m.at i j = some 0) :=
  swap_change_entries ⟨2, idcg_cache.init⟩ 0 [2, 0, 1] _ _ (by decide)
    (call_graded (Real.logb 2) idcg_cache.init 0 [2, 0, 1] (fun g => (2 : ℝ) ^ g)
      (fun g hg => POWEROFTWO_natCast g (by revert g; decide)) (by norm_num)
      (Or.inl (Nat.zero_le _)) 2)

/-- C5 fails as stated: for the non-negative integer grades `[31,30,30,30,30,30,30]` at cutoff 7
on a fresh cache the cache returns a positive ideal DCG, and the entry `(0, 1)` of the matrix
is not the closed form with `2^31`, because `POWEROFTWO(31)` is negative. -/
theorem swap_change_entry_overflow :
    ∃ ic1 idcg s1 m,
      (idcg_cache.init : idcg_cache ℝ).call (Real.logb 2)
        (gradedList 0 [31, 30, 30, 30, 30, 30, 30]) (min 7 7) = some (ic1, idcg) ∧
      0 < idcg ∧
      (⟨7, idcg_cache.init⟩ : ndcgscorer ℝ).swap_change (Real.logb 2)
        (gradedList 0 [31, 30, 30, 30, 30, 30, 30]) = some (s1, m) ∧
      m.at 0 1 ≠ some (swapFormula (Real.logb 2) [31, 30, 30, 30, 30, 30, 30] idcg 0 1) := by
  have hpw : ∀ g ∈ [31, 30, 30, 30, 30, 30, 30],
      POWEROFTWO ((g : Nat) : ℝ) = some (shiftPower g) :=
    fun g hg => POWEROFTWO_shiftPower g (by revert g; decide)
  have hcall := call_graded (Real.logb 2) (idcg_cache.init : idcg_cache ℝ) 0
    [31, 30, 30, 30, 30, 30, 30] shiftPower hpw (by norm_num) (Or.inl (Nat.zero_le _)) (min 7 7)
  have hs : List.insertionSort (fun a b => a ≥ b) [31, 30, 30, 30, 30, 30, 30]
      = [31, 30, 30, 30, 30, 30, 30] := by decide
  have he : effectiveSize (min 7 7) ([31, 30, 30, 30, 30, 30, 30] : List Nat).length = 7 := by
    decide
  rw [hs, he] at hcall
  obtain ⟨m, h1, _, h3⟩ := swap_change_graded (Real.logb 2)
    (⟨7, idcg_cache.init⟩ : ndcgscorer ℝ) 0 [31, 30, 30, 30, 30, 30, 30] shiftPower hpw _ _ hcall
  refine ⟨_, _, _, m, hcall, shiftPower_idcg_pos, h1, ?_⟩
  rw [h3 0 1, if_pos ⟨shiftPower_idcg_pos, by decide, by decide, by decide⟩]
  intro h
  have h2 := Option.some.inj h
  have hpos := shiftPower_idcg_pos
  have hlt : swapFormulaWith (Real.logb 2) shiftPower [31, 30, 30, 30, 30, 30, 30]
      (dcgFormulaWith (Real.logb 2) shiftPower [31, 30, 30, 30, 30, 30, 30] 7) 0 1 <
      swapFormula (Real.logb 2) [31, 30, 30, 30, 30, 30, 30]
      (dcgFormulaWith (Real.logb 2) shiftPower [31, 30, 30, 30, 30, 30, 30] 7) 0 1 := by
    unfold swapFormula swapFormulaWith
    apply div_lt_div_of_pos_right _ hpos
    apply mul_lt_mul_of_pos_left
    · norm_num [shiftPower, List.getD]
    · norm_num [logb_two_two]
      exact inv_logb_two_three_lt_one
  exact absurd h2 (ne_of_lt hlt)

/-- C6, the code at the failing input: for the grades `[1, 0]` and cutoff 0 on a fresh cache
the cache returns a positive ideal DCG, the entry `(0, 1)` of the matrix returned by
`swap_change` is `0`, and the closed form of the claim is not `0`. -/
theorem swap_change_cutoff_zero :
    ∃ ic1 idcg s1 m,
      (idcg_cache.init : idcg_cache ℝ).call (Real.logb 2) (gradedList 0 [1, 0]) (min 0 2)
        = some (ic1, idcg) ∧
      0 < idcg ∧
      (⟨0, idcg_cache.init⟩ : ndcgscorer ℝ).swap_change (Real.logb 2) (gradedList 0 [1, 0])
        = some (s1, m) ∧
      m.at 0 1 = some 0 ∧
      swapFormula (Real.logb 2) [1, 0] idcg 0 1 ≠ 0 := by
  have hpw : ∀ g ∈ [1, 0], POWEROFTWO ((g : Nat) : ℝ) = some ((fun g => (2 : ℝ) ^ g) g) :=
    fun g hg => POWEROFTWO_natCast g (by revert g; decide)
  have hcall := call_graded (Real.logb 2) (idcg_cache.init : idcg_cache ℝ) 0
    [1, 0] _ hpw (by norm_num) (Or.inl (Nat.zero_le _)) (min 0 2)
  have hs : List.insertionSort (fun a b => a ≥ b) [1, 0] = [1, 0] := by decide
  have he : effectiveSize (min 0 2) ([1, 0] : List Nat).length = 2 := by decide
  rw [hs, he] at hcall
  have hval : dcgFormulaWith (Real.logb 2) (fun g => (2 : ℝ) ^ g) [1, 0] 2 = 1 := by
    simp only [dcgFormulaWith, Finset.sum_range_succ, Finset.sum_range_zero]
    norm_num [List.getD, logb_two_two]
  obtain ⟨m, h1, _, h3⟩ := swap_change_graded (Real.logb 2)
    (⟨0, idcg_cache.init⟩ : ndcgscorer ℝ) 0 [1, 0] _ hpw _ _ hcall
  refine ⟨_, _, _, m, hcall, by rw [hval]; norm_num, h1, ?_, ?_⟩
  · rw [h3 0 1, if_neg (fun h => absurd h.2.1 (by decide)), if_pos (by decide)]
  · rw [hval]
    unfold swapFormula swapFormulaWith
    norm_num [List.getD, logb_two_two]
    have := inv_logb_two_three_lt_one
    intro h
    linarith

/-- C7 fails as stated: for the grades `[1, 0]` at cutoff 1 on a fresh cache, with `i = 0` in
the top `e = 1` and `j = 1` outside it, the entry `(0, 1)` of the matrix differs from the score
of the list minus the score of the list with the two items exchanged. -/
theorem swap_change_not_delta :
    ∃ s1 m s2 v s3 w,
      (⟨1, idcg_cache.init⟩ : ndcgscorer ℝ).swap_change (Real.logb 2) (gradedList 0 [1, 0])
        = some (s1, m) ∧
      (⟨1, idcg_cache.init⟩ : ndcgscorer ℝ).compute_score (Real.logb 2) (gradedList 0 [1, 0])
        = some (s2, v) ∧
      (⟨1, idcg_cache.init⟩ : ndcgscorer ℝ).compute_score (Real.logb 2)
        (gradedList 0 (swapAt [1, 0] 0 1)) = some (s3, w) ∧
      m.at 0 1 ≠ some (v - w) := by
  have hpw : ∀ g ∈ [1, 0], POWEROFTWO ((g : Nat) : ℝ) = some ((fun g => (2 : ℝ) ^ g) g) :=
    fun g hg => POWEROFTWO_natCast g (by revert g; decide)
  have hpw2 : ∀ g ∈ swapAt [1, 0] 0 1,
      POWEROFTWO ((g : Nat) : ℝ) = some ((fun g => (2 : ℝ) ^ g) g) :=
    fun g hg => POWEROFTWO_natCast g (by revert g; decide)
  have hcall := call_graded (Real.logb 2) (idcg_cache.init : idcg_cache ℝ) 0
    [1, 0] _ hpw (by norm_num) (Or.inl (Nat.zero_le _)) (min 1 2)
  obtain ⟨m, h1, _, h3⟩ := swap_change_graded (Real.logb 2)
    (⟨1, idcg_cache.init⟩ : ndcgscorer ℝ) 0 [1, 0] _ hpw _ _ hcall
  obtain ⟨s2, hv⟩ := compute_score_graded (Real.logb 2) (⟨1, idcg_cache.init⟩ : ndcgscorer ℝ) 0
    [1, 0] _ (by decide) hpw (by norm_num) (Or.inl (Nat.zero_le _))
  obtain ⟨s3, hw⟩ := compute_score_graded (Real.logb 2) (⟨1, idcg_cache.init⟩ : ndcgscorer ℝ) 0
    (swapAt [1, 0] 0 1) _ (by decide) hpw2 (by norm_num) (Or.inl (Nat.zero_le _))
  refine ⟨_, m, s2, _, s3, _, h1, hv, hw, ?_⟩
  have hs : List.insertionSort (fun a b => a ≥ b) [1, 0] = [1, 0] := by decide
  have hs2 : List.insertionSort (fun a b => a ≥ b) (swapAt [1, 0] 0 1) = [1, 0] := by decide
  have hsw : swapAt [1, 0] 0 1 = [0, 1] := by decide
  have he : effectiveSize (min 1 2) ([1, 0] : List Nat).length = 1 := by decide
  have he1 : effectiveSize 1 ([1, 0] : List Nat).length = 1 := by decide
  have he2 : effectiveSize 1 ([0, 1] : List Nat).length = 1 := by decide
  have hI : dcgFormulaWith (Real.logb 2) (fun g => (2 : ℝ) ^ g) [1, 0] 1 = 1 := by
    simp only [dcgFormulaWith, Finset.sum_range_succ, Finset.sum_range_zero]
    norm_num [List.getD, logb_two_two]
  have hD : dcgFormulaWith (Real.logb 2) (fun g => (2 : ℝ) ^ g) [0, 1] 1 = 0 := by
    simp only [dcgFormulaWith, Finset.sum_range_succ, Finset.sum_range_zero]
    norm_num [List.getD]
  rw [h3 0 1, hs, he, hs2, hsw, he1, he2, hI, hD]
  norm_num [swapFormulaWith, List.getD, logb_two_two]

/-- C7, as amended: for a rank list of integer grades of at most 31 (the shift counts for which
`1<<grade` is defined), a cutoff `k`, a well-formed cache and a query id that its array reaches
or can be grown to reach, and positions `i < j` that both lie in the top `e = min k n`, the
entry `(i, j)` of the matrix returned by `swap_change` equals the score of the list minus the
score of the list with the items at `i` and `j` exchanged, both taken at cutoff `k`. -/
theorem swap_change_eq_delta (s : ndcgscorer ℝ) (qid : Nat) (grades : List Nat) (i j : Nat)
    (hsmall : ∀ g ∈ grades, g ≤ 31) (hwf : s.ic.WF)
    (hq : qid < 2 ^ 31 ∨ qid < s.ic.cachesize)
    (hij : i < j) (hj : j < min s.k grades.length) :
    ∃ s1 m s2 v s3 w,
      s.swap_change (Real.logb 2) (gradedList qid grades) = some (s1, m) ∧
      s.compute_score (Real.logb 2) (gradedList qid grades) = some (s2, v) ∧
      s.compute_score (Real.logb 2) (gradedList qid (swapAt grades i j)) = some (s3, w) ∧
      m.at i j = some (v - w) := by
  have hjn : j < grades.length := by omega
  have hlen := swapAt_length grades i j
  have hperm := swapAt_perm grades i j (by omega) hjn (by omega)
  have hpw : ∀ g ∈ grades, POWEROFTWO ((g : Nat) : ℝ) = some (shiftPower g) :=
    fun g hg => POWEROFTWO_shiftPower g (hsmall g hg)
  have hpw2 : ∀ g ∈ swapAt grades i j, POWEROFTWO ((g : Nat) : ℝ) = some (shiftPower g) :=
    fun g hg => POWEROFTWO_shiftPower g (hsmall g (hperm.mem_iff.1 hg))
  have hsort : (swapAt grades i j).insertionSort (fun a b => a ≥ b)
      = grades.insertionSort (fun a b => a ≥ b) :=
    List.eq_of_perm_of_sorted
      (((List.perm_insertionSort _ _).trans hperm).trans (List.perm_insertionSort _ _).symm)
      (List.sorted_insertionSort _ _) (List.sorted_insertionSort _ _)
  have hmin : (if s.k < grades.length then s.k else grades.length) = min s.k grades.length := by
    split_ifs <;> omega
  have he : effectiveSize (min s.k grades.length) grades.length = min s.k grades.length := by
    unfold effectiveSize
    split_ifs <;> omega
  have hsize : (gradedList qid grades : qlist ℝ).size = grades.length := by
    simp [gradedList, qlist.size]
  have hsize2 : (gradedList qid (swapAt grades i j) : qlist ℝ).size = grades.length := by
    simp [gradedList, qlist.size, hlen]
  have hI := compute_idcg_graded (Real.logb 2) grades shiftPower hpw (min s.k grades.length)
  have hI2 := compute_idcg_graded (Real.logb 2) (swapAt grades i j) shiftPower hpw2
    (min s.k grades.length)
  have hD := compute_dcg_graded (Real.logb 2) grades shiftPower hpw (min s.k grades.length)
  have hD2 := compute_dcg_graded (Real.logb 2) (swapAt grades i j) shiftPower hpw2
    (min s.k grades.length)
  rw [hsort, hlen, he] at hI2
  rw [hlen, he] at hD2
  rw [he] at hI hD
  obtain ⟨ic1, ic2, r, hc1, hc2⟩ := call_pair (Real.logb 2) s.ic (gradedList qid grades)
    (gradedList qid (swapAt grades i j)) (min s.k grades.length) (min s.k grades.length) _
    hwf hq rfl (by rw [hsize]; exact hI) (by rw [hsize2]; exact hI2)
  obtain ⟨m, h1, _, h3⟩ := swap_change_graded (Real.logb 2) s qid grades _ hpw _ _ hc1
  have hv := compute_score_of_call (Real.logb 2) s (gradedList qid grades) ic1 r _
    (by simp only [gradedList]; intro h; rw [List.map_eq_nil_iff] at h; rw [h] at hjn;
        simp at hjn)
    (by rw [hsize, hmin]; exact hc1) (by rw [hsize, hmin]; exact hD)
  have hw := compute_score_of_call (Real.logb 2) s (gradedList qid (swapAt grades i j)) ic2 r _
    (by simp only [gradedList]; intro h; rw [List.map_eq_nil_iff] at h; rw [h] at hlen;
        simp at hlen; omega)
    (by rw [hsize2, hmin]; exact hc2) (by rw [hsize2, hmin]; exact hD2)
  refine ⟨_, m, _, _, _, _, h1, hv, hw, ?_⟩
  rw [h3 i j]
  have hdiff := dcgFormulaWith_sub_swapAt (Real.logb 2) shiftPower grades
    (min s.k grades.length) i j hij hj hjn
  by_cases hpos : r > 0
  · rw [if_pos ⟨hpos, by omega, hij, hjn⟩, if_pos hpos, if_pos hpos]
    congr 1
    rw [← sub_div, hdiff]
    rfl
  · rw [if_neg (fun h => hpos h.1), if_pos ⟨by omega, hjn⟩, if_neg hpos, if_neg hpos]
    simp

/-- Witness of C7 as amended: the grades `[1, 0, 2]` at cutoff 2, positions 0 and 1, for query
id 0 on a fresh cache. -/
theorem swap_change_eq_delta_witness :
    ∃ s1 m s2 v s3 w,
      (⟨2, idcg_cache.init⟩ : ndcgscorer ℝ).swap_change (Real.logb 2) (gradedList 0 [1, 0, 2])
        = some (s1, m) ∧
      (⟨2, idcg_cache.init⟩ : ndcgscorer ℝ).compute_score (Real.logb 2) (gradedList 0 [1, 0, 2])
        = some (s2, v) ∧
      (⟨2, idcg_cache.init⟩ : ndcgscorer ℝ).compute_score (Real.logb 2)
        (gradedList 0 (swapAt [1, 0, 2] 0 1)) = some (s3, w) ∧
      m.at 0 1 = some (v - w) :=
  swap_change_eq_delta ⟨2, idcg_cache.init⟩ 0 [1, 0, 2] 0 1 (by decide) rfl
    (Or.inl (by norm_num)) (by decide) (by decide)

/-- C8: the cache is keyed by the query id only. Once a call for the query id `q` with cutoff
`k1` has returned `v1`, every later call for `q`, after any sequence of further calls, with
the same or another cutoff and the same or another label array, returns `v1` and leaves the
cache unchanged. The size of the first list is an `unsigned int`. -/
theorem idcg_cache_keyed_by_qid (ic ic1 ic2 : idcg_cache ℝ) (ql1 ql2 : qlist ℝ) (k1 k2 : Nat)
    (v1 : ℝ) (between : List (qlist ℝ × Nat))
    (hfirst : ic.call (Real.logb 2) ql1 k1 = some (ic1, v1)) (hsize : ql1.size < 2 ^ 32)
    (hbetween : ic1.calls (Real.logb 2) between = some ic2) (hqid : ql2.qid = ql1.qid) :
    ic2.call (Real.logb 2) ql2 k2 = some (ic2, v1) := by
  have h1 := entry_after_call ic ic1 ql1 k1 v1 hsize hfirst
  have h2 := calls_preserve_entry (Real.logb 2) ql1.qid v1 between ic1 ic2 h1 hbetween
  rw [← hqid] at h2
  exact call_of_entry (Real.logb 2) ic2 ql2 k2 v1 h2.1 h2.2.1 h2.2.2

/-- C9: a call of the cache for the query id `q`, in a well-formed cache whose array reaches
`q` or can be grown to reach it, for labels in `[0, 32)`, returns; the cache stays well-formed,
its size does not decrease, the cell of every other query id that existed before the call has
the same contents after it, also when the array is grown, and every new cell other than that
of `q` holds `undef`. -/
theorem idcg_cache_call_frame (ic : idcg_cache ℝ) (ql : qlist ℝ) (k : Nat) (hwf : ic.WF)
    (hq : ql.qid < 2 ^ 31 ∨ ql.qid < ic.cachesize) (hlab : ∀ l ∈ ql.labels, 0 ≤ l ∧ l < 32) :
    ∃ ic1 r, ic.call (Real.logb 2) ql k = some (ic1, r) ∧ ic1.WF ∧
      ic.cachesize ≤ ic1.cachesize ∧
      (∀ i, i ≠ ql.qid → i < ic.cachesize → ic1.cache[i]? = ic.cache[i]?) ∧
      (∀ i, i ≠ ql.qid → ic.cachesize ≤ i → i < ic1.cachesize →
        ic1.cache[i]? = some idcg_cache.undef) := by
  obtain ⟨v, hv⟩ := compute_idcg_total (Real.logb 2) ql.labels hlab k
  obtain ⟨ic1, r, hcall⟩ := call_total (Real.logb 2) ic ql k v hwf hq hv
  obtain ⟨g1, g2, g3, g4⟩ := call_frame (Real.logb 2) ic ic1 ql k r hcall
  exact ⟨ic1, r, hcall, g2 hwf, g1, fun i hi h1 => g3 i hi h1 (by rw [hwf]; exact h1), g4⟩

/-- Witness of C8: on a fresh cache a first call for query id 3 with the grades `[2, 1]` at
cutoff 1, then a call for query id 7, then a call for query id 3 with other labels and cutoff
2, which returns the value of the first call. -/
theorem idcg_cache_keyed_by_qid_witness :
    ∃ ic1 v1 ic2,
      (idcg_cache.init : idcg_cache ℝ).call (Real.logb 2) (gradedList 3 [2, 1]) 1
        = some (ic1, v1) ∧
      ic1.calls (Real.logb 2) [(gradedList 7 [0], 0)] = some ic2 ∧
      ic2.call (Real.logb 2) ⟨3, [0, 0, 5]⟩ 2 = some (ic2, v1) := by
  obtain ⟨ic1, v1, hsize, hfirst⟩ : ∃ (ic1 : idcg_cache ℝ) (v1 : ℝ), ic1.cachesize = 7 ∧
      (idcg_cache.init : idcg_cache ℝ).call (Real.logb 2) (gradedList 3 [2, 1]) 1
        = some (ic1, v1) :=
    ⟨_, _, by
        show ((idcg_cache.init : idcg_cache ℝ).grow 3).cachesize = 7
        rw [grow_cachesize _ _ (Nat.zero_le _)]
        decide,
      call_graded (Real.logb 2) (idcg_cache.init : idcg_cache ℝ) 3 [2, 1]
        (fun g => (2 : ℝ) ^ g) (fun g hg => POWEROFTWO_natCast g (by revert g; decide))
        (by norm_num) (Or.inl (Nat.zero_le _)) 1⟩
  have hsecond := call_graded (Real.logb 2) ic1 7 [0]
    (fun g => (2 : ℝ) ^ g) (fun g hg => POWEROFTWO_natCast g (by revert g; decide))
    (by norm_num) (Or.inl (by omega)) 0
  obtain ⟨ic2, w, hsecond⟩ : ∃ ic2 w, ic1.call (Real.logb 2) (gradedList 7 [0]) 0
      = some (ic2, w) := ⟨_, _, hsecond⟩
  have hbetween : ic1.calls (Real.logb 2) [(gradedList 7 [0], 0)] = some ic2 := by
    rw [idcg_cache.calls]
    simp only [hsecond]
    rfl
  exact ⟨ic1, v1, ic2, hfirst, hbetween,
    idcg_cache_keyed_by_qid _ ic1 _ _ ⟨3, [0, 0, 5]⟩ _ 2 v1 _ hfirst
      (by simp [gradedList, qlist.size]) hbetween rfl⟩

/-- Witness of C9: a cache of two cells that holds `3` for query id 1, called for query id 4
with the labels `[2, 1]`, which grows the array to 9 cells. -/
theorem idcg_cache_call_frame_witness :
    ∃ ic1 r, (⟨[idcg_cache.undef, 3], 2⟩ : idcg_cache ℝ).call (Real.logb 2) ⟨4, [2, 1]⟩ 1
        = some (ic1, r) ∧ ic1.WF ∧
      (⟨[idcg_cache.undef, 3], 2⟩ : idcg_cache ℝ).cachesize ≤ ic1.cachesize ∧
      (∀ i, i ≠ (⟨4, [2, 1]⟩ : qlist ℝ).qid →
        i < (⟨[idcg_cache.undef, 3], 2⟩ : idcg_cache ℝ).cachesize →
        ic1.cache[i]? = (⟨[idcg_cache.undef, 3], 2⟩ : idcg_cache ℝ).cache[i]?) ∧
      (∀ i, i ≠ (⟨4, [2, 1]⟩ : qlist ℝ).qid →
        (⟨[idcg_cache.undef, 3], 2⟩ : idcg_cache ℝ).cachesize ≤ i → i < ic1.cachesize →
        ic1.cache[i]? = some idcg_cache.undef) :=
  idcg_cache_call_frame ⟨[idcg_cache.undef, 3], 2⟩ ⟨4, [2, 1]⟩ 1 rfl (Or.inl (by norm_num))
    (by
      intro l hl
      simp only [List.mem_cons, List.mem_singleton, List.not_mem_nil, or_false] at hl
      rcases hl with h | h <;> subst h <;> norm_num)

lemma compute_dcg_floor_sum (labels : List ℝ) (k : Nat)
    (hlab : ∀ l ∈ labels, 0 ≤ l ∧ l < 31) :
    compute_dcg (Real.logb 2) labels labels.length k =
      some (∑ i in Finset.range (effectiveSize k labels.length),
        ((2 : ℝ) ^ (Nat.floor (labels.getD i 0)) - 1) / Real.logb 2 ((i : ℝ) + 2)) := by
  unfold compute_dcg
  have hle := effectiveSize_le k labels.length
  rw [show (if k = 0 ∨ k > labels.length then labels.length else k)
      = effectiveSize k labels.length from rfl]
  rw [compute_dcg_loop_eq (Real.logb 2) _ (fun j => (2 : ℝ) ^ (Nat.floor (labels.getD j 0)))]
  · simp
  · intro j _ hj
    have hjl : j < labels.length := by omega
    refine ⟨labels[j], List.getElem?_eq_getElem hjl, ?_⟩
    rw [POWEROFTWO_floor _ (hlab _ (List.getElem_mem hjl)).1 (hlab _ (List.getElem_mem hjl)).2]
    simp [List.getD_eq_getElem?_getD, List.getElem?_eq_getElem hjl]

/-- C18, as amended: for labels in `[0, 31)`, integer-valued or not, and every `k`,
`compute_dcg` returns the sum over `i < e` of `(2^⌊label[i]⌋ - 1) / log2 (i + 2)`, where the
power of two is taken of the label truncated to an integer, and `e` is the number of labels if
`k = 0` or `k` exceeds it, else `k`. -/
theorem compute_dcg_truncates (labels : List ℝ) (k : Nat)
    (hlab : ∀ l ∈ labels, 0 ≤ l ∧ l < 31) :
    compute_dcg (Real.logb 2) labels labels.length k =
      some (∑ i in Finset.range (effectiveSize k labels.length),
        ((2 : ℝ) ^ (Nat.floor (labels.getD i 0)) - 1) / Real.logb 2 ((i : ℝ) + 2)) :=
  compute_dcg_floor_sum labels k hlab

/-- Witness of C18 as amended: the labels `[1/2, 3/2, 2]` at cutoff 2. -/
theorem compute_dcg_truncates_witness :
    compute_dcg (Real.logb 2) [1 / 2, 3 / 2, 2] ([1 / 2, 3 / 2, 2] : List ℝ).length 2 =
      some (∑ i in Finset.range (effectiveSize 2 ([1 / 2, 3 / 2, 2] : List ℝ).length),
        ((2 : ℝ) ^ (Nat.floor (([1 / 2, 3 / 2, 2] : List ℝ).getD i 0)) - 1) /
          Real.logb 2 ((i : ℝ) + 2)) :=
  compute_dcg_truncates [1 / 2, 3 / 2, 2] 2 (by
    intro l hl
    simp only [List.mem_cons, List.mem_singleton, List.not_mem_nil, or_false] at hl
    rcases hl with h | h | h <;> subst h <;> norm_num)

/-- C18 fails as stated: for the single label `1/2` and `k = 0`, `compute_dcg` does not return
the sum taken with the real power `2^(1/2)`; it returns `0`. -/
theorem compute_dcg_fractional_label :
    compute_dcg (Real.logb 2) [1 / 2] 1 0 = some 0 ∧
    compute_dcg (Real.logb 2) [1 / 2] 1 0 ≠
      some (∑ i in Finset.range (effectiveSize 0 1),
        ((2 : ℝ) ^ (([1 / 2] : List ℝ).getD i 0) - 1) / Real.logb 2 ((i : ℝ) + 2)) := by
  have h := compute_dcg_floor_sum [1 / 2] 0 (by
    intro l hl
    simp only [List.mem_singleton] at hl
    subst hl
    norm_num)
  have hfl : Nat.floor ((2 : ℝ)⁻¹) = 0 := by
    rw [Nat.floor_eq_zero]
    norm_num
  have h0 : compute_dcg (Real.logb 2) [1 / 2] 1 0 = some 0 := by
    simp only [List.length_singleton] at h
    rw [h]
    simp [effectiveSize, Finset.sum_range_succ, hfl]
  refine ⟨h0, ?_⟩
  rw [h0]
  intro hc
  have hc1 := Option.some.inj hc
  have hpow : (1 : ℝ) < (2 : ℝ) ^ ((1 : ℝ) / 2) :=
    Real.one_lt_rpow (by norm_num) (by norm_num)
  simp [effectiveSize, Finset.sum_range_succ, logb_two_two] at hc1
  linarith

/-- C19, the code at the failing input: on a fresh cache a call for the query id `2^31`
computes the new size `(2 * 2^31 + 1) mod 2^32 = 1`, so the reallocated array has one cell and
the store to `cache[2^31]` lies outside it; the behaviour of the call is undefined. -/
theorem idcg_cache_call_overflow :
    ((idcg_cache.init : idcg_cache ℝ).grow (2 ^ 31)).cache.length = 1 ∧
    (idcg_cache.init : idcg_cache ℝ).call (Real.logb 2) ⟨2 ^ 31, [1]⟩ 0 = none := by
  have hl : ((idcg_cache.init : idcg_cache ℝ).grow (2 ^ 31)).cache.length = 1 := by
    rw [grow_length _ _ (Nat.zero_le _)]
    norm_num
  refine ⟨hl, ?_⟩
  obtain ⟨v, hv⟩ := compute_idcg_total (Real.logb 2) ([1] : List ℝ) (by
    intro l hl
    simp only [List.mem_singleton] at hl
    subst hl
    norm_num) 0
  unfold idcg_cache.call
  have hge : (⟨2 ^ 31, [1]⟩ : qlist ℝ).qid ≥ (idcg_cache.init : idcg_cache ℝ).cachesize :=
    Nat.zero_le _
  simp only [hge, if_true]
  have hv1 : compute_idcg (Real.logb 2) (⟨2 ^ 31, [1]⟩ : qlist ℝ).labels
      (⟨2 ^ 31, [1]⟩ : qlist ℝ).size 0 = some v := hv
  simp only [hv1]
  rw [if_neg]
  show ¬ (2 ^ 31 < ((idcg_cache.init : idcg_cache ℝ).grow (2 ^ 31)).cache.length)
  rw [hl]
  norm_num

/-- C20, as amended: for a non-empty rank list whose integer grades are at most 30 and already
in descending order, with a first grade of at least 1, every cutoff `k` and a cache with no
entry for the query id (a query id below `2^31`), `compute_score` returns exactly `1`: the DCG
in the current order is the ideal DCG of the sorted copy. And `compute_idcg` leaves the label
array of the caller unchanged: run on the arrays in memory, for every array `labels` at the
pointer `p`, sorted or not, with labels in `[0, 32)`, it returns the value of `compute_idcg`
on the contents, the array at `p` holds the same contents after the call, and so does every
other array that was in memory before the call. -/
theorem compute_score_sorted (s : ndcgscorer ℝ) (qid g0 : Nat) (rest : List Nat)
    (hsmall : ∀ g ∈ g0 :: rest, g ≤ 30)
    (hsorted : (g0 :: rest).Sorted (fun a b => a ≥ b)) (hfirst : 1 ≤ g0)
    (hq : qid < 2 ^ 31) (hno : s.ic.NoEntry qid) :
    (∃ s1, s.compute_score (Real.logb 2) (gradedList qid (g0 :: rest)) = some (s1, 1)) ∧
    ∀ (mem : List (Option (List ℝ))) (p : Nat) (labels : List ℝ) (k : Nat),
      mem[p]? = some (some labels) → (∀ l ∈ labels, 0 ≤ l ∧ l < 32) →
      ∃ mem1 v, compute_idcg_mem (Real.logb 2) mem p labels.length k = some (mem1, v) ∧
        compute_idcg (Real.logb 2) labels labels.length k = some v ∧
        mem1[p]? = some (some labels) ∧ ∀ i, i < mem.length → mem1[i]? = mem[i]? := by
  refine ⟨?_, fun mem p labels k hp hlab =>
    compute_idcg_mem_frame (Real.logb 2) mem p labels k hp hlab⟩
  obtain ⟨s1, h⟩ := compute_score_graded (Real.logb 2) s qid (g0 :: rest)
    (fun g => (2 : ℝ) ^ g) (by simp)
    (fun g hg => POWEROFTWO_natCast g (hsmall g hg)) hq hno
  rw [List.Sorted.insertionSort_eq hsorted, dcgFormulaWith_two_pow] at h
  have he : 0 < effectiveSize s.k (g0 :: rest).length := by
    unfold effectiveSize
    simp only [List.length_cons]
    split_ifs <;> omega
  have hterm : ∀ i ∈ Finset.range (effectiveSize s.k (g0 :: rest).length),
      0 ≤ ((2 : ℝ) ^ ((g0 :: rest).getD i 0) - 1) / Real.logb 2 ((i : ℝ) + 2) := by
    intro i _
    apply div_nonneg _ (le_of_lt (logb_two_pos i))
    have : (1 : ℝ) ≤ 2 ^ ((g0 :: rest).getD i 0) := one_le_pow₀ (by norm_num)
    linarith
  have hpos : 0 < dcgFormula (Real.logb 2) (g0 :: rest)
      (effectiveSize s.k (g0 :: rest).length) := by
    unfold dcgFormula
    have h0 := Finset.single_le_sum hterm (Finset.mem_range.2 he)
    have h2 : (2 : ℝ) ^ 1 ≤ 2 ^ g0 := pow_le_pow_right₀ (by norm_num) hfirst
    have h3 : (0 : ℝ) < ((2 : ℝ) ^ ((g0 :: rest).getD 0 0) - 1) /
        Real.logb 2 (((0 : Nat) : ℝ) + 2) := by
      apply div_pos _ (logb_two_pos 0)
      simp only [List.getD_cons_zero]
      linarith
    linarith
  rw [if_pos hpos, div_self (ne_of_gt hpos)] at h
  exact ⟨s1, h⟩

/-- Witness of C20 as amended: the grades `[3, 2, 2, 0]` at cutoff 3 for query id 1 on a fresh
cache. -/
theorem compute_score_sorted_witness :
    (∃ s1, (⟨3, idcg_cache.init⟩ : ndcgscorer ℝ).compute_score (Real.logb 2)
      (gradedList 1 [3, 2, 2, 0]) = some (s1, 1)) ∧
    ∀ (mem : List (Option (List ℝ))) (p : Nat) (labels : List ℝ) (k : Nat),
      mem[p]? = some (some labels) → (∀ l ∈ labels, 0 ≤ l ∧ l < 32) →
      ∃ mem1 v, compute_idcg_mem (Real.logb 2) mem p labels.length k = some (mem1, v) ∧
        compute_idcg (Real.logb 2) labels labels.length k = some v ∧
        mem1[p]? = some (some labels) ∧ ∀ i, i < mem.length → mem1[i]? = mem[i]? :=
  compute_score_sorted ⟨3, idcg_cache.init⟩ 1 3 [2, 2, 0] (by decide) (by decide) (by decide)
    (by norm_num) (Or.inl (Nat.zero_le _))

/-- C20 fails as stated: the one-item list with the grade `31` is in descending order and its
first grade is at least 1, yet on a fresh cache `compute_score` returns `0`, because the ideal
DCG computed with `(float)(1<<31)` is negative. -/
theorem compute_score_sorted_overflow :
    ∃ s1, (⟨0, idcg_cache.init⟩ : ndcgscorer ℝ).compute_score (Real.logb 2)
      (gradedList 0 [31]) = some (s1, 0) := by
  obtain ⟨s1, h⟩ := compute_score_graded (Real.logb 2) (⟨0, idcg_cache.init⟩ : ndcgscorer ℝ) 0
    [31] shiftPower (by decide)
    (fun g hg => POWEROFTWO_shiftPower g (by revert g; decide))
    (by norm_num) (Or.inl (Nat.zero_le _))
  have hs : List.insertionSort (fun a b => a ≥ b) [31] = [31] := by decide
  have he : effectiveSize (⟨0, idcg_cache.init⟩ : ndcgscorer ℝ).k ([31] : List Nat).length = 1 := by
    decide
  rw [hs, he] at h
  have hneg : ¬ dcgFormulaWith (Real.logb 2) shiftPower [31] 1 > 0 := by
    simp only [dcgFormulaWith, shiftPower, Finset.sum_range_succ, Finset.sum_range_zero]
    norm_num [List.getD, logb_two_two]
  rw [if_neg hneg] at h
  exact ⟨s1, h⟩

end MetricTheorems

section SvmlLemmas

lemma not_ISSPC_of_dropWhile {s r : List Char} {c : Char}
    (h : s.dropWhile ISSPC = c :: r) : ISSPC c = false := by
  have := List.head?_dropWhile_not ISSPC s
  rw [h] at this
  simpa using this

lemma length_dropWhile_le_length (p : Char → Bool) (s : List Char) :
    (s.dropWhile p).length ≤ s.length :=
  (List.dropWhile_sublist p).length_le

/-- The text after the first word is shorter than the text. -/
lemma rest_length_lt {s r : List Char} {c : Char} (h : s.dropWhile ISSPC = c :: r) :
    (((c :: r).dropWhile (fun c => !ISSPC c)).drop 1).length < s.length := by
  have h1 := length_dropWhile_le_length ISSPC s
  rw [h] at h1
  have hc := not_ISSPC_of_dropWhile h
  have h2 : (c :: r).dropWhile (fun c => !ISSPC c) = r.dropWhile (fun c => !ISSPC c) := by
    rw [List.dropWhile_cons]
    simp [hc]
  rw [h2, List.length_drop]
  have h3 := length_dropWhile_le_length (fun c => !ISSPC c) r
  simp only [List.length_cons] at h1
  omega

lemma wordsAux_eq : ∀ (n m : Nat) (s : List Char), s.length < n → s.length < m →
    wordsAux n s = wordsAux m s := by
  intro n
  induction n with
  | zero => intro m s h; omega
  | succ n ih =>
    intro m s hn hm
    cases m with
    | zero => omega
    | succ m =>
      rw [wordsAux, wordsAux]
      cases hs : s.dropWhile ISSPC with
      | nil => rfl
      | cons c r =>
        simp only
        have hl := rest_length_lt hs
        rw [ih m _ (by omega) (by omega)]

lemma wordsAux_eq_words (n : Nat) (s : List Char) (h : s.length < n) :
    wordsAux n s = words s :=
  wordsAux_eq n (s.length + 1) s h (by omega)

lemma words_of_blank {s : List Char} (h : s.dropWhile ISSPC = []) : words s = [] := by
  unfold words
  rw [wordsAux, h]

lemma words_of_cons {s r : List Char} {c : Char} (h : s.dropWhile ISSPC = c :: r) :
    words s = (c :: r).takeWhile (fun c => !ISSPC c) ::
      words (((c :: r).dropWhile (fun c => !ISSPC c)).drop 1) := by
  unfold words
  rw [wordsAux, h]
  simp only
  rw [wordsAux_eq_words _ _ (rest_length_lt h)]
  rfl

lemma takeWhile_cons_of_not_ISSPC {r : List Char} {c : Char} (hc : ISSPC c = false) :
    (c :: r).takeWhile (fun c => !ISSPC c) = c :: r.takeWhile (fun c => !ISSPC c) := by
  rw [List.takeWhile_cons]
  simp [hc]

lemma read_features_nil (fuel maxfid : Nat) (curr : List ℚ) :
    read_features fuel [] maxfid curr = .ok (maxfid, curr) := by
  cases fuel with
  | zero => rfl
  | succ n => simp [read_features, read_token_until]

/-- The feature loop stores the feature tokens of the rest of the line, one after the other. -/
lemma read_features_eq_store : ∀ (fuel : Nat) (pch : List Char) (maxfid : Nat) (curr : List ℚ),
    pch.length < fuel →
    read_features fuel pch maxfid curr = store_features (featureTokens pch) maxfid curr := by
  intro fuel
  induction fuel with
  | zero => intro pch maxfid curr h; omega
  | succ fuel ih =>
    intro pch maxfid curr h
    rw [read_features]
    cases hs : pch.dropWhile ISSPC with
    | nil =>
      simp only [read_token_until, hs, featureTokens, words_of_blank hs]
      rfl
    | cons c r =>
      have hc := not_ISSPC_of_dropWhile hs
      have hw := words_of_cons hs
      have hl := rest_length_lt hs
      by_cases hh : c = '#'
      · subst hh
        simp only [read_token_until, hs, if_true, read_features_nil]
        unfold featureTokens
        rw [hw, takeWhile_cons_of_not_ISSPC hc]
        simp [store_features]
      · simp only [read_token_until, hs, hh, if_false]
        rw [takeWhile_cons_of_not_ISSPC hc]
        simp only [hh, if_false]
        have hft : featureTokens pch = (c :: r.takeWhile (fun c => !ISSPC c)) ::
            featureTokens (((c :: r).dropWhile (fun c => !ISSPC c)).drop 1) := by
          unfold featureTokens
          rw [hw, takeWhile_cons_of_not_ISSPC hc, List.takeWhile_cons]
          simp [hh]
        rw [hft, store_features]
        cases hsc : sscanf_feature (c :: r.takeWhile (fun c => !ISSPC c)) with
        | none => rfl
        | some pr =>
          obtain ⟨fid, fval⟩ := pr
          simp only
          split_ifs <;> first | rfl | exact ih _ _ _ (by omega)

lemma read_token_dropWhile (line : List Char) :
    read_token (line.dropWhile ISSPC) = read_token line := by
  unfold read_token
  simp only [List.dropWhile_idempotent]

lemma read_token_of_blank {s : List Char} (h : s.dropWhile ISSPC = []) :
    (read_token s).1 = [] := by
  simp [read_token, h]

lemma read_token_of_cons {s r : List Char} {c : Char} (h : s.dropWhile ISSPC = c :: r) :
    (read_token s).1 = (c :: r).takeWhile (fun c => !ISSPC c) ∧
    (read_token s).2 = ((c :: r).dropWhile (fun c => !ISSPC c)).drop 1 := by
  simp [read_token, h]

/-- The body of the line loop on a line that is not a comment, in terms of the words of the
line. -/
lemma read_line_words (st : ReaderState) (line : List Char)
    (hnc : (line.dropWhile ISSPC).head? ≠ some '#') :
    read_line st line = record_of_words st (words line) := by
  unfold read_line
  simp only
  split
  · rename_i tl heq
    rw [heq] at hnc
    simp at hnc
  · rw [read_token_dropWhile]
    cases hs : line.dropWhile ISSPC with
    | nil =>
      rw [if_pos (read_token_of_blank hs), words_of_blank hs]
      rfl
    | cons c r =>
      have hc := not_ISSPC_of_dropWhile hs
      obtain ⟨h1, h2⟩ := read_token_of_cons hs
      have hne : (read_token line).1 ≠ [] := by
        rw [h1, takeWhile_cons_of_not_ISSPC hc]
        simp
      rw [if_neg hne, words_of_cons hs, ← h1, ← h2]
      unfold record_of_words
      simp only
      cases hs2 : (read_token line).2.dropWhile ISSPC with
      | nil =>
        rw [read_token_of_blank hs2, words_of_blank hs2]
        rfl
      | cons c2 r2 =>
        obtain ⟨g1, g2⟩ := read_token_of_cons hs2
        rw [words_of_cons hs2, ← g1, ← g2]
        simp only [List.headD_cons, List.drop_succ_cons, List.drop_zero]
        rw [read_features_eq_store _ _ _ _ (Nat.lt_succ_self _)]
        rfl

lemma head?_words (line : List Char) :
    (line.dropWhile ISSPC).head? = ((words line).headD []).head? := by
  cases hs : line.dropWhile ISSPC with
  | nil => rw [words_of_blank hs]; rfl
  | cons c r =>
    rw [words_of_cons hs, takeWhile_cons_of_not_ISSPC (not_ISSPC_of_dropWhile hs)]
    rfl

lemma scanSign_subset (s : List Char) : ∀ x ∈ (scanSign s).2, x ∈ s := by
  intro x hx
  unfold scanSign at hx
  split at hx
  · exact List.mem_cons_of_mem _ hx
  · exact List.mem_cons_of_mem _ hx
  · exact hx

lemma scanSizeT_spec {t r : List Char} {fid : Nat} (h : scanSizeT t = some (fid, r)) :
    (∀ x ∈ r, x ∈ t) ∧ fid < 2 ^ 64 := by
  unfold scanSizeT at h
  simp only at h
  by_cases h1 : List.takeWhile Char.isDigit (scanSign (List.dropWhile ISSPC t)).2 = []
  · rw [if_pos h1] at h
    exact Option.noConfusion h
  · rw [if_neg h1] at h
    simp only [Option.some.injEq, Prod.mk.injEq] at h
    obtain ⟨hf, hr⟩ := h
    constructor
    · intro x hx
      rw [← hr] at hx
      exact (List.dropWhile_sublist _).subset
        (scanSign_subset _ x ((List.dropWhile_sublist _).subset hx))
    · rw [← hf]
      have hv : (if natOfDigits (List.takeWhile Char.isDigit
          (scanSign (List.dropWhile ISSPC t)).2) < 2 ^ 64
          then natOfDigits (List.takeWhile Char.isDigit (scanSign (List.dropWhile ISSPC t)).2)
          else 2 ^ 64 - 1) < 2 ^ 64 := by
        by_cases h2 : natOfDigits (List.takeWhile Char.isDigit
            (scanSign (List.dropWhile ISSPC t)).2) < 2 ^ 64
        · rw [if_pos h2]; exact h2
        · rw [if_neg h2]; norm_num
      by_cases h3 : (scanSign (List.dropWhile ISSPC t)).1 = true
      · rw [if_pos h3]
        exact Nat.mod_lt _ (by norm_num)
      · rw [if_neg h3]
        exact hv

lemma sscanf_feature_spec {t : List Char} {fid : Nat} {fval : ℚ}
    (h : sscanf_feature t = some (fid, fval)) : ':' ∈ t ∧ fid < 2 ^ 64 := by
  unfold sscanf_feature at h
  cases hs : scanSizeT t with
  | none => simp [hs] at h
  | some pr =>
    obtain ⟨f, r⟩ := pr
    simp only [hs] at h
    obtain ⟨h1, h2⟩ := scanSizeT_spec hs
    split at h
    · rename_i r1
      cases hf : scanFloat r1 with
      | none => simp [hf] at h
      | some pv =>
        simp only [hf, Option.some.injEq, Prod.mk.injEq] at h
        exact ⟨h1 _ (List.mem_cons_self _ _), h.1 ▸ h2⟩
    · simp at h

lemma sscanf_feature_of_no_colon {t : List Char} (h : ':' ∉ t) : sscanf_feature t = none := by
  cases hs : sscanf_feature t with
  | none => rfl
  | some pr => exact absurd (@sscanf_feature_spec t pr.1 pr.2 hs).1 h

lemma index_of_fid {fid : Nat} (h1 : 1 ≤ fid) (h2 : fid < 2 ^ 64) :
    (fid + 2 ^ 64 - 1) % 2 ^ 64 = fid - 1 := by
  norm_num at h2 ⊢
  omega

lemma resize_length (v : List ℚ) (n : Nat) : (resize v n).length = n := by
  simp [resize]
  omega

lemma resize_getD (v : List ℚ) (n i : Nat) (hn : v.length ≤ n) :
    (resize v n).getD i 0 = v.getD i 0 := by
  unfold resize
  rw [List.take_of_length_le hn]
  simp only [List.getD_eq_getElem?_getD]
  by_cases h : i < v.length
  · rw [List.getElem?_append_left h]
  · rw [List.getElem?_append_right (by omega), List.getElem?_replicate,
      List.getElem?_eq_none (by omega)]
    split_ifs <;> rfl

/-- When the feature loop ends normally, the vector has the length of the running maximum,
which has not decreased. -/
lemma store_features_length : ∀ (ts : List (List Char)) (m : Nat) (c : List ℚ) (m1 : Nat)
    (c1 : List ℚ), c.length = m → store_features ts m c = .ok (m1, c1) →
    c1.length = m1 ∧ m ≤ m1 := by
  intro ts
  induction ts with
  | nil =>
    intro m c m1 c1 hc h
    simp only [store_features, Outcome.ok.injEq, Prod.mk.injEq] at h
    rw [← h.1, ← h.2]
    exact ⟨hc, le_rfl⟩
  | cons t ts ih =>
    intro m c m1 c1 hc h
    rw [store_features] at h
    cases hs : sscanf_feature t with
    | none => simp [hs] at h
    | some pr =>
      obtain ⟨fid, fval⟩ := pr
      simp only [hs] at h
      split_ifs at h with h1 h2 h3
      · have := ih _ _ _ _ (by rw [List.length_set, resize_length]) h
        exact ⟨this.1, by omega⟩
      · exact ih _ _ _ _ (by rw [List.length_set]; exact hc) h

/-- A token that `sscanf` does not convert stops the feature loop with the malformed-feature
error, when the tokens before it that are converted have positive ids. -/
lemma store_features_bad (bad : List Char) (post : List (List Char))
    (hbad : sscanf_feature bad = none) : ∀ (pre : List (List Char)) (m : Nat) (c : List ℚ),
    c.length = m →
    (∀ t ∈ pre, ∀ fid v, sscanf_feature t = some (fid, v) → 1 ≤ fid) →
    store_features (pre ++ bad :: post) m c = .exit .malformedFeature := by
  intro pre
  induction pre with
  | nil =>
    intro m c _ _
    simp [store_features, hbad]
  | cons t pre ih =>
    intro m c hc hpos
    rw [List.cons_append, store_features]
    cases hs : sscanf_feature t with
    | none => rfl
    | some pr =>
      obtain ⟨fid, fval⟩ := pr
      have h1 := hpos t (List.mem_cons_self _ _) fid fval hs
      have h2 := (sscanf_feature_spec hs).2
      have hrest : ∀ t ∈ pre, ∀ fid v, sscanf_feature t = some (fid, v) → 1 ≤ fid :=
        fun t ht => hpos t (List.mem_cons_of_mem _ ht)
      simp only [index_of_fid h1 h2]
      by_cases hgt : fid > m
      · simp only [hgt, if_true, resize_length]
        rw [if_pos (by omega)]
        exact ih _ _ (by rw [List.length_set, resize_length]) hrest
      · simp only [hgt, if_false]
        rw [if_pos (by omega)]
        exact ih _ _ (by rw [List.length_set]; exact hc) hrest

lemma maxFid_cons (m : Nat) (p : Nat × ℚ) (ps : List (Nat × ℚ)) :
    maxFid m (p :: ps) = maxFid (max m p.1) ps := rfl

lemma lastValue_cons (p : Nat × ℚ) (ps : List (Nat × ℚ)) (fid : Nat) (init : ℚ) :
    lastValue (p :: ps) fid init = lastValue ps fid (if p.1 = fid then p.2 else init) := rfl

lemma le_maxFid (m : Nat) (pairs : List (Nat × ℚ)) : m ≤ maxFid m pairs := by
  induction pairs generalizing m with
  | nil => exact le_rfl
  | cons p ps ih =>
    rw [maxFid_cons]
    exact le_trans (le_max_left _ _) (ih _)

/-- The feature loop on tokens that `sscanf` converts to pairs with positive ids: it ends
normally, the running maximum is the largest id, the vector has that length and holds at
index `i` the value of the last pair with the id `i + 1`, or what it held before. -/
lemma store_features_spec : ∀ (ts : List (List Char)) (pairs : List (Nat × ℚ)) (m : Nat)
    (c : List ℚ), c.length = m → ts.map sscanf_feature = pairs.map some →
    (∀ p ∈ pairs, 1 ≤ p.1) →
    ∃ c1, store_features ts m c = .ok (maxFid m pairs, c1) ∧ c1.length = maxFid m pairs ∧
      ∀ i, c1.getD i 0 = lastValue pairs (i + 1) (c.getD i 0) := by
  intro ts
  induction ts with
  | nil =>
    intro pairs m c hc hmap _
    cases pairs with
    | nil => exact ⟨c, rfl, hc, fun i => rfl⟩
    | cons p ps => simp at hmap
  | cons t ts ih =>
    intro pairs m c hc hmap hpos
    cases pairs with
    | nil => simp at hmap
    | cons p ps =>
      obtain ⟨fid, fval⟩ := p
      simp only [List.map_cons, List.cons.injEq] at hmap
      obtain ⟨hs, hmap1⟩ := hmap
      have h1 : 1 ≤ fid := hpos (fid, fval) (List.mem_cons_self _ _)
      have h2 := (sscanf_feature_spec hs).2
      have hrest : ∀ p ∈ ps, 1 ≤ p.1 := fun p hp => hpos p (List.mem_cons_of_mem _ hp)
      rw [store_features]
      simp only [hs, index_of_fid h1 h2, maxFid_cons]
      by_cases hgt : fid > m
      · simp only [hgt, if_true, resize_length]
        rw [if_pos (by omega), show max m fid = fid by omega]
        obtain ⟨c1, g1, g2, g3⟩ := ih ps fid ((resize c fid).set (fid - 1) fval)
          (by rw [List.length_set, resize_length]) hmap1 hrest
        refine ⟨c1, g1, g2, fun i => ?_⟩
        rw [g3 i, lastValue_cons]
        congr 1
        simp only [List.getD_eq_getElem?_getD, List.getElem?_set, resize_length]
        by_cases hi : fid - 1 = i
        · have : fid = i + 1 := by omega
          simp [hi, this]
        · have : ¬ fid = i + 1 := by omega
          simp only [hi, this, if_false]
          have := resize_getD c fid i (by omega)
          simpa [List.getD_eq_getElem?_getD] using this
      · simp only [hgt, if_false]
        rw [if_pos (by omega), show max m fid = m by omega]
        obtain ⟨c1, g1, g2, g3⟩ := ih ps m (c.set (fid - 1) fval)
          (by rw [List.length_set]; exact hc) hmap1 hrest
        refine ⟨c1, g1, g2, fun i => ?_⟩
        rw [g3 i, lastValue_cons]
        congr 1
        simp only [List.getD_eq_getElem?_getD, List.getElem?_set]
        by_cases hi : fid - 1 = i
        · have : fid = i + 1 := by omega
          have hil : i < c.length := by omega
          simp [hi, this, hil]
        · have : ¬ fid = i + 1 := by omega
          simp only [hi, this, if_false]

lemma read_lines_of_fit (st : ReaderState) (line : List Char) (rest : List (List Char))
    (h : line.length < line_buffer_size) :
    read_lines st (line :: rest) =
      match read_line st line with
      | .ok st1 => read_lines st1 rest
      | .exit e => .exit e
      | .undefined => .undefined := by
  have hf : getline_failbit line = false := by
    unfold getline_failbit
    unfold line_buffer_size at h ⊢
    simp only [decide_eq_false_iff_not]
    omega
  rw [read_lines]
  simp only [hf]
  rfl

/-- A line that does not fit the line buffer ends the line loop normally: the lines read so
far are kept, the rest of the file is not read, and there is no `exit`. -/
lemma read_lines_of_overlong (st : ReaderState) (line : List Char) (rest : List (List Char))
    (h : line_buffer_size ≤ line.length) : read_lines st (line :: rest) = .ok st := by
  have hf : getline_failbit line = true := by
    unfold getline_failbit
    unfold line_buffer_size at h ⊢
    simp only [decide_eq_true_eq]
    omega
  rw [read_lines]
  simp only [hf]
  rfl

lemma read_lines_append : ∀ (before : List (List Char)) (st st1 : ReaderState)
    (rest : List (List Char)), (∀ l ∈ before, l.length < line_buffer_size) →
    read_lines st before = .ok st1 → read_lines st (before ++ rest) = read_lines st1 rest := by
  intro before
  induction before with
  | nil =>
    intro st st1 rest _ h
    simp only [read_lines, Outcome.ok.injEq] at h
    rw [List.nil_append, h]
  | cons l before ih =>
    intro st st1 rest hfit h
    have hl := hfit l (List.mem_cons_self _ _)
    rw [read_lines_of_fit st l before hl] at h
    rw [List.cons_append, read_lines_of_fit st l (before ++ rest) hl]
    cases hr : read_line st l with
    | ok st2 =>
      simp only [hr] at h ⊢
      exact ih st2 st1 rest (fun x hx => hfit x (List.mem_cons_of_mem _ hx)) h
    | exit e => simp [hr] at h
    | undefined => simp [hr] at h

lemma read_line_comment (st : ReaderState) (line : List Char)
    (h : (line.dropWhile ISSPC).head? = some '#') : read_line st line = .ok st := by
  unfold read_line
  cases hs : line.dropWhile ISSPC with
  | nil => rw [hs] at h; simp at h
  | cons c r =>
    rw [hs] at h
    simp only [List.head?_cons, Option.some.injEq] at h
    subst h
    rfl

lemma takeWhile_append_of_all {p : List Char → Bool} (bad : List Char)
    (post : List (List Char)) (hbad : p bad = true) : ∀ (pre : List (List Char)),
    (∀ t ∈ pre, p t = true) →
    (pre ++ bad :: post).takeWhile p = pre ++ bad :: post.takeWhile p := by
  intro pre
  induction pre with
  | nil => intro _; simp [List.takeWhile_cons, hbad]
  | cons t pre ih =>
    intro h
    rw [List.cons_append, List.takeWhile_cons, h t (List.mem_cons_self _ _)]
    simp only [if_true, List.cons_append, List.cons.injEq, true_and]
    exact ih (fun x hx => h x (List.mem_cons_of_mem _ hx))

lemma read_horizontal_of_exit (file : List (List Char)) (e : Fatal)
    (h : read_lines ReaderState.init file = .exit e) : read_horizontal file = .exit e := by
  unfold read_horizontal
  rw [h]

lemma read_lines_skip_comment (line : List Char)
    (hc : (line.dropWhile ISSPC).head? = some '#') (hfit : line.length < line_buffer_size)
    (after : List (List Char)) : ∀ (before : List (List Char)) (st : ReaderState),
    read_lines st (before ++ line :: after) = read_lines st (before ++ after) := by
  intro before
  induction before with
  | nil =>
    intro st
    rw [List.nil_append, List.nil_append, read_lines_of_fit st line after hfit,
      read_line_comment st line hc]
  | cons l before ih =>
    intro st
    rw [List.cons_append, List.cons_append]
    by_cases hl : l.length < line_buffer_size
    · rw [read_lines_of_fit st l _ hl, read_lines_of_fit st l _ hl]
      cases read_line st l with
      | ok st1 => exact ih st1
      | exit e => rfl
      | undefined => rfl
    · rw [read_lines_of_overlong st l _ (by omega), read_lines_of_overlong st l _ (by omega)]

lemma specVector_length (len : Nat) (pairs : List (Nat × ℚ)) :
    (specVector len pairs).length = len := by
  simp [specVector]

lemma specVector_getElem? (len : Nat) (pairs : List (Nat × ℚ)) (j : Nat) (h : j < len) :
    (specVector len pairs)[j]? = some (lastValue pairs (j + 1) 0) := by
  unfold specVector
  rw [List.getElem?_map, List.getElem?_range h]
  rfl

lemma store_features_vector (ts : List (List Char)) (pairs : List (Nat × ℚ)) (m : Nat)
    (hmap : ts.map sscanf_feature = pairs.map some) (hpos : ∀ p ∈ pairs, 1 ≤ p.1) :
    store_features ts m (resize [] m)
      = .ok (maxFid m pairs, specVector (maxFid m pairs) pairs) := by
  obtain ⟨c1, hok, hlen, hget⟩ :=
    store_features_spec ts pairs m (resize [] m) (resize_length _ _) hmap hpos
  rw [hok]
  have hc : c1 = specVector (maxFid m pairs) pairs := by
    apply List.ext_getElem (by rw [hlen, specVector_length])
    intro n h1 h2
    have hg := hget n
    rw [resize_getD [] m n (Nat.zero_le _)] at hg
    simp only [List.getD_eq_getElem?_getD, List.getElem?_eq_getElem h1, Option.getD_some,
      List.getElem?_nil, Option.getD_none] at hg
    rw [hg]
    simp [specVector]
  rw [hc]

lemma read_line_record (st : ReaderState) (line : List Char) (r : Record)
    (hnc : isComment line = false) (hwf : WellFormed line r) :
    read_line st line = .ok ⟨maxFid st.maxfid r.pairs, st.data_qids ++ [r.qid],
      st.data_labels ++ [r.label],
      st.data_instances ++ [specVector (maxFid st.maxfid r.pairs) r.pairs]⟩ := by
  obtain ⟨lab, qtok, fts, hw, hq, hl, hmap, hpos⟩ := hwf
  have hnc1 : (line.dropWhile ISSPC).head? ≠ some '#' := by
    unfold isComment at hnc
    simpa using hnc
  rw [read_line_words st line hnc1, hw]
  unfold record_of_words
  simp only [List.headD_cons, hq, List.drop_succ_cons, List.drop_zero]
  rw [store_features_vector _ r.pairs st.maxfid hmap hpos, hl]

lemma read_lines_filter : ∀ (file : List (List Char)) (st : ReaderState),
    (∀ l ∈ file, l.length < line_buffer_size) →
    read_lines st file = read_lines st (file.filter (fun l => !isComment l)) := by
  intro file
  induction file with
  | nil => intro st _; rfl
  | cons l file ih =>
    intro st hfit
    have hl := hfit l (List.mem_cons_self _ _)
    have hrest : ∀ x ∈ file, x.length < line_buffer_size :=
      fun x hx => hfit x (List.mem_cons_of_mem _ hx)
    by_cases hc : isComment l = true
    · rw [List.filter_cons_of_neg (by simp [hc]), read_lines_of_fit st l file hl,
        read_line_comment st l (by unfold isComment at hc; simpa using hc)]
      exact ih st hrest
    · rw [List.filter_cons_of_pos (by simpa using hc), read_lines_of_fit st l file hl,
        read_lines_of_fit st l _ hl]
      cases read_line st l with
      | ok st1 => exact ih st1 hrest
      | exit e => rfl
      | undefined => rfl

lemma maxFid_append (m : Nat) (ps qs : List (Nat × ℚ)) :
    maxFid m (ps ++ qs) = maxFid (maxFid m ps) qs := by
  unfold maxFid
  rw [List.foldl_append]

lemma mem_le_maxFid (m : Nat) (pairs : List (Nat × ℚ)) (p : Nat × ℚ) (hp : p ∈ pairs) :
    p.1 ≤ maxFid m pairs := by
  induction pairs generalizing m with
  | nil => cases hp
  | cons q ps ih =>
    rw [maxFid_cons]
    rcases List.mem_cons.mp hp with h | h
    · rw [h]
      exact le_trans (le_max_right _ _) (le_maxFid _ _)
    · exact ih _ h

lemma read_lines_records (lines : List (List Char)) (recs : List Record)
    (h : List.Forall₂ WellFormed lines recs) : ∀ (st : ReaderState),
    (∀ l ∈ lines, l.length < line_buffer_size ∧ isComment l = false) →
    read_lines st lines = .ok ⟨maxFid st.maxfid (recs.flatMap Record.pairs),
      st.data_qids ++ recs.map Record.qid, st.data_labels ++ recs.map Record.label,
      st.data_instances ++ specInstances st.maxfid recs⟩ := by
  induction h with
  | nil =>
    intro st _
    simp [read_lines, specInstances, maxFid]
  | cons hwf _ ih =>
    intro st hall
    have h1 := hall _ (List.mem_cons_self _ _)
    rw [read_lines_of_fit st _ _ h1.1, read_line_record st _ _ h1.2 hwf]
    simp only
    rw [ih _ (fun x hx => hall x (List.mem_cons_of_mem _ hx))]
    simp [specInstances, maxFid_append]

lemma specInstances_length : ∀ (recs : List Record) (m : Nat),
    (specInstances m recs).length = recs.length := by
  intro recs
  induction recs with
  | nil => intro m; rfl
  | cons r rs ih => intro m; simp [specInstances, ih]

lemma specInstances_getElem? : ∀ (recs : List Record) (m i : Nat) (hi : i < recs.length),
    (specInstances m recs)[i]?
      = some (specVector (maxFid m ((recs.take (i + 1)).flatMap Record.pairs)) recs[i].pairs) := by
  intro recs
  induction recs with
  | nil => intro m i hi; cases hi
  | cons r rs ih =>
    intro m i hi
    cases i with
    | zero => simp [specInstances]
    | succ i =>
      have hi1 : i < rs.length := by simpa using hi
      simp only [specInstances, List.getElem?_cons_succ, List.getElem_cons_succ,
        List.take_succ_cons, List.flatMap_cons, maxFid_append]
      exact ih _ i hi1

lemma lastValue_of_not_mem (pairs : List (Nat × ℚ)) (fid : Nat) (init : ℚ)
    (h : ∀ p ∈ pairs, p.1 ≠ fid) : lastValue pairs fid init = init := by
  induction pairs generalizing init with
  | nil => rfl
  | cons q ps ih =>
    rw [lastValue_cons, if_neg (h q (List.mem_cons_self _ _))]
    exact ih _ (fun p hp => h p (List.mem_cons_of_mem _ hp))

lemma lastValue_of_last (pre : List (Nat × ℚ)) (fid : Nat) (v : ℚ) (post : List (Nat × ℚ))
    (init : ℚ) (h : ∀ p ∈ post, p.1 ≠ fid) :
    lastValue (pre ++ (fid, v) :: post) fid init = v := by
  have h1 : lastValue (pre ++ (fid, v) :: post) fid init
      = lastValue post fid v := by
    unfold lastValue
    rw [List.foldl_append, List.foldl_cons]
    simp
  rw [h1]
  exact lastValue_of_not_mem post fid v h

lemma wellFormed_pos (lines : List (List Char)) (recs : List Record)
    (h : List.Forall₂ WellFormed lines recs) : ∀ r ∈ recs, ∀ p ∈ r.pairs, 1 ≤ p.1 := by
  induction h with
  | nil => intro r hr; cases hr
  | cons hwf _ ih =>
    intro r hr
    rcases List.mem_cons.mp hr with h | h
    · rw [h]
      obtain ⟨_, _, _, _, _, _, _, hpos⟩ := hwf
      exact hpos
    · exact ih r h

lemma maxFid_take_le (recs : List Record) (i : Nat) :
    maxFid 0 ((recs.take i).flatMap Record.pairs) ≤ maxFid 0 (recs.flatMap Record.pairs) := by
  conv_rhs => rw [← List.take_append_drop i recs]
  rw [List.flatMap_append, maxFid_append]
  exact le_maxFid _ _

lemma mem_pairs_le_maxFid_take (recs : List Record) (i : Nat) (hi : i < recs.length)
    (p : Nat × ℚ) (hp : p ∈ recs[i].pairs) :
    p.1 ≤ maxFid 0 ((recs.take (i + 1)).flatMap Record.pairs) := by
  rw [List.take_succ, List.flatMap_append, maxFid_append, List.getElem?_eq_getElem hi]
  simp only [Option.toList_some, List.flatMap_cons, List.flatMap_nil, List.append_nil]
  exact mem_le_maxFid _ _ p hp

lemma digitChar_spec (d : Nat) :
    (digitChar d).isDigit = true ∧ (digitChar d).toNat - 48 = d % 10 := by
  unfold digitChar
  have h : d % 10 < 10 := Nat.mod_lt _ (by decide)
  generalize d % 10 = k at h
  interval_cases k <;> exact ⟨by decide, by decide⟩

lemma not_ISSPC_of_isDigit (c : Char) (h : c.isDigit = true) : ISSPC c = false := by
  unfold ISSPC
  simp only [Bool.or_eq_false_iff, beq_eq_false_iff_ne]
  refine ⟨⟨⟨⟨⟨?_, ?_⟩, ?_⟩, ?_⟩, ?_⟩, ?_⟩ <;>
    (intro hc; rw [hc] at h; revert h; decide)

lemma natOfDigits_append (xs : List Char) (c : Char) :
    natOfDigits (xs ++ [c]) = 10 * natOfDigits xs + (c.toNat - 48) := by
  unfold natOfDigits
  rw [List.foldl_append]
  rfl

lemma showNatAux_spec : ∀ (fuel n : Nat), n < fuel →
    showNatAux fuel n ≠ [] ∧ (∀ c ∈ showNatAux fuel n, c.isDigit = true) ∧
      natOfDigits (showNatAux fuel n) = n := by
  intro fuel
  induction fuel with
  | zero => intro n h; omega
  | succ fuel ih =>
    intro n h
    rw [showNatAux]
    by_cases h10 : n < 10
    · rw [if_pos h10]
      refine ⟨by simp, ?_, ?_⟩
      · intro c hc
        rw [List.mem_singleton] at hc
        rw [hc]
        exact (digitChar_spec n).1
      · have h1 : natOfDigits [digitChar n] = (digitChar n).toNat - 48 := by
          simp [natOfDigits]
        rw [h1, (digitChar_spec n).2]
        omega
    · rw [if_neg h10]
      obtain ⟨_, hd, hv⟩ := ih (n / 10) (by omega)
      refine ⟨by simp, ?_, ?_⟩
      · intro c hc
        rcases List.mem_append.mp hc with hc | hc
        · exact hd c hc
        · rw [List.mem_singleton] at hc
          rw [hc]
          exact (digitChar_spec _).1
      · rw [natOfDigits_append, hv, (digitChar_spec _).2]
        omega

lemma showNat_ne_nil (n : Nat) : showNat n ≠ [] :=
  (showNatAux_spec (n + 1) n (Nat.lt_succ_self n)).1

lemma showNat_isDigit (n : Nat) : ∀ c ∈ showNat n, c.isDigit = true :=
  (showNatAux_spec (n + 1) n (Nat.lt_succ_self n)).2.1

lemma natOfDigits_showNat (n : Nat) : natOfDigits (showNat n) = n :=
  (showNatAux_spec (n + 1) n (Nat.lt_succ_self n)).2.2

lemma showNat_noSpace (n : Nat) : ∀ c ∈ showNat n, ISSPC c = false :=
  fun c hc => not_ISSPC_of_isDigit c (showNat_isDigit n c hc)

lemma words_token (tok rest : List Char) (hne : tok ≠ [])
    (hns : ∀ c ∈ tok, ISSPC c = false) : words (tok ++ ' ' :: rest) = tok :: words rest := by
  cases tok with
  | nil => exact absurd rfl hne
  | cons c r =>
    have hc : ISSPC c = false := hns c (List.mem_cons_self _ _)
    have hd : ((c :: r) ++ ' ' :: rest).dropWhile ISSPC = c :: (r ++ ' ' :: rest) := by
      rw [List.cons_append, List.dropWhile_cons_of_neg (by simp [hc])]
    rw [words_of_cons hd, ← List.cons_append,
      List.takeWhile_append_of_pos (fun a ha => by simp [hns a ha]),
      List.dropWhile_append_of_pos (fun a ha => by simp [hns a ha]),
      List.takeWhile_cons_of_neg (by decide), List.dropWhile_cons_of_neg (by decide)]
    simp

lemma words_single (tok : List Char) (hne : tok ≠ [])
    (hns : ∀ c ∈ tok, ISSPC c = false) : words tok = [tok] := by
  cases tok with
  | nil => exact absurd rfl hne
  | cons c r =>
    have hc : ISSPC c = false := hns c (List.mem_cons_self _ _)
    have hd : (c :: r).dropWhile ISSPC = c :: r := by
      rw [List.dropWhile_cons_of_neg (by simp [hc])]
    have ht : (c :: r).takeWhile (fun c => !ISSPC c) = c :: r := by
      rw [List.takeWhile_eq_self_iff]
      intro a ha
      simp [hns a ha]
    have hdr : (c :: r).dropWhile (fun c => !ISSPC c) = [] := by
      rw [List.dropWhile_eq_nil_iff]
      intro a ha
      simp [hns a ha]
    rw [words_of_cons hd, ht, hdr]
    simp [words_of_blank]

lemma digitChar_noSpace (d : Nat) : ISSPC (digitChar d) = false :=
  not_ISSPC_of_isDigit _ (digitChar_spec d).1

lemma formatFixed_ne_nil (prec : Nat) (x : ℚ) : formatFixed prec x ≠ [] := by
  unfold formatFixed
  simp [showNat_ne_nil]

lemma formatFixed_noSpace (prec : Nat) (x : ℚ) : ∀ c ∈ formatFixed prec x, ISSPC c = false := by
  intro c hc
  unfold formatFixed at hc
  simp only [List.mem_append] at hc
  rcases hc with (hc | hc) | hc
  · split_ifs at hc
    · rw [List.mem_singleton] at hc
      rw [hc]
      decide
    · cases hc
  · exact showNat_noSpace _ c hc
  · split_ifs at hc
    · cases hc
    · rcases List.mem_cons.mp hc with hc | hc
      · rw [hc]
        decide
      · rcases List.mem_append.mp hc with hc | hc
        · rw [(List.mem_replicate.mp hc).2]
          decide
        · exact showNat_noSpace _ c hc

lemma noSpace_nil : ∀ c ∈ ([] : List Char), ISSPC c = false :=
  fun _ hc => absurd hc (List.not_mem_nil _)

lemma noSpace_cons {x : Char} {a : List Char} (hx : ISSPC x = false)
    (ha : ∀ c ∈ a, ISSPC c = false) : ∀ c ∈ x :: a, ISSPC c = false := by
  intro c hc
  rcases List.mem_cons.mp hc with h | h
  · rw [h]
    exact hx
  · exact ha c h

lemma noSpace_append {a b : List Char} (ha : ∀ c ∈ a, ISSPC c = false)
    (hb : ∀ c ∈ b, ISSPC c = false) : ∀ c ∈ a ++ b, ISSPC c = false := by
  intro c hc
  rcases List.mem_append.mp hc with h | h
  · exact ha c h
  · exact hb c h

lemma noSpace_replicate (k : Nat) {x : Char} (hx : ISSPC x = false) :
    ∀ c ∈ List.replicate k x, ISSPC c = false := by
  intro c hc
  rw [(List.mem_replicate.mp hc).2]
  exact hx

lemma generalText_ne_nil (m : Nat) (X : Int) : generalText m X ≠ [] := by
  unfold generalText
  split_ifs <;> simp

lemma generalText_noSpace (m : Nat) (X : Int) : ∀ c ∈ generalText m X, ISSPC c = false := by
  have h0 : ISSPC '0' = false := by decide
  have hp : ISSPC '.' = false := by decide
  have he : ISSPC 'e' = false := by decide
  have hm : ISSPC '-' = false := by decide
  have hpl : ISSPC '+' = false := by decide
  unfold generalText
  split_ifs
  · exact noSpace_cons (digitChar_noSpace m) noSpace_nil
  · exact noSpace_cons h0 (noSpace_cons hp (noSpace_append (noSpace_replicate _ h0)
      (noSpace_cons (digitChar_noSpace m) noSpace_nil)))
  · exact noSpace_cons (digitChar_noSpace m) (noSpace_cons he (noSpace_cons hm
      (noSpace_append (noSpace_replicate _ h0) (showNat_noSpace _))))
  · exact noSpace_cons (digitChar_noSpace m) (noSpace_cons he (noSpace_cons hpl
      (noSpace_append (noSpace_replicate _ h0) (showNat_noSpace _))))

lemma formatGeneral_ne_nil (x : ℚ) : formatGeneral x ≠ [] := by
  unfold formatGeneral
  simp only
  by_cases hn : x.num.natAbs = 0
  · rw [if_pos hn]
    simp
  · rw [if_neg hn]
    exact fun h => generalText_ne_nil _ _ (List.append_eq_nil.mp h).2

lemma formatGeneral_noSpace (x : ℚ) : ∀ c ∈ formatGeneral x, ISSPC c = false := by
  have hm : ISSPC '-' = false := by decide
  have h0 : ISSPC '0' = false := by decide
  unfold formatGeneral
  simp only
  by_cases hn : x.num.natAbs = 0
  · rw [if_pos hn]
    exact noSpace_cons h0 noSpace_nil
  · rw [if_neg hn]
    apply noSpace_append _ (generalText_noSpace _ _)
    by_cases hs : x.num < 0
    · rw [if_pos hs]
      exact noSpace_cons hm noSpace_nil
    · rw [if_neg hs]
      exact noSpace_nil

lemma formatLabel_ne_nil (fixed : Bool) (x : ℚ) : formatLabel fixed x ≠ [] := by
  unfold formatLabel
  split_ifs
  · exact formatFixed_ne_nil 0 x
  · exact formatGeneral_ne_nil x

lemma formatLabel_noSpace (fixed : Bool) (x : ℚ) :
    ∀ c ∈ formatLabel fixed x, ISSPC c = false := by
  unfold formatLabel
  split_ifs
  · exact formatFixed_noSpace 0 x
  · exact formatGeneral_noSpace x

lemma featureToken_ne_nil (features : List ℚ) (off f : Nat) :
    featureToken features off f ≠ [] := by
  unfold featureToken
  simp

lemma featureToken_noSpace (features : List ℚ) (off f : Nat) :
    ∀ c ∈ featureToken features off f, ISSPC c = false := by
  intro c hc
  unfold featureToken at hc
  rcases List.mem_append.mp hc with hc | hc
  · exact showNat_noSpace _ c hc
  · rcases List.mem_cons.mp hc with hc | hc
    · rw [hc]
      decide
    · exact formatFixed_noSpace _ _ c hc

lemma write_features_spec (features : List ℚ) (off : Nat) : ∀ (k f : Nat),
    off + f + k ≤ features.length →
    ∃ text, write_features features off k f = some text ∧
      ∀ tok, tok ≠ [] → (∀ c ∈ tok, ISSPC c = false) →
        words (tok ++ text) = tok :: (List.range' f k).map (featureToken features off) := by
  intro k
  induction k with
  | zero =>
    intro f _
    refine ⟨[], rfl, fun tok hne hns => ?_⟩
    rw [List.append_nil, words_single tok hne hns]
    rfl
  | succ k ih =>
    intro f h
    obtain ⟨rest, hrest, hw⟩ := ih (f + 1) (by omega)
    have hlt : off + f < features.length := by omega
    refine ⟨' ' :: (featureToken features off f ++ rest), ?_, ?_⟩
    · rw [write_features, List.getElem?_eq_getElem hlt, hrest]
      simp [featureToken, List.getD_eq_getElem?_getD, List.getElem?_eq_getElem hlt]
    · intro tok hne hns
      rw [words_token tok _ hne hns,
        hw _ (featureToken_ne_nil features off f) (featureToken_noSpace features off f),
        List.range'_succ]
      rfl

lemma qidToken_ne_nil (q : Nat) : "qid:".toList ++ showNat (q + 1) ≠ [] := by
  intro h
  have h1 := (List.append_eq_nil.mp h).1
  revert h1
  decide

lemma qidToken_noSpace (q : Nat) : ∀ c ∈ "qid:".toList ++ showNat (q + 1), ISSPC c = false := by
  apply noSpace_append _ (showNat_noSpace _)
  decide

lemma atou_qid_showNat (q : Nat) : atou_qid ("qid:".toList ++ showNat (q + 1)) = some (q + 1) := by
  have h : "qid:".toList ++ showNat (q + 1) = 'q' :: 'i' :: 'd' :: ':' :: showNat (q + 1) := rfl
  rw [h]
  unfold atou_qid
  simp only
  rw [if_pos, natOfDigits_showNat]
  refine ⟨showNat_ne_nil _, ?_, ?_⟩
  · rw [List.all_eq_true]
    exact showNat_isDigit _
  · rw [natOfDigits_showNat]
    omega

lemma write_results_spec (F q : Nat) (res : QueryResults)
    (hlen : res.features.length = res.labels.length * F) : ∀ (k r : Nat) (fixed : Bool),
    r + k = res.labels.length →
    ∃ lines fixed1, write_results F q res k r (r * F) fixed = some (lines, fixed1) ∧
      lines.length = k ∧
      ∀ i, i < k → ∃ line, lines[i]? = some line ∧ IsLineOf F q res (r + i) line := by
  intro k
  induction k with
  | zero =>
    intro r fixed _
    exact ⟨[], fixed, rfl, rfl, fun i hi => absurd hi (Nat.not_lt_zero i)⟩
  | succ k ih =>
    intro r fixed hr
    have hrl : r < res.labels.length := by omega
    have hrow : r * F + 0 + F ≤ res.features.length := by
      rw [hlen, Nat.add_zero, ← Nat.succ_mul]
      exact Nat.mul_le_mul_right F (by omega)
    obtain ⟨ftext, hft, hw⟩ := write_features_spec res.features (r * F) F 0 hrow
    obtain ⟨lines, fixed1, hrest, hll, hlines⟩ :=
      ih (r + 1) (fixed || decide (0 < F)) (by omega)
    rw [Nat.succ_mul] at hrest
    refine ⟨(formatLabel fixed res.labels[r] ++ " qid:".toList ++ showNat (q + 1) ++ ftext)
      :: lines, fixed1, ?_, by rw [List.length_cons, hll], ?_⟩
    · rw [write_results, List.getElem?_eq_getElem hrl, hft]
      simp only
      rw [hrest]
    · intro i hi
      cases i with
      | zero =>
        refine ⟨_, List.getElem?_cons_zero, fixed, ?_⟩
        have hshape : formatLabel fixed res.labels[r] ++ " qid:".toList ++ showNat (q + 1)
            ++ ftext
            = formatLabel fixed res.labels[r] ++ ' ' ::
              (("qid:".toList ++ showNat (q + 1)) ++ ftext) := by
          have hq : " qid:".toList = ' ' :: "qid:".toList := rfl
          rw [hq]
          simp only [List.append_assoc, List.cons_append]
        rw [hshape, words_token _ _ (formatLabel_ne_nil _ _) (formatLabel_noSpace _ _),
          hw _ (qidToken_ne_nil q) (qidToken_noSpace q)]
        simp only [Nat.add_zero, List.getD_eq_getElem?_getD, List.getElem?_eq_getElem hrl,
          Option.getD_some, List.range_eq_range']
      | succ i =>
        obtain ⟨line, hline, his⟩ := hlines i (by omega)
        refine ⟨line, ?_, ?_⟩
        · rw [List.getElem?_cons_succ]
          exact hline
        · have hidx : r + (i + 1) = r + 1 + i := by omega
          rw [hidx]
          exact his

lemma write_queries_spec (F : Nat) : ∀ (qs : List QueryResults) (q0 : Nat) (fixed : Bool),
    (∀ res ∈ qs, res.features.length = res.labels.length * F) →
    ∃ blocks : List (List (List Char)),
      write_queries F qs q0 fixed = some blocks.flatten ∧ blocks.length = qs.length ∧
      ∀ (i : Nat) (hi : i < qs.length), ∃ block, blocks[i]? = some block ∧
        block.length = qs[i].num_results ∧
        ∀ r, r < qs[i].num_results →
          ∃ line, block[r]? = some line ∧ IsLineOf F (q0 + i) qs[i] r line := by
  intro qs
  induction qs with
  | nil =>
    intro q0 fixed _
    exact ⟨[], rfl, rfl, fun i hi => absurd hi (Nat.not_lt_zero i)⟩
  | cons res rest ih =>
    intro q0 fixed hwf
    obtain ⟨lines, fixed1, hres, hll, hlines⟩ :=
      write_results_spec F q0 res (hwf res (List.mem_cons_self _ _)) res.num_results 0 fixed
        (by unfold QueryResults.num_results; omega)
    rw [Nat.zero_mul] at hres
    obtain ⟨blocks, hrest, hbl, hblocks⟩ :=
      ih (q0 + 1) fixed1 (fun x hx => hwf x (List.mem_cons_of_mem _ hx))
    refine ⟨lines :: blocks, ?_, by rw [List.length_cons, List.length_cons, hbl], ?_⟩
    · rw [write_queries, hres]
      simp only
      rw [hrest, List.flatten_cons]
    · intro i hi
      cases i with
      | zero =>
        refine ⟨lines, List.getElem?_cons_zero, hll, ?_⟩
        intro r hr
        obtain ⟨line, hline, his⟩ := hlines r hr
        rw [Nat.zero_add] at his
        exact ⟨line, hline, his⟩
      | succ i =>
        have hi1 : i < rest.length := by simpa using hi
        obtain ⟨block, hb, hbl1, hbr⟩ := hblocks i hi1
        refine ⟨block, ?_, ?_, ?_⟩
        · rw [List.getElem?_cons_succ]
          exact hb
        · simpa using hbl1
        · intro r hr
          have hr1 : r < rest[i].num_results := by simpa using hr
          obtain ⟨line, hline, his⟩ := hbr r hr1
          have hidx : q0 + (i + 1) = q0 + 1 + i := by omega
          rw [hidx]
          exact ⟨line, hline, by simpa using his⟩

lemma scanSign_of_isDigit (c : Char) (r : List Char) (hc : c.isDigit = true) :
    scanSign (c :: r) = (false, c :: r) := by
  by_cases h1 : c = '-'
  · rw [h1] at hc
    exact absurd hc (by decide)
  · by_cases h2 : c = '+'
    · rw [h2] at hc
      exact absurd hc (by decide)
    · unfold scanSign
      split
      · rename_i heq
        exact absurd (List.cons.inj heq).1 h1
      · rename_i heq
        exact absurd (List.cons.inj heq).1 h2
      · rfl

lemma scanSizeT_showNat (n : Nat) (hn : n < 2 ^ 64) (rest : List Char) :
    scanSizeT (showNat n ++ ':' :: rest) = some (n, ':' :: rest) := by
  have hdig := showNat_isDigit n
  have hval := natOfDigits_showNat n
  have hne := showNat_ne_nil n
  generalize showNat n = ds at hdig hval hne
  cases ds with
  | nil => exact absurd rfl hne
  | cons c r =>
    have hc : c.isDigit = true := hdig c (List.mem_cons_self _ _)
    have hd : ((c :: r) ++ ':' :: rest).dropWhile ISSPC = c :: (r ++ ':' :: rest) := by
      rw [List.cons_append,
        List.dropWhile_cons_of_neg (by simp [not_ISSPC_of_isDigit c hc])]
    have ht : (c :: (r ++ ':' :: rest)).takeWhile Char.isDigit = c :: r := by
      rw [← List.cons_append, List.takeWhile_append_of_pos hdig,
        List.takeWhile_cons_of_neg (by decide), List.append_nil]
    have hdr : (c :: (r ++ ':' :: rest)).dropWhile Char.isDigit = ':' :: rest := by
      rw [← List.cons_append, List.dropWhile_append_of_pos hdig,
        List.dropWhile_cons_of_neg (by decide)]
    unfold scanSizeT
    simp only [hd, scanSign_of_isDigit c _ hc, ht, hdr, hval, if_pos hn]
    simp

end SvmlLemmas

section SvmlTheorems

/-- C11: a line that `getline` delivers, with a label, a well-formed query id and, before any
word that starts with `#`, a feature token `bad` without `:`, stops `read_horizontal` with the
fatal malformed-feature error, whose exit status 4 differs from the status 2 of a missing label
and the status 3 of an overlong line; no dataset is returned. The feature tokens before `bad`
that `sscanf` accepts have positive ids, and the lines before are read without an error. -/
theorem read_horizontal_feature_without_colon (before after : List (List Char))
    (st : ReaderState) (line lab qtok : List Char) (qid : Nat) (pre : List (List Char))
    (bad : List Char) (post : List (List Char))
    (hfitb : ∀ l ∈ before, l.length < line_buffer_size)
    (hbefore : read_lines ReaderState.init before = .ok st)
    (hfit : line.length < line_buffer_size)
    (hw : words line = lab :: qtok :: (pre ++ bad :: post))
    (hlab : lab.head? ≠ some '#') (hq : atou_qid qtok = some qid)
    (hpre : ∀ t ∈ pre, t.head? ≠ some '#') (hbad : bad.head? ≠ some '#')
    (hcolon : ':' ∉ bad)
    (hpos : ∀ t ∈ pre, ∀ fid v, sscanf_feature t = some (fid, v) → 1 ≤ fid) :
    read_line st line = .exit .malformedFeature ∧
    read_horizontal (before ++ line :: after) = .exit .malformedFeature ∧
    Fatal.status .malformedFeature = some 4 ∧
    Fatal.status .malformedFeature ≠ Fatal.status .missingLabel ∧
    Fatal.status .malformedFeature ≠ Fatal.status .lineTooLong := by
  have hnc : (line.dropWhile ISSPC).head? ≠ some '#' := by
    rw [head?_words, hw]
    exact hlab
  have hline : read_line st line = .exit .malformedFeature := by
    rw [read_line_words st line hnc, hw]
    unfold record_of_words
    simp only [List.headD_cons, hq, List.drop_succ_cons, List.drop_zero]
    rw [takeWhile_append_of_all bad post (by simpa using hbad) pre
      (fun t ht => by simpa using hpre t ht)]
    rw [store_features_bad bad _ (sscanf_feature_of_no_colon hcolon) pre _ _
      (resize_length _ _) hpos]
  refine ⟨hline, ?_, rfl, by decide, by decide⟩
  apply read_horizontal_of_exit
  rw [read_lines_append before _ st _ hfitb hbefore, read_lines_of_fit st line after hfit, hline]

/-- Witness of C11: the line `2 qid:2 1:0.5 12 3:1`, whose second feature token `12` has no
`:`, after the line `1 qid:1 1:1`. -/
theorem read_horizontal_feature_without_colon_witness :
    read_line ⟨1, [1], [1], [[1]]⟩ "2 qid:2 1:0.5 12 3:1".toList = .exit .malformedFeature ∧
    read_horizontal
        (["1 qid:1 1:1".toList] ++ "2 qid:2 1:0.5 12 3:1".toList :: ["3 qid:3 1:1".toList])
      = .exit .malformedFeature ∧
    Fatal.status .malformedFeature = some 4 ∧
    Fatal.status .malformedFeature ≠ Fatal.status .missingLabel ∧
    Fatal.status .malformedFeature ≠ Fatal.status .lineTooLong :=
  read_horizontal_feature_without_colon ["1 qid:1 1:1".toList] ["3 qid:3 1:1".toList]
    ⟨1, [1], [1], [[1]]⟩ "2 qid:2 1:0.5 12 3:1".toList "2".toList "qid:2".toList 2
    ["1:0.5".toList] "12".toList ["3:1".toList] (by decide) (by decide!) (by decide)
    (by decide!) (by decide) (by decide!) (by decide) (by decide) (by decide)
    (by
      intro t ht fid v h
      rw [List.mem_singleton] at ht
      subst ht
      have h1 : sscanf_feature "1:0.5".toList = some (1, 1 / 2) := by decide!
      rw [h1] at h
      cases h
      exact le_refl 1)

/-- C12, the code at the failing input: the feature token `0:1.5` is converted by `sscanf`
(two conversions, id 0), so it is not rejected, and the store to `curr_instance[fid - 1]`
with `fid - 1` computed in `size_t` lies outside the vector: the behaviour of
`read_horizontal` on the line `1 qid:1 0:1.5` is undefined. -/
theorem read_horizontal_feature_id_zero :
    sscanf_feature "0:1.5".toList = some (0, 3 / 2) ∧
    read_line ReaderState.init "1 qid:1 0:1.5".toList = .undefined ∧
    read_horizontal ["1 qid:1 0:1.5".toList] = .undefined := by
  decide!

/-- C13, the code at the failing input: the second line of the file has 10253 characters, more
than the line buffer holds, so `getline` sets `failbit`, the condition of the `while` loop is
false and the test that leads to `exit(3)` inside the loop is never reached: `read_horizontal`
exits with no status and returns the dataset built from the first line only; the third line
is never read. -/
theorem read_horizontal_overlong_line :
    getline_failbit ("2 qid:2 1:1 #".toList ++ List.replicate 10240 'x') = true ∧
    read_horizontal ["1 qid:1 1:1".toList,
        "2 qid:2 1:1 #".toList ++ List.replicate 10240 'x', "3 qid:3 1:1".toList]
      = .ok ⟨1, 1, [(1, 1, [1])]⟩ ∧
    read_horizontal ["1 qid:1 1:1".toList,
        "2 qid:2 1:1 #".toList ++ List.replicate 10240 'x', "3 qid:3 1:1".toList]
      ≠ .exit .lineTooLong := by
  have hlen : ("2 qid:2 1:1 #".toList ++ List.replicate 10240 'x').length = 10253 := by
    rw [List.length_append, List.length_replicate]
    rfl
  have hfail : getline_failbit ("2 qid:2 1:1 #".toList ++ List.replicate 10240 'x') = true := by
    unfold getline_failbit
    rw [hlen]
    decide
  have h1 : read_line ReaderState.init "1 qid:1 1:1".toList = .ok ⟨1, [1], [1], [[1]]⟩ := by
    decide!
  have hread : read_horizontal ["1 qid:1 1:1".toList,
        "2 qid:2 1:1 #".toList ++ List.replicate 10240 'x', "3 qid:3 1:1".toList]
      = .ok ⟨1, 1, [(1, 1, [1])]⟩ := by
    unfold read_horizontal
    rw [read_lines_of_fit _ _ _ (by decide), h1]
    simp only
    rw [read_lines_of_overlong _ _ _ (by rw [hlen]; decide)]
    rfl
  refine ⟨hfail, hread, ?_⟩
  rw [hread]
  exact fun h => Outcome.noConfusion h

/-- C14: a line whose first character after leading whitespace is `#` yields no record and
leaves the state of the reader as it is: `maxfid` and the three lists are unchanged; when
`getline` delivers the line, the result of `read_horizontal` is that of the file without the
line. -/
theorem read_horizontal_comment_line (before after : List (List Char)) (st : ReaderState)
    (line : List Char) (hc : (line.dropWhile ISSPC).head? = some '#')
    (hfit : line.length < line_buffer_size) :
    read_line st line = .ok st ∧
    read_lines st (line :: after) = read_lines st after ∧
    read_horizontal (before ++ line :: after) = read_horizontal (before ++ after) := by
  refine ⟨read_line_comment st line hc, ?_, ?_⟩
  · rw [read_lines_of_fit st line after hfit, read_line_comment st line hc]
  · unfold read_horizontal
    rw [read_lines_skip_comment line hc hfit after before]

/-- Witness of C14: the comment line `  # a comment 3:x` between two records. -/
theorem read_horizontal_comment_line_witness :
    read_line ⟨1, [1], [1], [[1]]⟩ "  # a comment 3:x".toList = .ok ⟨1, [1], [1], [[1]]⟩ ∧
    read_lines ⟨1, [1], [1], [[1]]⟩ ("  # a comment 3:x".toList :: ["3 qid:3 2:1".toList])
      = read_lines ⟨1, [1], [1], [[1]]⟩ ["3 qid:3 2:1".toList] ∧
    read_horizontal
        (["1 qid:1 1:1".toList] ++ "  # a comment 3:x".toList :: ["3 qid:3 2:1".toList])
      = read_horizontal (["1 qid:1 1:1".toList] ++ ["3 qid:3 2:1".toList]) :=
  read_horizontal_comment_line ["1 qid:1 1:1".toList] ["3 qid:3 2:1".toList]
    ⟨1, [1], [1], [[1]]⟩ "  # a comment 3:x".toList (by decide) (by decide)

/-- C16: in a file whose lines all fit the line buffer and whose lines other than comments are
well formed, with the records `recs`, `read_horizontal` returns a dataset with one instance
per record, in file order, with the query id and the label of the record; the number of
features is the largest feature id of the file; the vector of the record of index `i` has the
length of the largest feature id of the records up to and including `i`, at most the number of
features; it holds at index `fid - 1` the value of the last token of the line with the id
`fid`, and `0` at each index whose id the line does not mention. -/
theorem read_horizontal_records (file : List (List Char)) (recs : List Record)
    (hfit : ∀ l ∈ file, l.length < line_buffer_size)
    (hwf : List.Forall₂ WellFormed (file.filter (fun l => !isComment l)) recs) :
    ∃ loaded, read_horizontal file = .ok loaded ∧
      loaded.num_instances = recs.length ∧
      loaded.num_features = maxFid 0 (recs.flatMap Record.pairs) ∧
      loaded.instances.length = recs.length ∧
      ∀ (i : Nat) (hi : i < recs.length), ∃ vec,
        loaded.instances[i]? = some (recs[i].qid, recs[i].label, vec) ∧
        vec.length = maxFid 0 ((recs.take (i + 1)).flatMap Record.pairs) ∧
        vec.length ≤ loaded.num_features ∧
        (∀ pre fid v post, recs[i].pairs = pre ++ (fid, v) :: post →
          (∀ p ∈ post, p.1 ≠ fid) → fid - 1 < vec.length ∧ vec[fid - 1]? = some v) ∧
        (∀ j, j < vec.length → (∀ p ∈ recs[i].pairs, p.1 ≠ j + 1) → vec[j]? = some 0) := by
  have hread : read_lines ReaderState.init file
      = .ok ⟨maxFid 0 (recs.flatMap Record.pairs), [] ++ recs.map Record.qid,
          [] ++ recs.map Record.label, [] ++ specInstances 0 recs⟩ := by
    rw [read_lines_filter file _ hfit]
    refine read_lines_records _ recs hwf ReaderState.init ?_
    intro l hl
    rw [List.mem_filter] at hl
    exact ⟨hfit l hl.1, by simpa using hl.2⟩
  refine ⟨⟨recs.length, maxFid 0 (recs.flatMap Record.pairs),
    List.zip (recs.map Record.qid) (List.zip (recs.map Record.label) (specInstances 0 recs))⟩,
    ?_, rfl, rfl, ?_, ?_⟩
  · unfold read_horizontal
    rw [hread]
    simp
  · simp [List.length_zip, specInstances_length]
  · intro i hi
    refine ⟨specVector (maxFid 0 ((recs.take (i + 1)).flatMap Record.pairs)) recs[i].pairs,
      ?_, specVector_length _ _, ?_, ?_, ?_⟩
    · rw [List.getElem?_zip_eq_some, List.getElem?_zip_eq_some]
      refine ⟨?_, ?_, specInstances_getElem? recs 0 i hi⟩
      · rw [List.getElem?_map, List.getElem?_eq_getElem hi]
        rfl
      · rw [List.getElem?_map, List.getElem?_eq_getElem hi]
        rfl
    · rw [specVector_length]
      exact maxFid_take_le recs (i + 1)
    · intro pre fid v post hpairs hpost
      have hmem : (fid, v) ∈ recs[i].pairs := by
        rw [hpairs]
        exact List.mem_append_right _ (List.mem_cons_self _ _)
      have hpos : 1 ≤ fid := wellFormed_pos _ recs hwf _ (List.getElem_mem hi) _ hmem
      have hle : fid ≤ maxFid 0 ((recs.take (i + 1)).flatMap Record.pairs) :=
        mem_pairs_le_maxFid_take recs i hi _ hmem
      have hlt : fid - 1 < maxFid 0 ((recs.take (i + 1)).flatMap Record.pairs) := by omega
      refine ⟨by rw [specVector_length]; exact hlt, ?_⟩
      rw [specVector_getElem? _ _ _ hlt, Nat.sub_add_cancel hpos, hpairs,
        lastValue_of_last pre fid v post 0 hpost]
    · intro j hj hno
      rw [specVector_length] at hj
      rw [specVector_getElem? _ _ _ hj, lastValue_of_not_mem _ _ _ hno]

/-- Witness of C16: the file `sampleFile` with the records `sampleRecords`. -/
theorem read_horizontal_records_witness :
    ∃ loaded, read_horizontal sampleFile = .ok loaded ∧
      loaded.num_instances = sampleRecords.length ∧
      loaded.num_features = maxFid 0 (sampleRecords.flatMap Record.pairs) ∧
      loaded.instances.length = sampleRecords.length ∧
      ∀ (i : Nat) (hi : i < sampleRecords.length), ∃ vec,
        loaded.instances[i]? = some (sampleRecords[i].qid, sampleRecords[i].label, vec) ∧
        vec.length = maxFid 0 ((sampleRecords.take (i + 1)).flatMap Record.pairs) ∧
        vec.length ≤ loaded.num_features ∧
        (∀ pre fid v post, sampleRecords[i].pairs = pre ++ (fid, v) :: post →
          (∀ p ∈ post, p.1 ≠ fid) → fid - 1 < vec.length ∧ vec[fid - 1]? = some v) ∧
        (∀ j, j < vec.length → (∀ p ∈ sampleRecords[i].pairs, p.1 ≠ j + 1) →
          vec[j]? = some 0) :=
  read_horizontal_records sampleFile sampleRecords (by decide)
    (by
      have hf : sampleFile.filter (fun l => !isComment l)
          = ["1 qid:1 3:0.5 1:2".toList, "0 qid:7 2:1 2:4 # 9:9".toList] := by decide
      rw [hf]
      exact List.Forall₂.cons
        ⟨"1".toList, "qid:1".toList, ["3:0.5".toList, "1:2".toList], by decide!, by decide!,
          by decide!, by decide!, by decide⟩
        (List.Forall₂.cons
          ⟨"0".toList, "qid:7".toList,
            ["2:1".toList, "2:4".toList, "#".toList, "9:9".toList], by decide!, by decide!,
            by decide!, by decide!, by decide⟩
          List.Forall₂.nil))

/-- C17: for a dataset whose queries hold `num_features` values per instance, `Svml::write`
writes the lines of the queries one block after the other in index order, one line per
instance in the order of the query; the line of the instance `r` of the query of index `q` has
as second word `qid:` with `q + 1`, which `atou` reads back as `q + 1`, and after it exactly
`num_features` feature tokens, the token of index `f` being the id `f + 1`, read back by
`sscanf` as `f + 1`, a colon and the value `features[r * num_features + f]` of the row. -/
theorem write_lines (dataset : Dataset) (hF : dataset.num_features < 2 ^ 64)
    (hrows : ∀ res ∈ dataset.queries,
      res.features.length = res.num_results * dataset.num_features) :
    ∃ blocks : List (List (List Char)),
      write dataset = some blocks.flatten ∧
      blocks.length = dataset.queries.length ∧
      blocks.flatten.length = (dataset.queries.map QueryResults.num_results).sum ∧
      ∀ (q : Nat) (hq : q < dataset.queries.length), ∃ block, blocks[q]? = some block ∧
        block.length = dataset.queries[q].num_results ∧
        ∀ r, r < dataset.queries[q].num_results → ∃ line lab ftoks,
          block[r]? = some line ∧
          words line = lab :: ("qid:".toList ++ showNat (q + 1)) :: ftoks ∧
          atou_qid ("qid:".toList ++ showNat (q + 1)) = some (q + 1) ∧
          ftoks.length = dataset.num_features ∧
          ∀ f, f < dataset.num_features → ∃ v,
            dataset.queries[q].features[r * dataset.num_features + f]? = some v ∧
            ftoks[f]? = some (showNat (f + 1) ++ ':' :: formatFixed max_digits10 v) ∧
            scanSizeT (showNat (f + 1) ++ ':' :: formatFixed max_digits10 v)
              = some (f + 1, ':' :: formatFixed max_digits10 v) := by
  obtain ⟨blocks, hwrite, hbl, hblocks⟩ :=
    write_queries_spec dataset.num_features dataset.queries 0 false hrows
  have hlens : ∀ (bs : List (List (List Char))) (qs : List QueryResults),
      bs.length = qs.length →
      (∀ (i : Nat) (hi : i < qs.length), ∃ block, bs[i]? = some block ∧
        block.length = qs[i].num_results) →
      bs.map List.length = qs.map QueryResults.num_results := by
    intro bs qs hlen h
    apply List.ext_getElem (by simp [hlen])
    intro n h1 h2
    have hn : n < qs.length := by simpa using h2
    obtain ⟨block, hb, hbl1⟩ := h n hn
    have hnb : n < bs.length := by simpa using h1
    rw [List.getElem?_eq_getElem hnb] at hb
    simp only [List.getElem_map]
    rw [Option.some.inj hb, hbl1]
  refine ⟨blocks, hwrite, hbl, ?_, ?_⟩
  · rw [List.length_flatten, hlens blocks dataset.queries hbl
      (fun i hi => by
        obtain ⟨block, hb, hbl1, _⟩ := hblocks i hi
        exact ⟨block, hb, hbl1⟩)]
  · intro q hq
    obtain ⟨block, hb, hbl1, hlines⟩ := hblocks q hq
    refine ⟨block, hb, hbl1, ?_⟩
    intro r hr
    obtain ⟨line, hline, fixed, hw⟩ := hlines r hr
    rw [Nat.zero_add] at hw
    refine ⟨line, _, _, hline, hw, atou_qid_showNat q, by simp, ?_⟩
    intro f hf
    have hrow := hrows _ (List.getElem_mem hq)
    have hidx : r * dataset.num_features + f < dataset.queries[q].features.length := by
      rw [hrow]
      calc r * dataset.num_features + f < r * dataset.num_features + dataset.num_features := by
            omega
        _ = (r + 1) * dataset.num_features := (Nat.succ_mul _ _).symm
        _ ≤ dataset.queries[q].num_results * dataset.num_features :=
            Nat.mul_le_mul_right _ hr
    refine ⟨dataset.queries[q].features[r * dataset.num_features + f],
      List.getElem?_eq_getElem hidx, ?_, scanSizeT_showNat _ (by omega) _⟩
    rw [List.getElem?_map, List.getElem?_range hf]
    simp [featureToken, List.getD_eq_getElem?_getD, List.getElem?_eq_getElem hidx]

/-- Witness of C17: the dataset `sampleDataset`. -/
theorem write_lines_witness :
    ∃ blocks : List (List (List Char)),
      write sampleDataset = some blocks.flatten ∧
      blocks.length = sampleDataset.queries.length ∧
      blocks.flatten.length = (sampleDataset.queries.map QueryResults.num_results).sum ∧
      ∀ (q : Nat) (hq : q < sampleDataset.queries.length), ∃ block, blocks[q]? = some block ∧
        block.length = sampleDataset.queries[q].num_results ∧
        ∀ r, r < sampleDataset.queries[q].num_results → ∃ line lab ftoks,
          block[r]? = some line ∧
          words line = lab :: ("qid:".toList ++ showNat (q + 1)) :: ftoks ∧
          atou_qid ("qid:".toList ++ showNat (q + 1)) = some (q + 1) ∧
          ftoks.length = sampleDataset.num_features ∧
          ∀ f, f < sampleDataset.num_features → ∃ v,
            sampleDataset.queries[q].features[r * sampleDataset.num_features + f]? = some v ∧
            ftoks[f]? = some (showNat (f + 1) ++ ':' :: formatFixed max_digits10 v) ∧
            scanSizeT (showNat (f + 1) ++ ':' :: formatFixed max_digits10 v)
              = some (f + 1, ':' :: formatFixed max_digits10 v) :=
  write_lines sampleDataset (by decide) (by decide)

/-- C15, the code at the failing inputs: a dataset of one instance with the label 0 and the
feature value `2^-40` is written as the line `0 qid:1 1:0.000000000`, because the precision
`max_digits10` counts the digits after the point in fixed notation, and is read back with the
feature value 0; a dataset of one instance with the label 15 is written as
`2e+01 qid:1 1:1.000000000`, because the first label is written before `std::fixed` is set,
with one significant digit, and is read back with the label 20, while 15 rounded to the
nearest integer is 15. -/
theorem write_read_round_trip :
    write ⟨1, [⟨[0], [1 / 2 ^ 40]⟩]⟩ = some ["0 qid:1 1:0.000000000".toList] ∧
    read_horizontal ["0 qid:1 1:0.000000000".toList] = .ok ⟨1, 1, [(1, 0, [0])]⟩ ∧
    (0 : ℚ) ≠ 1 / 2 ^ 40 ∧
    write ⟨1, [⟨[15], [1]⟩]⟩ = some ["2e+01 qid:1 1:1.000000000".toList] ∧
    read_horizontal ["2e+01 qid:1 1:1.000000000".toList] = .ok ⟨1, 1, [(1, 20, [1])]⟩ ∧
    roundHalfEven 15 1 = 15 := by
  refine ⟨by decide!, by decide!, by norm_num, by decide!, by decide!, by decide⟩

end SvmlTheorems

end QuickRank
